import Mathlib

/-!
Verification development for the sqigl schema-migration engine.

This file gives a shallow embedding, in Lean 4, of the core of the
repository: the build planner (`src/actions/build.rs`), the artifact
streaming contract (`src/artifact.rs`, `src/actions/build.rs`,
`src/migration.rs`, `src/backend/mod.rs`), the migration set and save
path (`src/migration.rs`, `src/util.rs`), the database backend protocol
(`src/backend/sqlite/mod.rs`, `src/backend/postgres/mod.rs`) and the
project manifest opening (`src/manifest/project.rs`).

Conventions of the embedding:
* byte strings are `List Nat` (each entry < 256);
* filesystem paths are `List String` of canonical components measured
  from the filesystem root (`[]` is the root directory);
* the filesystem is explicit data (`Fs`), directory-read order is the
  order of the node list (the source's order is filesystem-dependent);
* machine integers are `Nat` with explicit `% 2^32` where the source
  wraps (SHA-256);
* fallible code returns `Except`;
* the non-terminating scheduling loop of the planner is embedded with
  explicit fuel; `none` means the fuel ran out.
-/

set_option maxRecDepth 40000

/-! ## Bytes, ASCII trimming, UTF-8 -/

/-- Byte strings: each entry is a byte value (0..255). -/
abbrev ByteStr : Type := List Nat

/-- ASCII whitespace per Rust's `u8::is_ascii_whitespace`:
space, tab, newline, form feed, carriage return. -/
def isAsciiWs (b : Nat) : Bool :=
  b == 0x20 || b == 0x09 || b == 0x0A || b == 0x0C || b == 0x0D

/-- Remove trailing ASCII whitespace (second half of Rust `trim_ascii`). -/
def trimAsciiEnd (l : List Nat) : List Nat :=
  (l.reverse.dropWhile isAsciiWs).reverse

/-- Rust `trim_ascii` on bytes: strip leading and trailing ASCII whitespace,
interior bytes preserved verbatim. -/
def trimAscii (l : List Nat) : List Nat :=
  trimAsciiEnd (l.dropWhile isAsciiWs)

/-- UTF-8 encoding of one unicode scalar value. -/
def utf8EncodeChar (c : Nat) : List Nat :=
  if c < 0x80 then [c]
  else if c < 0x800 then [0xC0 + c / 64, 0x80 + c % 64]
  else if c < 0x10000 then [0xE0 + c / 4096, 0x80 + (c / 64) % 64, 0x80 + c % 64]
  else [0xF0 + c / 262144, 0x80 + (c / 4096) % 64, 0x80 + (c / 64) % 64, 0x80 + c % 64]

/-- UTF-8 bytes of a Lean string; used to embed Rust `str` values as bytes. -/
def strBytes (s : String) : List Nat :=
  s.data.flatMap (fun c => utf8EncodeChar c.toNat)

/-- Is `b` a UTF-8 continuation byte (0x80..0xBF)? -/
def isUtf8Cont (b : Nat) : Prop := 0x80 ≤ b ∧ b ≤ 0xBF

instance (b : Nat) : Decidable (isUtf8Cont b) := by unfold isUtf8Cont; infer_instance

/-- Decode one UTF-8 scalar from the front of a byte list.  Overlong
encodings, surrogates and values above 0x10FFFF are rejected, matching
Rust's `str::from_utf8`. -/
def utf8DecodeChar? : List Nat → Option (Nat × List Nat)
  | [] => none
  | b :: r =>
    if b < 0x80 then some (b, r)
    else if b < 0xC2 then none
    else if b < 0xE0 then
      match r with
      | b2 :: r2 => if isUtf8Cont b2 then some ((b - 0xC0) * 64 + (b2 - 0x80), r2) else none
      | _ => none
    else if b < 0xF0 then
      match r with
      | b2 :: b3 :: r3 =>
        if isUtf8Cont b2 ∧ isUtf8Cont b3 then
          let c := (b - 0xE0) * 4096 + (b2 - 0x80) * 64 + (b3 - 0x80)
          if 0x800 ≤ c ∧ ¬ (0xD800 ≤ c ∧ c ≤ 0xDFFF) then some (c, r3) else none
        else none
      | _ => none
    else if b < 0xF5 then
      match r with
      | b2 :: b3 :: b4 :: r4 =>
        if isUtf8Cont b2 ∧ isUtf8Cont b3 ∧ isUtf8Cont b4 then
          let c := (b - 0xF0) * 262144 + (b2 - 0x80) * 4096 + (b3 - 0x80) * 64 + (b4 - 0x80)
          if 0x10000 ≤ c ∧ c < 0x110000 then some (c, r4) else none
        else none
      | _ => none
    else none

/-- Fueled UTF-8 validity check (the fuel is an upper bound on the number
of scalars; one byte per scalar at least, so the length suffices). -/
def utf8ValidFuel : Nat → List Nat → Bool
  | _, [] => true
  | 0, _ :: _ => false
  | n + 1, l => match utf8DecodeChar? l with
    | some (_, r) => utf8ValidFuel n r
    | none => false

/-- Validity of a byte list as UTF-8, as checked by Rust's `str::from_utf8`. -/
def utf8Valid (l : List Nat) : Bool := utf8ValidFuel l.length l

/-! ## SHA-256

The `sha2` crate is external to the repository; the spec pins the hash
function to SHA-256 over the delivered byte stream, so the compression
function is written out here in full.  Words are `Nat` reduced mod 2^32. -/

/-- 2^32, the word modulus of SHA-256. -/
def w32 : Nat := 4294967296

/-- Right rotation of a 32-bit word. -/
def rotr32 (n x : Nat) : Nat := ((x >>> n) ||| (x <<< (32 - n))) % w32

/-- The SHA-256 round constants. -/
def sha256K : List Nat :=
  [1116352408, 1899447441, 3049323471, 3921009573, 961987163, 1508970993,
   2453635748, 2870763221, 3624381080, 310598401, 607225278, 1426881987,
   1925078388, 2162078206, 2614888103, 3248222580, 3835390401, 4022224774,
   264347078, 604807628, 770255983, 1249150122, 1555081692, 1996064986,
   2554220882, 2821834349, 2952996808, 3210313671, 3336571891, 3584528711,
   113926993, 338241895, 666307205, 773529912, 1294757372, 1396182291,
   1695183700, 1986661051, 2177026350, 2456956037, 2730485921, 2820302411,
   3259730800, 3345764771, 3516065817, 3600352804, 4094571909, 275423344,
   430227734, 506948616, 659060556, 883997877, 958139571, 1322822218,
   1537002063, 1747873779, 1955562222, 2024104815, 2227730452, 2361852424,
   2428436474, 2756734187, 3204031479, 3329325298]

/-- The SHA-256 initial hash value. -/
def sha256H0 : List Nat :=
  [1779033703,
   3144134277,
   1013904242,
   2773480762,
   1359893119,
   2600822924,
   528734635,
   1541459225]

/-- Big-endian 4-byte groups to 32-bit words. -/
def bytesToWordsBE : List Nat → List Nat
  | b0 :: b1 :: b2 :: b3 :: rest => (((b0 * 256 + b1) * 256 + b2) * 256 + b3) :: bytesToWordsBE rest
  | _ => []

/-- Big-endian bytes of `n`, `k` bytes wide. -/
def natToBytesBE (k : Nat) (n : Nat) : List Nat :=
  match k with
  | 0 => []
  | k + 1 => natToBytesBE k (n / 256) ++ [n % 256]

/-- SHA-256 padding: a 0x80 byte, zeros to 56 mod 64, then the bit length
as an 8-byte big-endian integer. -/
def sha256Pad (msg : List Nat) : List Nat :=
  let l := msg.length
  let padLen := (55 + 64 - l % 64) % 64 + 1
  msg ++ [0x80] ++ List.replicate (padLen - 1) 0 ++ natToBytesBE 8 (l * 8)

/-- Extend the 16-word message block to the 64-word schedule (`t` extension
steps remain). -/
def sha256Sched (w : List Nat) : Nat → List Nat
  | 0 => w
  | t + 1 =>
    let w' := sha256Sched w t
    let idx := w'.length
    let x15 := w'.getD (idx - 15) 0
    let x2 := w'.getD (idx - 2) 0
    let s0 := (rotr32 7 x15) ^^^ (rotr32 18 x15) ^^^ (x15 >>> 3)
    let s1 := (rotr32 17 x2) ^^^ (rotr32 19 x2) ^^^ (x2 >>> 10)
    w' ++ [(w'.getD (idx - 16) 0 + s0 + w'.getD (idx - 7) 0 + s1) % w32]

/-- One SHA-256 round: `kw` is the pair of round constant and schedule word. -/
def sha256Round (st : List Nat) (kw : Nat × Nat) : List Nat :=
  match st with
  | [a, b, c, d, e, f, g, h] =>
    let s1 := (rotr32 6 e) ^^^ (rotr32 11 e) ^^^ (rotr32 25 e)
    let ch := (e &&& f) ^^^ ((w32 - 1 - e) &&& g)
    let t1 := (h + s1 + ch + kw.1 + kw.2) % w32
    let s0 := (rotr32 2 a) ^^^ (rotr32 13 a) ^^^ (rotr32 22 a)
    let mj := (a &&& b) ^^^ (a &&& c) ^^^ (b &&& c)
    let t2 := (s0 + mj) % w32
    [(t1 + t2) % w32, a, b, c, (d + t1) % w32, e, f, g]
  | _ => st

/-- Process one 64-byte block. -/
def sha256Block (h : List Nat) (block : List Nat) : List Nat :=
  let w := sha256Sched (bytesToWordsBE block) 48
  let st := (sha256K.zip w).foldl sha256Round h
  (h.zip st).map (fun p => (p.1 + p.2) % w32)

/-- Process `n` leading 64-byte blocks of `msg`. -/
def sha256Blocks : Nat → List Nat → List Nat → List Nat
  | 0, h, _ => h
  | n + 1, h, msg => sha256Blocks n (sha256Block h (msg.take 64)) (msg.drop 64)

/-- SHA-256 digest (32 bytes) of a byte string. -/
def sha256 (msg : List Nat) : List Nat :=
  let padded := sha256Pad msg
  let hs := sha256Blocks (padded.length / 64) sha256H0 padded
  hs.flatMap (natToBytesBE 4)

/-- Sanity: the FIPS 180 test vector for the message "abc". -/
theorem sha256_test_vector_abc : sha256 (strBytes "abc") =
    [0xba, 0x78, 0x16, 0xbf, 0x8f, 0x01, 0xcf, 0xea, 0x41, 0x41, 0x40, 0xde, 0x5d, 0xae, 0x22, 0x23,
     0xb0, 0x03, 0x61, 0xa3, 0x96, 0x17, 0x7a, 0x9c, 0xb4, 0x10, 0xff, 0x61, 0xf2, 0x00, 0x15, 0xad] := by
  decide

/-- Decidable equality for `Except` results. -/
instance {ε α : Type} [DecidableEq ε] [DecidableEq α] : DecidableEq (Except ε α) := fun x y =>
  match x, y with
  | .error e, .error f =>
    if h : e = f then isTrue (by rw [h]) else isFalse (fun hh => h (by cases hh; rfl))
  | .error _, .ok _ => isFalse (fun hh => by cases hh)
  | .ok _, .error _ => isFalse (fun hh => by cases hh)
  | .ok a, .ok b =>
    if h : a = b then isTrue (by rw [h]) else isFalse (fun hh => h (by cases hh; rfl))

/-! ## Semantic versions (`semver` crate values as used by `src/util.rs`)

The `semver` crate is an external collaborator; the repository constructs
only `=`-comparators (`util.rs`), and the matching and ordering semantics
below follow the crate's documented behaviour. -/

/-- A prerelease identifier: numeric or alphanumeric. -/
inductive PreId
  | num (n : Nat)
  | alpha (s : String)
deriving DecidableEq, Repr

/-- A semantic version `MAJOR.MINOR.PATCH[-PRE][+BUILD]`. -/
structure SemVer where
  major : Nat
  minor : Nat
  patch : Nat
  pre : List PreId
  build : List String
deriving DecidableEq, Repr

/-- Comparison of prerelease identifiers: numeric identifiers compare
numerically and are lower than alphanumeric ones; alphanumeric ones
compare lexically. -/
def cmpPreId : PreId → PreId → Ordering
  | .num a, .num b => compare a b
  | .num _, .alpha _ => .lt
  | .alpha _, .num _ => .gt
  | .alpha a, .alpha b => compare a b

/-- Identifier-list comparison; a shorter list of identifiers is lower. -/
def cmpPreIds : List PreId → List PreId → Ordering
  | [], [] => .eq
  | [], _ :: _ => .lt
  | _ :: _, [] => .gt
  | x :: xs, y :: ys => (cmpPreId x y).then (cmpPreIds xs ys)

/-- Prerelease comparison: an empty prerelease (a release) is higher
than any prerelease. -/
def cmpPre : List PreId → List PreId → Ordering
  | [], [] => .eq
  | [], _ :: _ => .gt
  | _ :: _, [] => .lt
  | x :: xs, y :: ys => cmpPreIds (x :: xs) (y :: ys)

/-- Build-metadata comparison (the crate totalizes its `Ord` with it;
never exercised by the claims): absent metadata is lower. -/
def cmpBuild : List String → List String → Ordering
  | [], [] => .eq
  | [], _ :: _ => .lt
  | _ :: _, [] => .gt
  | x :: xs, y :: ys => (compare x y).then (cmpBuild xs ys)

/-- Total order on versions as in the `semver` crate. -/
def cmpSemVer (a b : SemVer) : Ordering :=
  (compare a.major b.major).then
    ((compare a.minor b.minor).then
      ((compare a.patch b.patch).then
        ((cmpPre a.pre b.pre).then (cmpBuild a.build b.build))))

/-- The `<=` of `semver::Version`. -/
def semverLe (a b : SemVer) : Bool := cmpSemVer a b ≠ .gt

/-- An `=`-comparator (`Op::Exact`), the only operator the repository
constructs (`util.rs`). -/
structure Comparator where
  major : Nat
  minor : Option Nat
  patch : Option Nat
  pre : List PreId
deriving DecidableEq, Repr

/-- A version requirement: a conjunction of comparators. -/
structure VersionReq where
  comparators : List Comparator
deriving DecidableEq, Repr

/-- Does an `=`-comparator match a version (the crate's `matches_exact`)? -/
def matchesExact (c : Comparator) (v : SemVer) : Bool :=
  v.major == c.major
    && (match c.minor with | some m => v.minor == m | none => true)
    && (match c.patch with | some p => v.patch == p | none => true)
    && v.pre == c.pre

/-- The crate's prerelease policy: a prerelease version matches only if
some comparator carries a prerelease at the same `major.minor.patch`. -/
def preCompatible (req : VersionReq) (v : SemVer) : Bool :=
  v.pre.isEmpty
    || req.comparators.any (fun c =>
        ¬ c.pre.isEmpty && c.major == v.major
          && c.minor == some v.minor && c.patch == some v.patch)

/-- `VersionReq::matches` restricted to `=`-comparators. -/
def VersionReq.matches (req : VersionReq) (v : SemVer) : Bool :=
  req.comparators.all (fun c => matchesExact c v) && preCompatible req v

/-- Version `0.0.0` (`util::empty_database_version`). -/
def empty_database_version : SemVer :=
  { major := 0, minor := 0, patch := 0, pre := [], build := [] }

/-- Version `0.1.0` (`util::new_project_version`). -/
def new_project_version : SemVer :=
  { major := 0, minor := 1, patch := 0, pre := [], build := [] }

/-- Requirement `=0.0.0` (`util::from_empty_database`). -/
def from_empty_database : VersionReq :=
  { comparators := [{ major := 0, minor := some 0, patch := some 0, pre := [] }] }

/-- For a version `a.b.c`, the requirement `=a.b` with the prerelease
carried over (`util::from_minor_version`). -/
def from_minor_version (v : SemVer) : VersionReq :=
  { comparators := [{ major := v.major, minor := some v.minor, patch := none, pre := v.pre }] }

/-- For a version `a.b.c`, the requirement `=a.b.c` with the prerelease
carried over (`util::from_patch_version`). -/
def from_patch_version (v : SemVer) : VersionReq :=
  { comparators := [{ major := v.major, minor := some v.minor, patch := some v.patch, pre := v.pre }] }

/-- Normalize a version for artifact-directory naming
(`util::normalize_version`): patch zeroed, build dropped, prerelease kept. -/
def normalize_version (v : SemVer) : SemVer :=
  { major := v.major, minor := v.minor, patch := 0, pre := v.pre, build := [] }

/-- Rendering of a prerelease identifier. -/
def PreId.render : PreId → String
  | .num n => toString n
  | .alpha s => s

/-- The `Display` rendering of a version, used for directory names and
the `version` column of history rows. -/
def semverString (v : SemVer) : String :=
  toString v.major ++ "." ++ toString v.minor ++ "." ++ toString v.patch
    ++ (if v.pre.isEmpty then "" else "-" ++ String.intercalate "." (v.pre.map PreId.render))
    ++ (if v.build.isEmpty then "" else "+" ++ String.intercalate "." v.build)

/-! ## Filesystem model and manifests -/

/-- Canonical filesystem paths: component lists measured from the root. -/
abbrev FsPath : Type := List String

/-- A dependency path as written in a manifest: `absolute` paths (leading
`/`) are source-root-relative, other paths are module-relative.
Components may include `.` and `..`. -/
structure DepPath where
  absolute : Bool
  comps : List String
deriving DecidableEq, Repr

/-- A `[[scripts]]` entry of a module manifest (`manifest/module.rs`
`Script`): the script's file name plus its declared dependencies. -/
structure ModuleScript where
  script : String
  dependencies : List DepPath
deriving DecidableEq, Repr

/-- A module manifest (`manifest/module.rs` `ModuleManifest`):
`[module] dependencies` plus the `[[scripts]]` entries. -/
structure ModuleManifest where
  dependencies : List DepPath
  scripts : List ModuleScript
deriving DecidableEq, Repr

/-- A `[[migrations]]` entry of an artifact-directory manifest
(`manifest/artifact.rs` `Migration`). -/
structure ArtifactMigration where
  script : String
  fromReq : VersionReq
  toV : SemVer
deriving DecidableEq, Repr

/-- A project manifest's fields used by the claims
(`manifest/project.rs` `Project`; the database section is opaque here). -/
structure ProjectManifestData where
  title : String
  version : SemVer
deriving Repr

/-- A filesystem node: a directory or a regular file with its bytes. -/
inductive FsNode
  | dir (path : FsPath)
  | file (path : FsPath) (content : ByteStr)
deriving DecidableEq, Repr

/-- The path of a node. -/
def FsNode.path : FsNode → FsPath
  | .dir p => p
  | .file p _ => p

/-- The filesystem: a node list (its order is the directory-read order)
plus the parsed manifests, keyed by the directory holding them.  TOML
reading is an external collaborator, so manifests appear pre-parsed. -/
structure Fs where
  nodes : List FsNode
  moduleManifests : List (FsPath × ModuleManifest)
  artifactManifests : List (FsPath × List ArtifactMigration)
  projectManifests : List (FsPath × ProjectManifestData)

/-- Is `p` a directory of `fs`? -/
def isDirB (fs : Fs) (p : FsPath) : Bool :=
  fs.nodes.any (fun n => match n with | .dir q => q == p | _ => false)

/-- Is `p` a regular file of `fs`? -/
def isFileB (fs : Fs) (p : FsPath) : Bool :=
  fs.nodes.any (fun n => match n with | .file q _ => q == p | _ => false)

/-- Does `p` exist in `fs`? -/
def existsB (fs : Fs) (p : FsPath) : Bool := isDirB fs p || isFileB fs p

/-- Content of the file at `p`, if any. -/
def fileContent? (fs : Fs) (p : FsPath) : Option ByteStr :=
  fs.nodes.findSome? (fun n => match n with
    | .file q c => if q == p then some c else none
    | _ => none)

/-- Directory listing: children of `p` in node-list order (models
`read_dir`, whose order is filesystem-dependent). -/
def readDir (fs : Fs) (p : FsPath) : List FsPath :=
  fs.nodes.filterMap (fun n =>
    if n.path.length == p.length + 1 && n.path.dropLast == p then some n.path else none)

/-- The module manifest stored in directory `p`, if any. -/
def moduleManifest? (fs : Fs) (p : FsPath) : Option ModuleManifest :=
  (fs.moduleManifests.find? (fun e => e.1 == p)).map (·.2)

/-- Resolve `.` and `..` components against a base path (what the
canonicalization of an existing, symlink-free path does). -/
def resolveComps (base : FsPath) (comps : List String) : FsPath :=
  comps.foldl (fun acc c =>
    if c == "." then acc else if c == ".." then acc.dropLast else acc ++ [c]) base

/-- Rust `Path::extension` on a single file name: the suffix after the
last `.`, provided a nonempty stem precedes it. -/
def extOf? (name : String) : Option String :=
  let rev := name.toList.reverse
  let rest := rev.dropWhile (fun c => c ≠ '.')
  match rest with
  | '.' :: stem =>
    if stem.isEmpty then none else some (String.mk (rev.takeWhile (fun c => c ≠ '.')).reverse)
  | _ => none

/-- Extension of the last component of a path. -/
def pathExtOf? (p : FsPath) : Option String := p.getLast?.bind extOf?

/-- Extension of the last component of a declared dependency path. -/
def depExtOf? (d : DepPath) : Option String := d.comps.getLast?.bind extOf?

/-- The `sql` extension constant (`build.rs` `SQL_EXTENSION`). -/
def SQL_EXTENSION : String := "sql"

/-! ## Build planner (`src/actions/build.rs`) -/

/-- Errors opening a module manifest (`manifest/module.rs` `OpenError`;
the io/TOML variants are collapsed since manifests appear pre-parsed). -/
inductive ModuleOpenError
  | invalidScript (s : String)
deriving DecidableEq, Repr

/-- A module with its manifest data (`manifest/module.rs` `ModuleInfo`).
`deps` is the source's `module.dependencies`. -/
structure ModuleInfo where
  deps : List DepPath
  scripts : List ModuleScript
  path : FsPath
deriving DecidableEq, Repr

/-- `open_module`: read the directory's manifest if present (validating
that script names contain no `/`), else the default empty manifest. -/
def open_module (fs : Fs) (directory : FsPath) : Except ModuleOpenError ModuleInfo :=
  match moduleManifest? fs directory with
  | some manifest =>
    match manifest.scripts.find? (fun s => s.script.data.contains '/') with
    | some bad => .error (.invalidScript bad.script)
    | none => .ok { deps := manifest.dependencies, scripts := manifest.scripts, path := directory }
  | none => .ok { deps := [], scripts := [], path := directory }

/-- Build errors (`build.rs` `BuildError`).  `dependencyCycle` carries the
project root and the stack slice (`DependencyCycle`). -/
inductive BuildError
  | dependencyOutsideRoot (module dep : FsPath)
  | dependencyDoesNotExist (module dep : FsPath)
  | dependencyIllegal (module : FsPath) (dep : DepPath)
  | dependencyCycle (root : FsPath) (cyclePath : List FsPath)
  | moduleManifest (e : ModuleOpenError)
deriving DecidableEq, Repr

/-- `canonicalize_dep_path`: join against the source dir (absolute deps)
or the referring module (relative deps), canonicalize (resolving `.` and
`..`; missing targets fail Does-Not-Exist), then require the result to
lie under the source directory. -/
def canonicalize_dep_path (fs : Fs) (dep : DepPath) (module_dir source_dir : FsPath) :
    Except BuildError FsPath :=
  let base := if dep.absolute then source_dir else module_dir
  let path := resolveComps base dep.comps
  if existsB fs path then
    if source_dir.isPrefixOf path then .ok path
    else .error (.dependencyOutsideRoot module_dir path)
  else .error (.dependencyDoesNotExist module_dir (base ++ dep.comps))

/-- `dep_module_path`: the module containing a dependency — the path
itself when it is a directory, else its parent. -/
def dep_module_path (fs : Fs) (dep : FsPath) : FsPath :=
  if isDirB fs dep then dep else dep.dropLast

/-- A planner task (`build.rs` `Task`). -/
inductive PlanTask
  | module (m : ModuleInfo)
  | script (path : FsPath)
deriving DecidableEq, Repr

/-- The key of a task: its canonical path. -/
def PlanTask.path : PlanTask → FsPath
  | .module m => m.path
  | .script p => p

/-- `push_module`: fail with a Dependency-Cycle carrying the stack slice
from the first occurrence of the key to the top if the key is already on
the stack; otherwise open the module and push it. -/
def push_module (fs : Fs) (path : FsPath) (stack : List PlanTask) (root : FsPath) :
    Except BuildError (List PlanTask) :=
  match stack.findIdx? (fun t => t.path == path) with
  | some start => .error (.dependencyCycle root ((stack.drop start).map PlanTask.path))
  | none =>
    match open_module fs path with
    | .ok m => .ok (stack ++ [.module m])
    | .error e => .error (.moduleManifest e)

/-- `push_script`: as `push_module`, but pushes a script task. -/
def push_script (path : FsPath) (stack : List PlanTask) (root : FsPath) :
    Except BuildError (List PlanTask) :=
  match stack.findIdx? (fun t => t.path == path) with
  | some start => .error (.dependencyCycle root ((stack.drop start).map PlanTask.path))
  | none => .ok (stack ++ [.script path])

/-- `get_script_deps`: the declared dependencies of the manifest entry
whose file name matches the script's. -/
def get_script_deps (path : FsPath) (m : ModuleInfo) : Option (List DepPath) :=
  (m.scripts.find? (fun s => some s.script == path.getLast?)).map (·.dependencies)

/-- `defer_module`: push a not-yet-completed submodule onto the defer
stack (head of the list is the top). -/
def defer_module (path : FsPath) (defer_stack : List FsPath) (completed : List FsPath) :
    List FsPath :=
  if completed.contains path then defer_stack else path :: defer_stack

/-- The module-dependency scan of `process_module_task` (edge rule 2):
completed targets are skipped, self-dependencies are ignored with a
warning, out-of-root targets fail, the first remaining target is pushed. -/
def scanModuleDeps (fs : Fs) (source_dir mpath : FsPath) (stack : List PlanTask)
    (completed : List FsPath) : List DepPath → Except BuildError (Option (List PlanTask))
  | [] => .ok none
  | dep :: rest => do
    let dep_path ← canonicalize_dep_path fs dep mpath source_dir
    let dep_module := dep_module_path fs dep_path
    if completed.contains dep_module then
      scanModuleDeps fs source_dir mpath stack completed rest
    else if dep_module == mpath then
      scanModuleDeps fs source_dir mpath stack completed rest
    else if ¬ source_dir.isPrefixOf dep_module then
      .error (.dependencyOutsideRoot mpath dep_path)
    else
      (push_module fs dep_module stack source_dir).map some

/-- The out-of-module script-dependency scan of `process_module_task`
(edge rule 3): the containing module of any cross-module script
dependency is pushed.  Note the source has no completed-set check here. -/
def scanScriptHoist (fs : Fs) (source_dir mpath : FsPath) (stack : List PlanTask) :
    List DepPath → Except BuildError (Option (List PlanTask))
  | [] => .ok none
  | dep :: rest => do
    let dep_path ← canonicalize_dep_path fs dep mpath source_dir
    let dep_module := dep_module_path fs dep_path
    if ¬ source_dir.isPrefixOf dep_module then
      .error (.dependencyOutsideRoot mpath dep_path)
    else if dep_module ≠ mpath then
      (push_module fs dep_module stack source_dir).map some
    else
      scanScriptHoist fs source_dir mpath stack rest

/-- The child scan of `process_module_task` (edge rules 4 and 6):
completed children are skipped, subdirectories are deferred, the first
`.sql` file is pushed. -/
def scanChildren (fs : Fs) (source_dir : FsPath) (stack : List PlanTask)
    (completed : List FsPath) :
    List FsPath → List FsPath → Except BuildError (Option (List PlanTask) × List FsPath)
  | defer, [] => .ok (none, defer)
  | defer, child :: rest =>
    if completed.contains child then
      scanChildren fs source_dir stack completed defer rest
    else if isDirB fs child then
      scanChildren fs source_dir stack completed (defer_module child defer completed) rest
    else if isFileB fs child && pathExtOf? child == some SQL_EXTENSION then
      (push_script child stack source_dir).map (fun s => (some s, defer))
    else
      scanChildren fs source_dir stack completed defer rest

/-- `process_module_task`: walk the module's edges in rule order 1-4,
pushing the first incomplete target (result `false`); result `true` means
no outstanding edge remains and the task may be popped. -/
def process_module_task (fs : Fs) (m : ModuleInfo) (stack : List PlanTask)
    (defer_stack : List FsPath) (source_dir : FsPath) (completed : List FsPath) :
    Except BuildError (Bool × List PlanTask × List FsPath) := do
  let parentPush : Option (List PlanTask) ←
    match m.path with
    | [] => pure none
    | _ :: _ =>
      let parent := m.path.dropLast
      if source_dir.isPrefixOf parent && ¬ completed.contains parent then
        (push_module fs parent stack source_dir).map some
      else pure none
  match parentPush with
  | some stack' => return (false, stack', defer_stack)
  | none =>
    match ← scanModuleDeps fs source_dir m.path stack completed m.deps with
    | some stack' => return (false, stack', defer_stack)
    | none =>
      match ← scanScriptHoist fs source_dir m.path stack
          (m.scripts.flatMap (·.dependencies)) with
      | some stack' => return (false, stack', defer_stack)
      | none =>
        match ← scanChildren fs source_dir stack completed defer_stack (readDir fs m.path) with
        | (some stack', defer') => return (false, stack', defer')
        | (none, defer') => return (true, stack, defer')

/-- The dependency scan of `process_script_task` (edge rule 5):
incomplete non-`.sql` dependencies fail Illegal, the first incomplete
`.sql` dependency is pushed. -/
def scanScriptDeps (fs : Fs) (source_dir mpath : FsPath) (stack : List PlanTask)
    (completed : List FsPath) : List DepPath → Except BuildError (Option (List PlanTask))
  | [] => .ok none
  | dep :: rest => do
    let dep_path ← canonicalize_dep_path fs dep mpath source_dir
    if completed.contains dep_path then
      scanScriptDeps fs source_dir mpath stack completed rest
    else if depExtOf? dep ≠ some SQL_EXTENSION then
      .error (.dependencyIllegal mpath dep)
    else
      (push_script dep_path stack source_dir).map some

/-- `process_script_task`: re-open the containing module, look up the
script's declared dependencies and scan them. -/
def process_script_task (fs : Fs) (path : FsPath) (stack : List PlanTask)
    (source_dir : FsPath) (completed : List FsPath) :
    Except BuildError (Bool × List PlanTask) := do
  let mpath := path.dropLast
  let m ← match open_module fs mpath with
    | .ok m => pure m
    | .error e => throw (BuildError.moduleManifest e)
  match get_script_deps path m with
  | some deps =>
    match ← scanScriptDeps fs source_dir mpath stack completed deps with
    | some stack' => return (false, stack')
    | none => return (true, stack)
  | none => return (true, stack)

/-- The mutable state of `build_project`'s scheduling loop.  `completed`
is the completed set as a list in insertion (= completion) order. -/
structure BuildState where
  scripts : List FsPath
  dependStack : List PlanTask
  deferStack : List FsPath
  completed : List FsPath
deriving DecidableEq, Repr

/-- `BTreeSet::insert` on the completion list. -/
def insertCompleted (c : List FsPath) (p : FsPath) : List FsPath :=
  if c.contains p then c else c ++ [p]

/-- The defer-stack refill: pop deferred modules until a not-yet-completed
one appears, and push it onto the (empty) dependency stack. -/
def refillDefer (fs : Fs) (source_dir : FsPath) (completed : List FsPath) :
    List FsPath → Except BuildError (List PlanTask × List FsPath)
  | [] => .ok ([], [])
  | p :: rest =>
    if completed.contains p then refillDefer fs source_dir completed rest
    else (push_module fs p [] source_dir).map (fun s => (s, rest))

/-- The scheduling loop of `build_project`, with explicit fuel; `none`
means the fuel ran out before the loop finished. -/
def build_loop (fs : Fs) (source_dir : FsPath) : Nat → BuildState → Except BuildError (Option BuildState)
  | 0, _ => .ok none
  | fuel + 1, st =>
    if st.dependStack.isEmpty && st.deferStack.isEmpty then .ok (some st)
    else do
      let (stack1, defer1) ←
        if st.dependStack.isEmpty then refillDefer fs source_dir st.completed st.deferStack
        else pure (st.dependStack, st.deferStack)
      match stack1.getLast? with
      | none => .ok (some { st with dependStack := [], deferStack := defer1 })
      | some (.module m) => do
        let (done, stack2, defer2) ←
          process_module_task fs m stack1 defer1 source_dir st.completed
        if done then
          build_loop fs source_dir fuel
            { scripts := st.scripts
              dependStack := stack2.dropLast
              deferStack := defer2
              completed := insertCompleted st.completed m.path }
        else
          build_loop fs source_dir fuel
            { st with dependStack := stack2, deferStack := defer2 }
      | some (.script p) => do
        let (done, stack2) ← process_script_task fs p stack1 source_dir st.completed
        if done then
          build_loop fs source_dir fuel
            { scripts := st.scripts ++ [p]
              dependStack := stack2.dropLast
              deferStack := defer1
              completed := insertCompleted st.completed p }
        else
          build_loop fs source_dir fuel
            { st with dependStack := stack2, deferStack := defer1 }

/-- Project descriptor (`manifest/project.rs` `ProjectInfo`). -/
structure ProjectInfo where
  title : String
  version : SemVer
  root : FsPath
deriving Repr

/-- `ProjectInfo::source_dir`. -/
def ProjectInfo.source_dir (info : ProjectInfo) : FsPath := info.root ++ ["src"]

/-- `ProjectInfo::artifacts_dir`. -/
def ProjectInfo.artifacts_dir (info : ProjectInfo) : FsPath := info.root ++ ["artifacts"]

/-- A built artifact (`build.rs` `BuildArtifact`). -/
structure BuildArtifact where
  scripts : List FsPath
  version : SemVer
  source_dir : FsPath
  title : String
deriving DecidableEq, Repr

/-- `BuildArtifact::new`. -/
def BuildArtifact.new (scripts : List FsPath) (info : ProjectInfo) : BuildArtifact :=
  { scripts := scripts
    version := info.version
    source_dir := info.source_dir
    title := info.title }

/-- `build_project` up to the final state of its loop: an absent source
directory short-circuits to the empty artifact; otherwise the source
module is seeded and the loop runs. -/
def build_project_trace (fuel : Nat) (fs : Fs) (info : ProjectInfo) :
    Except BuildError (Option BuildState) :=
  let source_dir := info.source_dir
  if ¬ existsB fs source_dir then
    .ok (some { scripts := [], dependStack := [], deferStack := [], completed := [] })
  else
    match push_module fs source_dir [] source_dir with
    | .error e => .error e
    | .ok stack =>
      build_loop fs source_dir fuel
        { scripts := [], dependStack := stack, deferStack := [], completed := [] }

/-- `build_project`: the artifact carries the loop's script order. -/
def build_project (fuel : Nat) (fs : Fs) (info : ProjectInfo) :
    Except BuildError (Option BuildArtifact) :=
  (build_project_trace fuel fs info).map
    (Option.map (fun st => BuildArtifact.new st.scripts info))

/-! ## Artifact streaming (`src/artifact.rs` and the three implementations) -/

/-- A content id: the 32-byte SHA-256 digest identifying an artifact's
contents (`artifact.rs` `ContentId`). -/
abbrev ContentId : Type := List Nat

/-- `ScriptProcessingError` (`artifact.rs`); `database` wraps the
consumer's error type. -/
inductive ScriptProcessingError (ε : Type)
  | incompatible
  | io
  | utf8
  | prefixStrip
  | database (e : ε)
deriving DecidableEq

/-- The streaming-side errors (io, encoding, path stripping); the
source's `?` conversions embed them into `ScriptProcessingError`. -/
inductive StreamErr
  | io
  | utf8
  | prefixStrip
deriving DecidableEq, Repr

/-- Embedding of a streaming error into `ScriptProcessingError` (the
`From` impls behind `?` in the source). -/
def StreamErr.toSPE : StreamErr → ScriptProcessingError ε
  | .io => .io
  | .utf8 => .utf8
  | .prefixStrip => .prefixStrip

/-- A script consumer (`artifact.rs` `ScriptConsumer`): its state type
`σ` is threaded explicitly; `commit` returns the final state so the
effects of committing are observable. -/
structure Consumer (ε σ : Type) where
  accept : σ → ByteStr → Except (ScriptProcessingError ε) σ
  commit : σ → ContentId → Except (ScriptProcessingError ε) σ

/-- The consumer error type of the free consumers (`artifact.rs`
`NullConsumerError`, never actually raised). -/
inductive NullConsumerError
deriving DecidableEq

/-- ASCII-whitespace test on characters. -/
def isAsciiWsChar (c : Char) : Bool := isAsciiWs c.toNat

/-- Rust `str::trim_ascii` (on strings; ASCII whitespace is one byte, so
this agrees with the byte-level trim). -/
def trimAsciiStr (s : String) : String :=
  String.mk (((s.data.dropWhile isAsciiWsChar).reverse.dropWhile isAsciiWsChar).reverse)

/-- The Build Artifact header string: `"-- [ <title> <version> ]\n\n"`
with the title ASCII-trimmed. -/
def buildHeaderStr (title : String) (v : SemVer) : String :=
  "-- [ " ++ trimAsciiStr title ++ " " ++ semverString v ++ " ]\n\n"

/-- The batch for one script of a Build Artifact: the relative-path
banner, the ASCII-trimmed file bytes, and `\n\n` between bodies or a
single `\n` after the last; the whole batch must be valid UTF-8. -/
def buildScriptChunk (fs : Fs) (a : BuildArtifact) (last_idx idx : Nat) (script : FsPath) :
    Except StreamErr ByteStr :=
  if a.source_dir.isPrefixOf script then
    let rel := script.drop a.source_dir.length
    let batchHead := strBytes ("-- [ " ++ String.intercalate "/" rel ++ " ]\n\n")
    match fileContent? fs script with
    | none => .error .io
    | some content =>
      let chunk :=
        batchHead ++ trimAscii content ++ (if idx != last_idx then [0x0A, 0x0A] else [0x0A])
      if utf8Valid chunk then .ok chunk else .error .utf8
  else .error .prefixStrip

/-- The per-script loop of `BuildArtifact::scripts`: build each batch,
hash it and hand it to the consumer.  The first component accumulates the
hashed bytes (the `sha2` hasher state is the bytes fed so far). -/
def streamBodies (fs : Fs) (a : BuildArtifact) (c : Consumer ε σ) (last_idx : Nat) :
    Nat → List FsPath → ByteStr → σ → Except (ScriptProcessingError ε) (ByteStr × σ)
  | _, [], hbytes, s => .ok (hbytes, s)
  | idx, script :: rest, hbytes, s =>
    match buildScriptChunk fs a last_idx idx script with
    | .error e => .error e.toSPE
    | .ok chunk =>
      match c.accept s chunk with
      | .error e => .error e
      | .ok s' => streamBodies fs a c last_idx (idx + 1) rest (hbytes ++ chunk) s'

/-- `BuildArtifact::scripts`: stream the header, then each script batch,
then commit the SHA-256 of everything fed to the consumer. -/
def BuildArtifact.runScripts (fs : Fs) (a : BuildArtifact) (c : Consumer ε σ) (s0 : σ) :
    Except (ScriptProcessingError ε) (ContentId × σ) :=
  let header := strBytes (buildHeaderStr a.title a.version)
  if utf8Valid header then
    match c.accept s0 header with
    | .error e => .error e
    | .ok s1 =>
      match streamBodies fs a c (a.scripts.length - 1) 0 a.scripts header s1 with
      | .error e => .error e
      | .ok (hbytes, s2) =>
        match c.commit s2 (sha256 hbytes) with
        | .error e => .error e
        | .ok s3 => .ok (sha256 hbytes, s3)
  else .error .utf8

/-- A saved migration (`migration.rs` `MigrationArtifact`): a single
on-disk SQL file with a source requirement and a target version. -/
structure MigrationArtifact where
  fromReq : VersionReq
  toV : SemVer
  script : FsPath
deriving DecidableEq, Repr

/-- The single chunk of a Migration Artifact: the file's exact text
(`fs::read_to_string`; its UTF-8 failure is an io error). -/
def migChunk (fs : Fs) (m : MigrationArtifact) : Except StreamErr ByteStr :=
  match fileContent? fs m.script with
  | some b => if utf8Valid b then .ok b else .error .io
  | none => .error .io

/-- `MigrationArtifact::scripts`. -/
def MigrationArtifact.runScripts (fs : Fs) (m : MigrationArtifact) (c : Consumer ε σ) (s0 : σ) :
    Except (ScriptProcessingError ε) (ContentId × σ) :=
  match migChunk fs m with
  | .error e => .error e.toSPE
  | .ok code =>
    match c.accept s0 code with
    | .error e => .error e
    | .ok s1 =>
      match c.commit s1 (sha256 code) with
      | .error e => .error e
      | .ok s2 => .ok (sha256 code, s2)

/-- A generated migration (`backend/mod.rs` `GeneratedMigration`); each
statement is embedded as the bytes its `write_to` appends. -/
structure GeneratedMigration where
  fromReq : VersionReq
  toV : SemVer
  statements : List ByteStr
deriving DecidableEq, Repr

/-- The statement loop of `GeneratedMigration::scripts`: each chunk is a
statement's text followed by `\n`. -/
def genLoop (c : Consumer ε σ) : List ByteStr → ByteStr → σ → Except (ScriptProcessingError ε) (ByteStr × σ)
  | [], h, s => .ok (h, s)
  | stmt :: rest, h, s =>
    match c.accept s (stmt ++ [0x0A]) with
    | .error e => .error e
    | .ok s' => genLoop c rest (h ++ (stmt ++ [0x0A])) s'

/-- `GeneratedMigration::scripts`. -/
def GeneratedMigration.runScripts (g : GeneratedMigration) (c : Consumer ε σ) (s0 : σ) :
    Except (ScriptProcessingError ε) (ContentId × σ) :=
  match genLoop c g.statements [] s0 with
  | .error e => .error e
  | .ok (h, s1) =>
    match c.commit s1 (sha256 h) with
    | .error e => .error e
    | .ok s2 => .ok (sha256 h, s2)

/-- The three `Artifact` implementations of the repository. -/
inductive AnyArtifact
  | build (a : BuildArtifact)
  | migration (m : MigrationArtifact)
  | generated (g : GeneratedMigration)
deriving DecidableEq, Repr

/-- `Artifact::compatible`: a build targets an empty database; both
migration shapes test their stored requirement. -/
def AnyArtifact.compatible : AnyArtifact → SemVer → Bool
  | .build _, v => from_empty_database.matches v
  | .migration m, v => m.fromReq.matches v
  | .generated g, v => g.fromReq.matches v

/-- `Artifact::version`. -/
def AnyArtifact.version : AnyArtifact → SemVer
  | .build a => a.version
  | .migration m => m.toV
  | .generated g => g.toV

/-- `Artifact::spec`. -/
def AnyArtifact.spec : AnyArtifact → VersionReq × SemVer
  | .build a => (from_empty_database, a.version)
  | .migration m => (m.fromReq, m.toV)
  | .generated g => (g.fromReq, g.toV)

/-- Dispatch of `Artifact::scripts` over the three implementations. -/
def AnyArtifact.runScripts (fs : Fs) : AnyArtifact → Consumer ε σ → σ → Except (ScriptProcessingError ε) (ContentId × σ)
  | .build a, c, s0 => a.runScripts fs c s0
  | .migration m, c, s0 => m.runScripts fs c s0
  | .generated g, c, s0 => g.runScripts c s0

/-- The byte-sink consumer of `Artifact::write_to`. -/
def sinkConsumer : Consumer NullConsumerError ByteStr :=
  { accept := fun buf chunk => .ok (buf ++ chunk)
    commit := fun buf _ => .ok buf }

/-- The null consumer of `Artifact::content_id`. -/
def nullConsumer : Consumer NullConsumerError Unit :=
  { accept := fun _ _ => .ok ()
    commit := fun _ _ => .ok () }

/-- A consumer recording the chunks passed to `accept`, in order; used to
observe the byte stream an artifact delivers. -/
def recordingConsumer : Consumer NullConsumerError (List ByteStr) :=
  { accept := fun l chunk => .ok (l ++ [chunk])
    commit := fun l _ => .ok l }

/-- `Artifact::write_to`: stream into a byte sink, returning the content
id and the sink. -/
def AnyArtifact.write_to (fs : Fs) (a : AnyArtifact) (buf : ByteStr) :
    Except (ScriptProcessingError NullConsumerError) (ContentId × ByteStr) :=
  a.runScripts fs sinkConsumer buf

/-- `Artifact::content_id`: stream into the null consumer. -/
def AnyArtifact.content_id (fs : Fs) (a : AnyArtifact) :
    Except (ScriptProcessingError NullConsumerError) ContentId :=
  (a.runScripts fs nullConsumer ()).map (·.1)

/-- The chunk sequence an artifact delivers (observed with the recording
consumer). -/
def AnyArtifact.chunks (fs : Fs) (a : AnyArtifact) :
    Except (ScriptProcessingError NullConsumerError) (List ByteStr) :=
  (a.runScripts fs recordingConsumer []).map (·.2)

/-- The pure chunk stream of a Build Artifact's scripts (the batches of
`streamBodies`, without a consumer). -/
def bodyChunks (fs : Fs) (a : BuildArtifact) (last_idx : Nat) :
    Nat → List FsPath → Except StreamErr (List ByteStr)
  | _, [] => .ok []
  | idx, script :: rest =>
    match buildScriptChunk fs a last_idx idx script with
    | .error e => .error e
    | .ok chunk =>
      match bodyChunks fs a last_idx (idx + 1) rest with
      | .error e => .error e
      | .ok more => .ok (chunk :: more)

/-- The pure chunk stream of a Build Artifact: header then bodies. -/
def buildStreamChunks (fs : Fs) (a : BuildArtifact) : Except StreamErr (List ByteStr) :=
  let header := strBytes (buildHeaderStr a.title a.version)
  if utf8Valid header then
    match bodyChunks fs a (a.scripts.length - 1) 0 a.scripts with
    | .error e => .error e
    | .ok bodies => .ok (header :: bodies)
  else .error .utf8

/-- The pure chunk stream of a Generated Migration. -/
def genChunks (g : GeneratedMigration) : List ByteStr :=
  g.statements.map (fun stmt => stmt ++ [0x0A])

/-- The pure chunk stream of any artifact. -/
def streamChunksOf (fs : Fs) : AnyArtifact → Except StreamErr (List ByteStr)
  | .build a => buildStreamChunks fs a
  | .migration m => (migChunk fs m).map (fun code => [code])
  | .generated g => .ok (genChunks g)

/-- Folding a consumer's `accept` over a chunk list. -/
def foldAccept (c : Consumer ε σ) : σ → List ByteStr → Except (ScriptProcessingError ε) σ
  | s, [] => .ok s
  | s, chunk :: rest =>
    match c.accept s chunk with
    | .error e => .error e
    | .ok s' => foldAccept c s' rest

/-- Running a consumer over a chunk list and committing an id. -/
def runConsumer (c : Consumer ε σ) (s0 : σ) (chunks : List ByteStr) (id : ContentId) :
    Except (ScriptProcessingError ε) σ :=
  match foldAccept c s0 chunks with
  | .error e => .error e
  | .ok s' => c.commit s' id

/-! ## Migration set and save (`src/migration.rs`, `src/util.rs`) -/

/-- The artifact-directory manifest stored in `p`, if any. -/
def artifactManifest? (fs : Fs) (p : FsPath) : Option (List ArtifactMigration) :=
  (fs.artifactManifests.find? (fun e => e.1 == p)).map (·.2)

/-- Errors of `MigrationSet::open` (payloads collapsed to the offending
path). -/
inductive MigrationSetError
  | io (p : FsPath)
  | openArtifact (p : FsPath)
deriving DecidableEq, Repr

/-- The migration index (`migration.rs` `MigrationSet`): entries keyed by
`to` version, in key order; each entry keeps the first contributing
directory and the migrations pushed for that key. -/
structure MigrationSet where
  entries : List (SemVer × (FsPath × List ArtifactMigration))
deriving DecidableEq, Repr

/-- `BTreeMap::entry(to).or_insert_with((path, vec)).push(migration)`:
sorted insertion keeping the first directory for a key. -/
def msetInsert (entries : List (SemVer × (FsPath × List ArtifactMigration)))
    (key : SemVer) (path : FsPath) (m : ArtifactMigration) :
    List (SemVer × (FsPath × List ArtifactMigration)) :=
  match entries with
  | [] => [(key, (path, [m]))]
  | (k, (p, ms)) :: rest =>
    match cmpSemVer key k with
    | .lt => (key, (path, [m])) :: (k, (p, ms)) :: rest
    | .eq => (k, (p, ms ++ [m])) :: rest
    | .gt => (k, (p, ms)) :: msetInsert rest key path m

/-- The directory scan of `MigrationSet::open`: subdirectories must hold
an artifact manifest with `/`-free script names; files are ignored with a
warning. -/
def scanArtifacts (fs : Fs) :
    List FsPath → List (SemVer × (FsPath × List ArtifactMigration)) →
    Except MigrationSetError (List (SemVer × (FsPath × List ArtifactMigration)))
  | [], acc => .ok acc
  | child :: rest, acc =>
    if isDirB fs child then
      match artifactManifest? fs child with
      | some ms =>
        if ms.any (fun m => m.script.data.contains '/') then .error (.openArtifact child)
        else scanArtifacts fs rest (ms.foldl (fun a m => msetInsert a m.toV child m) acc)
      | none => .error (.openArtifact child)
    else scanArtifacts fs rest acc

/-- `MigrationSet::open`: enumerate the artifacts directory. -/
def MigrationSet.open (fs : Fs) (info : ProjectInfo) : Except MigrationSetError MigrationSet :=
  if ¬ isDirB fs info.artifacts_dir then .error (.io info.artifacts_dir)
  else (scanArtifacts fs (readDir fs info.artifacts_dir) []).map (fun e => { entries := e })

/-- `MigrationSet::is_empty`. -/
def MigrationSet.is_empty (s : MigrationSet) : Bool := s.entries.isEmpty

/-- `MigrationSet::latest_released_version`: the greatest key without
prerelease. -/
def MigrationSet.latest_released_version (s : MigrationSet) : Option SemVer :=
  (s.entries.reverse.find? (fun e => e.1.pre.isEmpty)).map (·.1)

/-- `MigrationSet::latest_compatible`: first matching migration in
descending key order. -/
def MigrationSet.latest_compatible (s : MigrationSet) (v : SemVer) : Option MigrationArtifact :=
  s.entries.reverse.findSome? (fun e =>
    (e.2.2.find? (fun m => m.fromReq.matches v)).map (fun m =>
      { fromReq := m.fromReq, toV := m.toV, script := e.2.1 ++ [m.script] }))

/-- `MigrationSet::get`: within the entry for `to`, the first migration
whose `from` matches. -/
def MigrationSet.get (s : MigrationSet) (fromV toVer : SemVer) : Option MigrationArtifact :=
  match s.entries.find? (fun e => e.1 == toVer) with
  | some (_, (path, candidates)) =>
    (candidates.find? (fun m => m.fromReq.matches fromV)).map (fun m =>
      { fromReq := m.fromReq, toV := m.toV, script := path ++ [m.script] })
  | none => none

/-- `MigrationSet::get_schema`: `get(0.0.0, v)`. -/
def MigrationSet.get_schema (s : MigrationSet) (v : SemVer) : Option MigrationArtifact :=
  s.get empty_database_version v

/-- Replace or create the file at `p` (the write-to-temp-then-rename of
`util::replace_file`; callers observe old or new content, never partial). -/
def fsSetFile (fs : Fs) (p : FsPath) (content : ByteStr) : Fs :=
  if isFileB fs p then
    { fs with nodes := fs.nodes.map (fun n => match n with
        | .file q _ => if q == p then .file q content else n
        | other => other) }
  else { fs with nodes := fs.nodes ++ [.file p content] }

/-- Create the directory `p` if absent (`fs::create_dir_all`). -/
def fsEnsureDir (fs : Fs) (p : FsPath) : Fs :=
  if isDirB fs p then fs else { fs with nodes := fs.nodes ++ [.dir p] }

/-- Set the artifact manifest of directory `p`. -/
def fsSetArtifactManifest (fs : Fs) (p : FsPath) (ms : List ArtifactMigration) : Fs :=
  if (fs.artifactManifests.find? (fun e => e.1 == p)).isSome then
    { fs with artifactManifests :=
        fs.artifactManifests.map (fun e => if e.1 == p then (p, ms) else e) }
  else { fs with artifactManifests := fs.artifactManifests ++ [(p, ms)] }

/-- Errors of the save path. -/
inductive SaveError
  | build (e : BuildError)
  | stream (e : ScriptProcessingError NullConsumerError)

/-- `util::replace_artifact`: atomically write an artifact's stream to a
file, returning its content id. -/
def replace_artifact (fs : Fs) (a : AnyArtifact) (path : FsPath) :
    Except SaveError (ContentId × Fs) :=
  match a.write_to fs [] with
  | .ok (id, bytes) => .ok (id, fsSetFile fs path bytes)
  | .error e => .error (.stream e)

/-- Replace the first migration entry with the given script name, else
append (`manifest/artifact.rs` `update_artifact_migration`). -/
def upsertMigration (mig : ArtifactMigration) : List ArtifactMigration → List ArtifactMigration
  | [] => [mig]
  | m :: rest => if m.script == mig.script then mig :: rest else m :: upsertMigration mig rest

/-- `update_artifact_migration` on the model filesystem. -/
def update_artifact_migration (mig : ArtifactMigration) (dir : FsPath) (fs : Fs) : Fs :=
  fsSetArtifactManifest fs dir (upsertMigration mig ((artifactManifest? fs dir).getD []))

/-- `migration.rs` `save_migration`: write the streamed artifact under
`artifacts/<normalize(to)>/<title>.sql` and record `{script, from, to}`
in that directory's manifest. -/
def save_migration (title : String) (a : AnyArtifact) (info : ProjectInfo) (fs : Fs) :
    Except SaveError (FsPath × Fs) :=
  let s := a.spec
  let version_dir := info.artifacts_dir ++ [semverString (normalize_version s.2)]
  let script := title ++ "." ++ SQL_EXTENSION
  let script_path := version_dir ++ [script]
  match replace_artifact fs a script_path with
  | .error e => .error e
  | .ok (_, fs1) =>
    .ok (script_path,
      update_artifact_migration { script := script, fromReq := s.1, toV := s.2 } version_dir fs1)

/-- `actions/save.rs` `SCHEMA_ARTIFACT_TITLE`. -/
def SCHEMA_ARTIFACT_TITLE : String := "schema"

/-- `actions/save.rs` `save_project`: build, create the version
directory, save the build as the schema migration. -/
def save_project (fuel : Nat) (fs : Fs) (info : ProjectInfo) : Except SaveError (Option Fs) :=
  match build_project fuel fs info with
  | .error e => .error (.build e)
  | .ok none => .ok none
  | .ok (some build) =>
    let version_dir := info.artifacts_dir ++ [semverString (normalize_version info.version)]
    let fs1 := fsEnsureDir (fsEnsureDir fs info.artifacts_dir) version_dir
    match save_migration SCHEMA_ARTIFACT_TITLE (.build build) info fs1 with
    | .error e => .error e
    | .ok (_, fs2) => .ok (some fs2)

/-! ## Database backends (`src/backend/sqlite/mod.rs`,
`src/backend/postgres/mod.rs`)

The SQL scripts the backends run (`schema.sql`, `initialize_state.sql`,
`select_state.sql`, `get_artifact_by_id.sql`, `append_history.sql`) are
embedded with `include_str!` and are not present under `src/`; their
effects are modelled from the spec (§4.4 and the internal schema of §6).
The user schema is abstracted as the value threaded by an `exec`
parameter, which stands for executing one SQL batch. -/

/-- A history row: `history(pk, prev, artifact, version)` per §6. -/
structure HistoryRow where
  pk : Nat
  prev : Option Nat
  artifact : Nat
  version : SemVer
deriving DecidableEq, Repr

/-- A managed database: the engine's internal tables plus the abstract
user schema (the list of batches successfully executed, in order). -/
structure Db where
  installed : Bool
  artifacts : List (Nat × ContentId)
  history : List HistoryRow
  head : Option Nat
  sqiglVersion : SemVer
  user : List ByteStr
deriving DecidableEq, Repr

/-- `backend/mod.rs` `SqiglState`. -/
structure SqiglState where
  project_version : SemVer
  sqigl_version : SemVer
deriving DecidableEq, Repr

/-- The tool version seeded by install (`SQIGL_VERSION`; the concrete
crate version is irrelevant to the claims). -/
def SQIGL_VERSION : SemVer := new_project_version

/-- Modelled from the spec: `select_state.sql` is not under `src/`; per
§6 the `project_version` column is derived from the `head` history row's
`version`, and is null for a null `head`. -/
def Db.project_version_col (db : Db) : Option SemVer :=
  db.head.bind (fun pk => (db.history.find? (fun r => r.pk == pk)).map (·.version))

/-- The row conversion `TryFrom<&rusqlite::Row> for SqiglState`
(`backend/sqlite/mod.rs`): a null `project_version` column becomes the
empty-database version `0.0.0`. -/
def stateOfRow (project_version : Option SemVer) (sqigl_version : SemVer) : SqiglState :=
  { project_version := project_version.getD empty_database_version
    sqigl_version := sqigl_version }

/-- Database driver errors (opaque). -/
inductive DbError
  | notInstalled
deriving DecidableEq, Repr

/-- `get_state`: read the state row; fails if the internal schema is
absent. -/
def get_state (db : Db) : Except DbError SqiglState :=
  if db.installed then .ok (stateOfRow db.project_version_col db.sqiglVersion)
  else .error .notInstalled

/-- Modelled from the spec: `schema.sql` and `initialize_state.sql` are
not under `src/`; per §4.4 install creates the internal tables and seeds
the singleton state row (null head, current tool version).  A reinstall
over an existing installation leaves the existing state in place. -/
def install (db : Db) : Db × SqiglState :=
  let db' :=
    if db.installed then db
    else { db with installed := true, head := none, sqiglVersion := SQIGL_VERSION }
  (db', stateOfRow db'.project_version_col db'.sqiglVersion)

/-- `Backend::open`: read the state, installing lazily if absent. -/
def Db.openState (db : Db) : Db × SqiglState :=
  match get_state db with
  | .ok st => (db, st)
  | .error _ => install db

/-- The abstract executor of one SQL batch against the user schema;
`none` models a database error. -/
abbrev Exec : Type := List ByteStr → ByteStr → Option (List ByteStr)

/-- Modelled from the spec: `get_artifact_by_id.sql` is not under `src/`;
per §4.4 step 6 the artifact row keyed by the (unique) content id is
upserted and its pk returned. -/
def get_artifact_by_id (db : Db) (id : ContentId) : Nat × Db :=
  match db.artifacts.find? (fun e => e.2 == id) with
  | some e => (e.1, db)
  | none =>
    let pk := db.artifacts.length + 1
    (pk, { db with artifacts := db.artifacts ++ [(pk, id)] })

/-- The transaction consumer of `apply` (both backends): `accept` runs a
batch against the transaction; `commit` upserts the artifact row, appends
the history row `{prev = head, artifact, version}`, points `head` at it
and commits (`append_history.sql` modelled from the spec, §4.4 step 6). -/
def txConsumer (exec : Exec) (version : SemVer) : Consumer Unit Db :=
  { accept := fun tx script =>
      match exec tx.user script with
      | some u' => .ok { tx with user := u' }
      | none => .error (.database ())
    commit := fun tx id =>
      let r := get_artifact_by_id tx id
      let prev_pk := r.2.head
      let head_pk := r.2.history.length + 1
      let row : HistoryRow :=
        { pk := head_pk, prev := prev_pk, artifact := r.1, version := version }
      let tx2 : Db := { r.2 with history := r.2.history ++ [row] }
      .ok { tx2 with head := some head_pk } }

/-- `SqliteBackend::apply`: open an exclusive transaction, read the
state, fail Incompatible unless the artifact accepts it, stream the
scripts through the transaction consumer, then re-read the state from
the database.  On any error the transaction is dropped, so the second
component (the database afterwards) is unchanged. -/
def sqlite_apply (fs : Fs) (exec : Exec) (a : AnyArtifact) (db : Db) :
    (Except (ScriptProcessingError Unit) SqiglState) × Db :=
  match get_state db with
  | .error _ => (.error (.database ()), db)
  | .ok state =>
    if ¬ a.compatible state.project_version then (.error .incompatible, db)
    else
      match a.runScripts fs (txConsumer exec a.version) db with
      | .error e => (.error e, db)
      | .ok (_, db') =>
        match get_state db' with
        | .error _ => (.error (.database ()), db')
        | .ok state' => (.ok state', db')

/-- `PostgresBackend::apply`: the same transaction discipline (timeouts
and the `select … for update` lock have no observable effect here), but
the state returned on success is the one read inside the transaction
before the scripts were streamed. -/
def postgres_apply (fs : Fs) (exec : Exec) (a : AnyArtifact) (db : Db) :
    (Except (ScriptProcessingError Unit) SqiglState) × Db :=
  match get_state db with
  | .error _ => (.error (.database ()), db)
  | .ok state =>
    if ¬ a.compatible state.project_version then (.error .incompatible, db)
    else
      match a.runScripts fs (txConsumer exec a.version) db with
      | .error e => (.error e, db)
      | .ok (_, db') => (.ok state, db')

/-! ## Opening a project (`src/manifest/project.rs`) -/

/-- Errors of `open_project` (io/TOML variants collapsed; manifests
appear pre-parsed). -/
inductive ProjectOpenError
  | invalidVersion
  | notFound (p : FsPath)
deriving DecidableEq, Repr

/-- The project manifest stored in directory `p`, if any (a manifest file
whose table has the `project` key). -/
def projectManifest? (fs : Fs) (p : FsPath) : Option ProjectManifestData :=
  (fs.projectManifests.find? (fun e => e.1 == p)).map (·.2)

/-- The ancestor chain of a path, from the path itself up to the root. -/
def ancestors (p : FsPath) : List FsPath :=
  (List.range (p.length + 1)).map (fun k => p.take (p.length - k))

/-- `open_project`: walk the ancestors for the first project manifest;
a version at or below `0.0.0` is rejected as InvalidVersion. -/
def open_project (fs : Fs) (directory : FsPath) : Except ProjectOpenError ProjectInfo :=
  match (ancestors directory).findSome? (fun d =>
      (projectManifest? fs d).map (fun pm => (d, pm))) with
  | some r =>
    if semverLe r.2.version empty_database_version then .error .invalidVersion
    else .ok { title := r.2.title, version := r.2.version, root := r.1 }
  | none => .error (.notFound directory)

/-! ## Refinement of the streaming code by the pure chunk streams -/

/-- The recording consumer accumulates exactly the chunk list. -/
theorem foldAccept_recording (chunks : List ByteStr) : ∀ l,
    foldAccept recordingConsumer l chunks = .ok (l ++ chunks) := by
  induction chunks with
  | nil => intro l; simp [foldAccept]
  | cons c rest ih =>
    intro l
    have ha : recordingConsumer.accept l c = .ok (l ++ [c]) := rfl
    simp only [foldAccept, ha]
    rw [ih]
    simp

/-- The sink consumer accumulates exactly the concatenated bytes. -/
theorem foldAccept_sink (chunks : List ByteStr) : ∀ buf,
    foldAccept sinkConsumer buf chunks = .ok (buf ++ chunks.flatten) := by
  induction chunks with
  | nil => intro buf; simp [foldAccept]
  | cons c rest ih =>
    intro buf
    have ha : sinkConsumer.accept buf c = .ok (buf ++ c) := rfl
    simp only [foldAccept, ha]
    rw [ih]
    simp

/-- The null consumer accepts everything. -/
theorem foldAccept_null (chunks : List ByteStr) :
    foldAccept nullConsumer () chunks = .ok () := by
  induction chunks with
  | nil => simp [foldAccept]
  | cons c rest ih =>
    have ha : nullConsumer.accept () c = .ok () := rfl
    simp only [foldAccept, ha]
    exact ih

/-- `genLoop` is the consumer fold over the statement chunks. -/
theorem genLoop_factor (c : Consumer ε σ) (stmts : List ByteStr) : ∀ (h : ByteStr) (s : σ),
    genLoop c stmts h s =
      match foldAccept c s (stmts.map (fun stmt => stmt ++ [0x0A])) with
      | .error e => .error e
      | .ok s' => .ok (h ++ (stmts.map (fun stmt => stmt ++ [0x0A])).flatten, s') := by
  induction stmts with
  | nil => intro h s; simp [genLoop, foldAccept]
  | cons stmt rest ih =>
    intro h s
    simp only [genLoop, List.map_cons, foldAccept]
    cases c.accept s (stmt ++ [0x0A]) with
    | error e => rfl
    | ok s' =>
      dsimp only
      rw [ih]
      cases foldAccept c s' (rest.map (fun stmt => stmt ++ [0x0A])) with
      | error e => rfl
      | ok s'' => simp [List.flatten_cons]

/-- `streamBodies` is the consumer fold over the body chunks, when those
chunks all build. -/
theorem streamBodies_factor (fs : Fs) (a : BuildArtifact) (c : Consumer ε σ) (last_idx : Nat)
    (scripts : List FsPath) : ∀ (idx : Nat) (chunks : List ByteStr) (h : ByteStr) (s : σ),
    bodyChunks fs a last_idx idx scripts = .ok chunks →
    streamBodies fs a c last_idx idx scripts h s =
      match foldAccept c s chunks with
      | .error e => .error e
      | .ok s' => .ok (h ++ chunks.flatten, s') := by
  induction scripts with
  | nil =>
    intro idx chunks h s hb
    simp only [bodyChunks] at hb
    cases hb
    simp [streamBodies, foldAccept]
  | cons script rest ih =>
    intro idx chunks h s hb
    simp only [bodyChunks] at hb
    cases hchunk : buildScriptChunk fs a last_idx idx script with
    | error e => rw [hchunk] at hb; cases hb
    | ok chunk =>
      rw [hchunk] at hb
      cases hmore : bodyChunks fs a last_idx (idx + 1) rest with
      | error e => rw [hmore] at hb; cases hb
      | ok more =>
        rw [hmore] at hb
        dsimp only at hb
        cases hb
        simp only [streamBodies, hchunk, foldAccept]
        cases c.accept s chunk with
        | error e => rfl
        | ok s' =>
          dsimp only
          rw [ih (idx + 1) more (h ++ chunk) s' hmore]
          cases foldAccept c s' more with
          | error e => rfl
          | ok s'' => simp [List.flatten_cons]

/-- A successful `streamBodies` run means every body chunk builds. -/
theorem streamBodies_ok_chunks (fs : Fs) (a : BuildArtifact) (c : Consumer ε σ)
    (last_idx : Nat) (scripts : List FsPath) : ∀ (idx : Nat) (h : ByteStr) (s : σ) r,
    streamBodies fs a c last_idx idx scripts h s = .ok r →
    ∃ chunks, bodyChunks fs a last_idx idx scripts = .ok chunks := by
  induction scripts with
  | nil => intro idx h s r _; exact ⟨[], rfl⟩
  | cons script rest ih =>
    intro idx h s r hrun
    simp only [streamBodies] at hrun
    cases hchunk : buildScriptChunk fs a last_idx idx script with
    | error e => rw [hchunk] at hrun; cases hrun
    | ok chunk =>
      rw [hchunk] at hrun
      dsimp only at hrun
      cases haccept : c.accept s chunk with
      | error e => rw [haccept] at hrun; cases hrun
      | ok s' =>
        rw [haccept] at hrun
        dsimp only at hrun
        obtain ⟨more, hmore⟩ := ih (idx + 1) (h ++ chunk) s' r hrun
        exact ⟨chunk :: more, by simp [bodyChunks, hchunk, hmore]⟩

/-- `BuildArtifact::scripts` factors through its pure chunk stream. -/
theorem build_runScripts_factor (fs : Fs) (a : BuildArtifact) (c : Consumer ε σ) (s0 : σ)
    (chunks : List ByteStr) (hc : buildStreamChunks fs a = .ok chunks) :
    a.runScripts fs c s0 =
      match runConsumer c s0 chunks (sha256 chunks.flatten) with
      | .error e => .error e
      | .ok s' => .ok (sha256 chunks.flatten, s') := by
  simp only [buildStreamChunks] at hc
  cases hvalid : utf8Valid (strBytes (buildHeaderStr a.title a.version)) with
  | false => rw [hvalid] at hc; simp at hc
  | true =>
    rw [hvalid] at hc
    simp only [if_true] at hc
    cases hbody : bodyChunks fs a (a.scripts.length - 1) 0 a.scripts with
    | error e => rw [hbody] at hc; cases hc
    | ok bodies =>
      rw [hbody] at hc
      dsimp only at hc
      cases hc
      simp only [BuildArtifact.runScripts, hvalid, if_true, runConsumer, foldAccept]
      cases c.accept s0 (strBytes (buildHeaderStr a.title a.version)) with
      | error e => rfl
      | ok s1 =>
        dsimp only
        rw [streamBodies_factor fs a c (a.scripts.length - 1) a.scripts 0 bodies
          (strBytes (buildHeaderStr a.title a.version)) s1 hbody]
        simp only [List.flatten_cons]
        cases foldAccept c s1 bodies with
        | error e => rfl
        | ok s2 => rfl

/-- A successful `BuildArtifact::scripts` run means the pure chunk stream
is defined. -/
theorem build_runScripts_ok_chunks (fs : Fs) (a : BuildArtifact) (c : Consumer ε σ) (s0 : σ)
    (r : ContentId × σ) (hrun : a.runScripts fs c s0 = .ok r) :
    ∃ chunks, buildStreamChunks fs a = .ok chunks := by
  simp only [BuildArtifact.runScripts] at hrun
  cases hvalid : utf8Valid (strBytes (buildHeaderStr a.title a.version)) with
  | false => rw [hvalid] at hrun; simp at hrun
  | true =>
    rw [hvalid] at hrun
    simp only [if_true] at hrun
    cases haccept : c.accept s0 (strBytes (buildHeaderStr a.title a.version)) with
    | error e => rw [haccept] at hrun; cases hrun
    | ok s1 =>
      rw [haccept] at hrun
      dsimp only at hrun
      cases hsb : streamBodies fs a c (a.scripts.length - 1) 0 a.scripts
          (strBytes (buildHeaderStr a.title a.version)) s1 with
      | error e => rw [hsb] at hrun; cases hrun
      | ok hs2 =>
        obtain ⟨bodies, hbodies⟩ :=
          streamBodies_ok_chunks fs a c (a.scripts.length - 1) a.scripts 0
            (strBytes (buildHeaderStr a.title a.version)) s1 hs2 hsb
        exact ⟨strBytes (buildHeaderStr a.title a.version) :: bodies,
          by simp [buildStreamChunks, hvalid, hbodies]⟩

/-- `Artifact::scripts` of any implementation factors through its pure
chunk stream: the consumer's `accept` receives exactly those chunks in
order, and `commit` receives the SHA-256 of their concatenation, which is
also the returned content id. -/
theorem runScripts_factor (fs : Fs) (A : AnyArtifact) (c : Consumer ε σ) (s0 : σ)
    (chunks : List ByteStr) (hc : streamChunksOf fs A = .ok chunks) :
    A.runScripts fs c s0 =
      match runConsumer c s0 chunks (sha256 chunks.flatten) with
      | .error e => .error e
      | .ok s' => .ok (sha256 chunks.flatten, s') := by
  cases A with
  | build a => exact build_runScripts_factor fs a c s0 chunks hc
  | migration m =>
    simp only [streamChunksOf] at hc
    cases hm : migChunk fs m with
    | error e => rw [hm] at hc; cases hc
    | ok code =>
      rw [hm] at hc
      simp only [Except.map] at hc
      cases hc
      simp only [AnyArtifact.runScripts, MigrationArtifact.runScripts, hm, runConsumer, foldAccept]
      cases c.accept s0 code with
      | error e => rfl
      | ok s1 =>
        dsimp only
        simp only [List.flatten_cons, List.flatten_nil, List.append_nil]
  | generated g =>
    simp only [streamChunksOf] at hc
    cases hc
    simp only [AnyArtifact.runScripts, GeneratedMigration.runScripts]
    rw [genLoop_factor]
    simp only [runConsumer, genChunks, List.nil_append]
    cases foldAccept c s0 (g.statements.map (fun stmt => stmt ++ [0x0A])) with
    | error e => rfl
    | ok s' => rfl

/-- A successful `Artifact::scripts` run means the pure chunk stream is
defined. -/
theorem runScripts_ok_chunks (fs : Fs) (A : AnyArtifact) (c : Consumer ε σ) (s0 : σ)
    (r : ContentId × σ) (hrun : A.runScripts fs c s0 = .ok r) :
    ∃ chunks, streamChunksOf fs A = .ok chunks := by
  cases A with
  | build a =>
    exact build_runScripts_ok_chunks fs a c s0 r hrun
  | migration m =>
    simp only [AnyArtifact.runScripts, MigrationArtifact.runScripts] at hrun
    cases hm : migChunk fs m with
    | error e => rw [hm] at hrun; cases hrun
    | ok code => exact ⟨[code], by simp [streamChunksOf, hm, Except.map]⟩
  | generated g => exact ⟨genChunks g, rfl⟩

/-! ## Concrete fixtures for witnesses and counterexamples -/

/-- An empty filesystem. -/
def fsTrivial : Fs :=
  { nodes := [], moduleManifests := [], artifactManifests := [], projectManifests := [] }

/-- Version `1.0.0`. -/
def v100W : SemVer := { major := 1, minor := 0, patch := 0, pre := [], build := [] }

/-- A one-statement generated migration. -/
def genW : GeneratedMigration :=
  { fromReq := from_empty_database, toV := v100W, statements := [strBytes "select 1;"] }

/-- Its single chunk. -/
def chunkW : ByteStr := strBytes "select 1;" ++ [0x0A]

/-- Its content id. -/
def idW : ContentId := sha256 chunkW

/-! ## C5 -/

/-- C5: for every artifact of the three implementations (BuildArtifact,
MigrationArtifact, GeneratedMigration) and every consumer, a successful
`scripts(consumer)` call returns the SHA-256 of the concatenation, in
delivery order, of exactly the bytes passed to `consumer.accept` during
the call (the pure chunk stream, which is also what the recording
consumer observes), and passes the same id to `consumer.commit`;
identical inputs produce identical ids since the chunk stream is a
function of the artifact and the filesystem. -/
theorem content_id_is_sha256_of_accepted_bytes
    (fs : Fs) (A : AnyArtifact) (ε σ : Type) (c : Consumer ε σ) (s0 : σ)
    (id : ContentId) (sF : σ)
    (hrun : A.runScripts fs c s0 = .ok (id, sF)) :
    ∃ chunks, streamChunksOf fs A = .ok chunks ∧
      A.chunks fs = .ok chunks ∧
      id = sha256 chunks.flatten ∧
      runConsumer c s0 chunks id = .ok sF := by
  obtain ⟨chunks, hc⟩ := runScripts_ok_chunks fs A c s0 (id, sF) hrun
  have hfac := runScripts_factor fs A c s0 chunks hc
  rw [hfac] at hrun
  cases hr : runConsumer c s0 chunks (sha256 chunks.flatten) with
  | error e => rw [hr] at hrun; cases hrun
  | ok s' =>
    rw [hr] at hrun
    simp only [Except.ok.injEq, Prod.mk.injEq] at hrun
    obtain ⟨hid, hsF⟩ := hrun
    refine ⟨chunks, hc, ?_, hid.symm, ?_⟩
    · have hrec := runScripts_factor fs A recordingConsumer [] chunks hc
      unfold AnyArtifact.chunks
      rw [hrec]
      have hfa := foldAccept_recording chunks ([] : List ByteStr)
      have hcm : recordingConsumer.commit ([] ++ chunks) (sha256 chunks.flatten) =
          .ok ([] ++ chunks) := rfl
      simp only [runConsumer, hfa, hcm]
      simp [Except.map]
    · rw [← hid, hr, hsF]

/-- Witness for C5 at a concrete generated migration and the recording
consumer. -/
theorem content_id_is_sha256_of_accepted_bytes_witness :
    ∃ chunks, streamChunksOf fsTrivial (.generated genW) = .ok chunks ∧
      (AnyArtifact.generated genW).chunks fsTrivial = .ok chunks ∧
      idW = sha256 chunks.flatten ∧
      runConsumer recordingConsumer [] chunks idW = .ok [chunkW] :=
  content_id_is_sha256_of_accepted_bytes fsTrivial (.generated genW)
    NullConsumerError (List ByteStr) recordingConsumer [] idW [chunkW] rfl

/-! ## C6 -/

/-- The number of trailing newline bytes of a byte string. -/
def trailingNewlineCount (l : ByteStr) : Nat :=
  (l.reverse.takeWhile (fun b => b == 0x0A)).length

/-- The head of a `dropWhile` run does not satisfy the predicate. -/
theorem head?_dropWhile {α : Type} (p : α → Bool) (l : List α) :
    ∀ x, (l.dropWhile p).head? = some x → p x = false := by
  induction l with
  | nil => intro x h; cases h
  | cons a rest ih =>
    intro x h
    by_cases hp : p a
    · rw [List.dropWhile_cons_of_pos hp] at h
      exact ih x h
    · rw [List.dropWhile_cons_of_neg hp] at h
      cases h
      exact Bool.eq_false_iff.mpr hp

/-- The last byte of a nonempty ASCII-trimmed string is not whitespace. -/
theorem trimAscii_getLast_not_ws (c : ByteStr) (b : Nat)
    (h : (trimAscii c).getLast? = some b) : isAsciiWs b = false := by
  unfold trimAscii trimAsciiEnd at h
  rw [List.getLast?_reverse] at h
  exact head?_dropWhile isAsciiWs _ b h

/-- A byte string of the shape `pre ++ mid ++ [0x0A]` with `mid` ending
in a non-newline byte has exactly one trailing newline. -/
theorem trailingNewlineCount_eq_one (pre mid : ByteStr) (b : Nat)
    (hlast : mid.getLast? = some b) (hb : (b == 0x0A) = false) :
    trailingNewlineCount (pre ++ mid ++ [0x0A]) = 1 := by
  have hrev : mid.reverse.head? = some b := by rw [List.head?_reverse]; exact hlast
  cases hm : mid.reverse with
  | nil => rw [hm] at hrev; cases hrev
  | cons x t =>
    rw [hm] at hrev
    cases hrev
    unfold trailingNewlineCount
    rw [List.reverse_append, List.reverse_append, hm]
    simp [List.takeWhile, hb]

/-- The last chunk of a successful `bodyChunks` run over `rest ++ [p]`
is the chunk of `p` at index `idx + rest.length`. -/
theorem bodyChunks_last (fs : Fs) (a : BuildArtifact) (last_idx : Nat) (p : FsPath)
    (rest : List FsPath) : ∀ (idx : Nat) (chunks : List ByteStr),
    bodyChunks fs a last_idx idx (rest ++ [p]) = .ok chunks →
    ∃ binit chunk, chunks = binit ++ [chunk] ∧
      buildScriptChunk fs a last_idx (idx + rest.length) p = .ok chunk := by
  induction rest with
  | nil =>
    intro idx chunks h
    simp only [List.nil_append, bodyChunks] at h
    cases hchunk : buildScriptChunk fs a last_idx idx p with
    | error e => rw [hchunk] at h; cases h
    | ok chunk =>
      rw [hchunk] at h
      simp only [bodyChunks] at h
      cases h
      exact ⟨[], chunk, rfl, by simpa using hchunk⟩
  | cons q qs ih =>
    intro idx chunks h
    simp only [List.cons_append, bodyChunks, List.append_eq] at h
    cases hchunk : buildScriptChunk fs a last_idx idx q with
    | error e => rw [hchunk] at h; cases h
    | ok chunk =>
      rw [hchunk] at h
      cases hmore : bodyChunks fs a last_idx (idx + 1) (qs ++ [p]) with
      | error e => rw [hmore] at h; cases h
      | ok more =>
        rw [hmore] at h
        dsimp only at h
        cases h
        obtain ⟨binit, chunkL, hsplit, hlast⟩ := ih (idx + 1) more hmore
        refine ⟨chunk :: binit, chunkL, by rw [hsplit]; simp, ?_⟩
        have : idx + 1 + qs.length = idx + (qs.length + 1) := by omega
        rw [this] at hlast
        simpa using hlast

/-- The shape of a successfully built script batch. -/
theorem buildScriptChunk_ok_shape (fs : Fs) (a : BuildArtifact) (last_idx idx : Nat)
    (p : FsPath) (chunk : ByteStr) (h : buildScriptChunk fs a last_idx idx p = .ok chunk) :
    ∃ content, fileContent? fs p = some content ∧
      chunk = strBytes ("-- [ " ++ String.intercalate "/" (p.drop a.source_dir.length) ++ " ]\n\n")
        ++ trimAscii content ++ (if idx != last_idx then [0x0A, 0x0A] else [0x0A]) := by
  unfold buildScriptChunk at h
  by_cases hpre : a.source_dir.isPrefixOf p
  · rw [if_pos hpre] at h
    cases hfc : fileContent? fs p with
    | none => rw [hfc] at h; cases h
    | some content =>
      rw [hfc] at h
      dsimp only at h
      by_cases hv : utf8Valid (strBytes ("-- [ " ++ String.intercalate "/" (p.drop a.source_dir.length) ++ " ]\n\n")
          ++ trimAscii content ++ (if idx != last_idx then [0x0A, 0x0A] else [0x0A]))
      · rw [if_pos hv] at h
        cases h
        exact ⟨content, rfl, rfl⟩
      · rw [if_neg hv] at h
        cases h
  · rw [if_neg hpre] at h
    cases h

/-- C6 (amended): for every artifact, `write_to` returns the same content
id as `content_id` and appends to the sink exactly the delivered byte
stream; for a Build Artifact with at least one script whose last script's
trimmed body is nonempty, the sink ends with exactly one trailing
newline.  (As stated, the single-trailing-newline part fails in general:
a Migration Artifact streams its file verbatim, and an empty Build
Artifact's stream ends with two newlines.) -/
theorem write_to_matches_content_id_amended :
    (∀ (fs : Fs) (A : AnyArtifact) (buf : ByteStr) (id : ContentId) (out : ByteStr),
       A.write_to fs buf = .ok (id, out) →
       A.content_id fs = .ok id ∧
       ∃ chunks, streamChunksOf fs A = .ok chunks ∧ out = buf ++ chunks.flatten) ∧
    (∀ (fs : Fs) (a : BuildArtifact) (buf : ByteStr) (id : ContentId) (out : ByteStr)
       (rest : List FsPath) (p : FsPath) (content : ByteStr) (b : Nat),
       a.scripts = rest ++ [p] →
       fileContent? fs p = some content →
       (trimAscii content).getLast? = some b →
       (AnyArtifact.build a).write_to fs buf = .ok (id, out) →
       trailingNewlineCount out = 1) := by
  have key : ∀ (fs : Fs) (A : AnyArtifact) (buf : ByteStr) (id : ContentId) (out : ByteStr),
      A.write_to fs buf = .ok (id, out) →
      A.content_id fs = .ok id ∧
      ∃ chunks, streamChunksOf fs A = .ok chunks ∧
        id = sha256 chunks.flatten ∧ out = buf ++ chunks.flatten := by
    intro fs A buf id out h
    simp only [AnyArtifact.write_to] at h
    obtain ⟨chunks, hc⟩ := runScripts_ok_chunks fs A sinkConsumer buf (id, out) h
    have hfac := runScripts_factor fs A sinkConsumer buf chunks hc
    rw [hfac] at h
    have hrc : runConsumer sinkConsumer buf chunks (sha256 chunks.flatten) =
        .ok (buf ++ chunks.flatten) := by
      have hfa := foldAccept_sink chunks buf
      have hcm : sinkConsumer.commit (buf ++ chunks.flatten) (sha256 chunks.flatten) =
          .ok (buf ++ chunks.flatten) := rfl
      simp only [runConsumer, hfa, hcm]
    rw [hrc] at h
    simp only [Except.ok.injEq, Prod.mk.injEq] at h
    obtain ⟨hid, hout⟩ := h
    constructor
    · have hnul := runScripts_factor fs A nullConsumer () chunks hc
      have hrcn : runConsumer nullConsumer () chunks (sha256 chunks.flatten) = .ok () := by
        have hfa := foldAccept_null chunks
        have hcm : nullConsumer.commit () (sha256 chunks.flatten) = .ok () := rfl
        simp only [runConsumer, hfa, hcm]
      unfold AnyArtifact.content_id
      rw [hnul, hrcn]
      simp [Except.map, hid]
    · exact ⟨chunks, hc, hid.symm, hout.symm⟩
  constructor
  · intro fs A buf id out h
    obtain ⟨h1, chunks, h2, _, h4⟩ := key fs A buf id out h
    exact ⟨h1, chunks, h2, h4⟩
  · intro fs a buf id out rest p content b hscripts hcontent hlastb h
    obtain ⟨_, chunks, hc, _, hout⟩ := key fs (.build a) buf id out h
    simp only [streamChunksOf] at hc
    unfold buildStreamChunks at hc
    by_cases hvalid : utf8Valid (strBytes (buildHeaderStr a.title a.version))
    · rw [if_pos hvalid] at hc
      cases hbody : bodyChunks fs a (a.scripts.length - 1) 0 a.scripts with
      | error e => rw [hbody] at hc; cases hc
      | ok bodies =>
        rw [hbody] at hc
        dsimp only at hc
        cases hc
        rw [hscripts] at hbody
        obtain ⟨binit, chunk, hbsplit, hchunk⟩ :=
          bodyChunks_last fs a ((rest ++ [p]).length - 1) p rest 0 bodies hbody
        obtain ⟨content', hfc', hshape⟩ :=
          buildScriptChunk_ok_shape fs a ((rest ++ [p]).length - 1) (0 + rest.length) p chunk hchunk
        rw [hcontent] at hfc'
        cases hfc'
        have hlen : (rest ++ [p]).length - 1 = rest.length := by simp
        rw [hlen] at hshape
        simp only [Nat.zero_add, bne_self_eq_false, Bool.false_eq_true, if_false] at hshape
        have hws := trimAscii_getLast_not_ws content b hlastb
        have hb10 : (b == 0x0A) = false := by
          cases hb : b == 0x0A with
          | false => rfl
          | true =>
            have hbe : b = 0x0A := by simpa using hb
            subst hbe
            simp [isAsciiWs] at hws
        rw [hout, hbsplit, hshape]
        have hassoc :
            buf ++ (strBytes (buildHeaderStr a.title a.version) :: (binit ++
              [strBytes ("-- [ " ++ String.intercalate "/" (p.drop a.source_dir.length) ++ " ]\n\n")
                ++ trimAscii content ++ [0x0A]])).flatten =
            (buf ++ strBytes (buildHeaderStr a.title a.version) ++ binit.flatten ++
              strBytes ("-- [ " ++ String.intercalate "/" (p.drop a.source_dir.length) ++ " ]\n\n"))
              ++ trimAscii content ++ [0x0A] := by
          simp [List.flatten_cons, List.flatten_append, List.append_assoc]
        rw [hassoc]
        exact trailingNewlineCount_eq_one _ (trimAscii content) b hlastb hb10
    · rw [if_neg hvalid] at hc
      cases hc

/-- A migration file without a trailing newline. -/
def migFileW : ByteStr := strBytes "select 1;"

/-- A filesystem holding it. -/
def fsC6 : Fs :=
  { nodes := [.dir [], .file ["m.sql"] migFileW]
    moduleManifests := []
    artifactManifests := []
    projectManifests := [] }

/-- A migration artifact streaming that file. -/
def migW : MigrationArtifact :=
  { fromReq := from_empty_database, toV := v100W, script := ["m.sql"] }

/-- C6 counterexample: a Migration Artifact whose file does not end in a
newline streams, via `write_to`, a nonempty buffer with zero trailing
newlines — not exactly one as the claim states for every artifact. -/
theorem write_to_trailing_newline_counterexample :
    ∃ id out, AnyArtifact.write_to fsC6 (.migration migW) [] = .ok (id, out) ∧
      out ≠ [] ∧ trailingNewlineCount out = 0 := by
  refine ⟨sha256 migFileW, migFileW, rfl, by decide, by decide⟩

/-- A one-script project filesystem for the C6 witness. -/
def fsBW : Fs :=
  { nodes := [.dir [], .dir ["src"], .file ["src", "a.sql"] (strBytes "select 1;")]
    moduleManifests := []
    artifactManifests := []
    projectManifests := [] }

/-- Its build artifact. -/
def buildW : BuildArtifact :=
  { scripts := [["src", "a.sql"]], version := v100W, source_dir := ["src"], title := "p" }

/-- Its streamed bytes. -/
def outBW : ByteStr :=
  strBytes (buildHeaderStr "p" v100W) ++
    (strBytes "-- [ a.sql ]\n\n" ++ trimAscii (strBytes "select 1;") ++ [0x0A])

/-- Witness for the amended C6 at a concrete migration artifact (part 1)
and a concrete one-script build artifact (part 2). -/
theorem write_to_matches_content_id_amended_witness :
    ((AnyArtifact.migration migW).content_id fsC6 = .ok (sha256 migFileW) ∧
      ∃ chunks, streamChunksOf fsC6 (.migration migW) = .ok chunks ∧
        migFileW = [] ++ chunks.flatten) ∧
    trailingNewlineCount outBW = 1 :=
  ⟨write_to_matches_content_id_amended.1 fsC6 (.migration migW) [] (sha256 migFileW) migFileW rfl,
   write_to_matches_content_id_amended.2 fsBW buildW [] (sha256 outBW) outBW
     [] ["src", "a.sql"] (strBytes "select 1;") 59 rfl rfl (by decide) rfl⟩

/-! ## C9 -/

/-- C9: version `0.0.0` is rejected as a project version — whenever the
ancestor walk of `open_project` finds a manifest whose version is
`0.0.0`, the result is the InvalidVersion error — and `0.0.0` is accepted
as the empty-database state: the row conversion maps a null
`project_version` column to `0.0.0`, so a managed database whose state
row has a null `head` reports project version `0.0.0`. -/
theorem version_zero_rejected_and_empty_state :
    (∀ (fs : Fs) (directory : FsPath) (root : FsPath) (pm : ProjectManifestData),
       (ancestors directory).findSome?
           (fun d => (projectManifest? fs d).map (fun m => (d, m))) = some (root, pm) →
       pm.version = empty_database_version →
       open_project fs directory = .error .invalidVersion) ∧
    (∀ sv : SemVer, stateOfRow none sv =
       { project_version := empty_database_version, sqigl_version := sv }) ∧
    (∀ db : Db, db.installed = true → db.head = none →
       get_state db = .ok { project_version := empty_database_version
                            sqigl_version := db.sqiglVersion }) := by
  refine ⟨?_, ?_, ?_⟩
  · intro fs directory root pm hfind hv
    unfold open_project
    rw [hfind]
    dsimp only
    rw [hv]
    rw [if_pos (by decide : semverLe empty_database_version empty_database_version = true)]
  · intro sv
    rfl
  · intro db hinst hhead
    unfold get_state
    rw [hinst]
    simp [Db.project_version_col, hhead, stateOfRow]

/-- A manifest declaring version `0.0.0`. -/
def pmW : ProjectManifestData := { title := "t", version := empty_database_version }

/-- A filesystem with that manifest at directory `x`. -/
def fsProjW : Fs :=
  { nodes := [.dir []]
    moduleManifests := []
    artifactManifests := []
    projectManifests := [(["x"], pmW)] }

/-- A fresh managed database (null head). -/
def dbEmptyW : Db :=
  { installed := true, artifacts := [], history := [], head := none
    sqiglVersion := SQIGL_VERSION, user := [] }

/-- Witness for C9 at a concrete manifest and a concrete fresh database. -/
theorem version_zero_rejected_and_empty_state_witness :
    open_project fsProjW ["x", "y"] = .error .invalidVersion ∧
    get_state dbEmptyW = .ok { project_version := empty_database_version
                               sqigl_version := dbEmptyW.sqiglVersion } :=
  ⟨version_zero_rejected_and_empty_state.1 fsProjW ["x", "y"] ["x"] pmW rfl rfl,
   version_zero_rejected_and_empty_state.2.2 dbEmptyW rfl rfl⟩

/-! ## Transaction-effect lemmas for the backends -/

/-- Well-formed history pks: no row already uses a fresh pk. -/
def HistWF (db : Db) : Prop := ∀ r ∈ db.history, r.pk ≤ db.history.length

/-- `foldAccept` with the transaction consumer only touches the user
schema. -/
theorem foldAccept_txConsumer (exec : Exec) (v : SemVer) (chunks : List ByteStr) :
    ∀ (tx tx' : Db), foldAccept (txConsumer exec v) tx chunks = .ok tx' →
    tx'.installed = tx.installed ∧ tx'.artifacts = tx.artifacts ∧
    tx'.history = tx.history ∧ tx'.head = tx.head ∧
    tx'.sqiglVersion = tx.sqiglVersion := by
  induction chunks with
  | nil =>
    intro tx tx' h
    simp only [foldAccept] at h
    cases h
    exact ⟨rfl, rfl, rfl, rfl, rfl⟩
  | cons chunk rest ih =>
    intro tx tx' h
    simp only [foldAccept] at h
    cases hacc : (txConsumer exec v).accept tx chunk with
    | error e => rw [hacc] at h; cases h
    | ok tx1 =>
      rw [hacc] at h
      dsimp only at h
      have h1 := ih tx1 tx' h
      simp only [txConsumer] at hacc
      cases hexec : exec tx.user chunk with
      | none => rw [hexec] at hacc; cases hacc
      | some u' =>
        rw [hexec] at hacc
        dsimp only at hacc
        cases hacc
        simpa using h1

/-- `get_artifact_by_id` only touches the artifact table. -/
theorem get_artifact_by_id_fields (db : Db) (id : ContentId) :
    (get_artifact_by_id db id).2.installed = db.installed ∧
    (get_artifact_by_id db id).2.history = db.history ∧
    (get_artifact_by_id db id).2.head = db.head ∧
    (get_artifact_by_id db id).2.sqiglVersion = db.sqiglVersion := by
  unfold get_artifact_by_id
  cases db.artifacts.find? (fun e => e.2 == id) <;> exact ⟨rfl, rfl, rfl, rfl⟩

/-- The commit of the transaction consumer: appends the history row
`{prev = head, artifact, version}` with a fresh pk and points `head` at
it. -/
theorem txConsumer_commit_shape (exec : Exec) (v : SemVer) (tx : Db) (id : ContentId)
    (tx' : Db) (h : (txConsumer exec v).commit tx id = .ok tx') :
    tx'.installed = tx.installed ∧ tx'.sqiglVersion = tx.sqiglVersion ∧
    tx'.head = some (tx.history.length + 1) ∧
    ∃ apk, tx'.history = tx.history ++
      [{ pk := tx.history.length + 1, prev := tx.head, artifact := apk, version := v }] := by
  obtain ⟨hi, hh, hd, hs⟩ := get_artifact_by_id_fields tx id
  simp only [txConsumer] at h
  cases h
  refine ⟨hi, hs, by rw [hh], ⟨(get_artifact_by_id tx id).1, ?_⟩⟩
  rw [hh, hd]

/-- Structure of the database after a successful apply transaction. -/
theorem runScripts_txConsumer_ok (fs : Fs) (exec : Exec) (a : AnyArtifact) (db : Db)
    (id : ContentId) (db' : Db)
    (hrun : a.runScripts fs (txConsumer exec a.version) db = .ok (id, db')) :
    db'.installed = db.installed ∧ db'.sqiglVersion = db.sqiglVersion ∧
    db'.head = some (db.history.length + 1) ∧
    ∃ apk, db'.history = db.history ++
      [{ pk := db.history.length + 1, prev := db.head, artifact := apk
         version := a.version }] := by
  obtain ⟨chunks, hc⟩ := runScripts_ok_chunks fs a (txConsumer exec a.version) db (id, db') hrun
  rw [runScripts_factor fs a (txConsumer exec a.version) db chunks hc] at hrun
  cases hr : runConsumer (txConsumer exec a.version) db chunks (sha256 chunks.flatten) with
  | error e => rw [hr] at hrun; cases hrun
  | ok dbx =>
    rw [hr] at hrun
    simp only [Except.ok.injEq, Prod.mk.injEq] at hrun
    obtain ⟨_, hdbx⟩ := hrun
    subst hdbx
    unfold runConsumer at hr
    cases hfa : foldAccept (txConsumer exec a.version) db chunks with
    | error e => rw [hfa] at hr; cases hr
    | ok tx =>
      rw [hfa] at hr
      obtain ⟨fi, _, fh, fd, fs'⟩ := foldAccept_txConsumer exec a.version chunks db tx hfa
      obtain ⟨ci, cs, cd, apk, ch⟩ := txConsumer_commit_shape exec a.version tx (sha256 chunks.flatten) _ hr
      refine ⟨by rw [ci, fi], by rw [cs, fs'], by rw [cd, fh], apk, ?_⟩
      rw [ch, fh, fd]

/-- The fresh history row is found by its pk. -/
theorem find_fresh_row (hist : List HistoryRow) (row : HistoryRow)
    (hpk : row.pk = hist.length + 1)
    (hwf : ∀ r ∈ hist, r.pk ≤ hist.length) :
    (hist ++ [row]).find? (fun r => r.pk == hist.length + 1) = some row := by
  rw [List.find?_append]
  have hnone : hist.find? (fun r => r.pk == hist.length + 1) = none := by
    rw [List.find?_eq_none]
    intro r hr
    have := hwf r hr
    simp only [Nat.beq_eq_true_eq]
    omega
  rw [hnone]
  simp [List.find?, hpk]

/-- The state read after a successful apply transaction names the
artifact's version. -/
theorem get_state_after_apply (fs : Fs) (exec : Exec) (a : AnyArtifact) (db : Db)
    (id : ContentId) (db' : Db) (hinst : db.installed = true) (hwf : HistWF db)
    (hrun : a.runScripts fs (txConsumer exec a.version) db = .ok (id, db')) :
    get_state db' = .ok { project_version := a.version, sqigl_version := db.sqiglVersion } := by
  obtain ⟨hi, hs, hd, apk, hh⟩ := runScripts_txConsumer_ok fs exec a db id db' hrun
  unfold get_state
  rw [hi, hinst]
  rw [if_pos rfl]
  unfold Db.project_version_col
  rw [hd, hh, hs]
  simp only [Option.some_bind]
  rw [find_fresh_row db.history _ rfl hwf]
  simp [stateOfRow]

/-- Streaming-side errors are never the Incompatible error. -/
theorem toSPE_ne_incompatible (se : StreamErr) :
    (StreamErr.toSPE se : ScriptProcessingError ε) ≠ .incompatible := by
  cases se <;> exact fun h => nomatch h

/-- The transaction consumer's `accept` fails only with a database error. -/
theorem txConsumer_accept_error (exec : Exec) (v : SemVer) (tx : Db) (chunk : ByteStr)
    (e : ScriptProcessingError Unit) (h : (txConsumer exec v).accept tx chunk = .error e) :
    e = .database () := by
  simp only [txConsumer] at h
  cases hexec : exec tx.user chunk with
  | none => rw [hexec] at h; cases h; rfl
  | some u' => rw [hexec] at h; cases h

/-- `streamBodies` over the transaction consumer never raises
Incompatible. -/
theorem streamBodies_tx_not_incompatible (fs : Fs) (a : BuildArtifact) (exec : Exec)
    (v : SemVer) (last_idx : Nat) (scripts : List FsPath) :
    ∀ (idx : Nat) (h : ByteStr) (s : Db),
    streamBodies fs a (txConsumer exec v) last_idx idx scripts h s ≠ .error .incompatible := by
  induction scripts with
  | nil => intro idx h s hc; cases hc
  | cons script rest ih =>
    intro idx h s hc
    simp only [streamBodies] at hc
    cases hchunk : buildScriptChunk fs a last_idx idx script with
    | error e =>
      rw [hchunk] at hc
      simp only [Except.error.injEq] at hc
      exact toSPE_ne_incompatible e hc
    | ok chunk =>
      rw [hchunk] at hc
      dsimp only at hc
      cases hacc : (txConsumer exec v).accept s chunk with
      | error e =>
        rw [hacc] at hc
        cases hc
        cases txConsumer_accept_error exec v s chunk _ hacc
      | ok s' =>
        rw [hacc] at hc
        exact ih (idx + 1) (h ++ chunk) s' hc

/-- `genLoop` over the transaction consumer never raises Incompatible. -/
theorem genLoop_tx_not_incompatible (exec : Exec) (v : SemVer) (stmts : List ByteStr) :
    ∀ (h : ByteStr) (s : Db),
    genLoop (txConsumer exec v) stmts h s ≠ .error .incompatible := by
  induction stmts with
  | nil => intro h s hc; cases hc
  | cons stmt rest ih =>
    intro h s hc
    simp only [genLoop] at hc
    cases hacc : (txConsumer exec v).accept s (stmt ++ [0x0A]) with
    | error e =>
      rw [hacc] at hc
      cases hc
      cases txConsumer_accept_error exec v s (stmt ++ [0x0A]) _ hacc
    | ok s' =>
      rw [hacc] at hc
      exact ih (h ++ (stmt ++ [0x0A])) s' hc

/-- `Artifact::scripts` over the transaction consumer never raises
Incompatible: the compatibility check is the only source of that error. -/
theorem runScripts_tx_not_incompatible (fs : Fs) (exec : Exec) (a : AnyArtifact)
    (v : SemVer) (db : Db) :
    a.runScripts fs (txConsumer exec v) db ≠ .error .incompatible := by
  cases a with
  | build b =>
    intro hc
    simp only [AnyArtifact.runScripts, BuildArtifact.runScripts] at hc
    by_cases hv : utf8Valid (strBytes (buildHeaderStr b.title b.version))
    · rw [if_pos hv] at hc
      cases hacc : (txConsumer exec v).accept db (strBytes (buildHeaderStr b.title b.version)) with
      | error e =>
        rw [hacc] at hc
        cases hc
        cases txConsumer_accept_error exec v db _ _ hacc
      | ok s1 =>
        rw [hacc] at hc
        dsimp only at hc
        cases hsb : streamBodies fs b (txConsumer exec v) (b.scripts.length - 1) 0 b.scripts
            (strBytes (buildHeaderStr b.title b.version)) s1 with
        | error e =>
          rw [hsb] at hc
          cases hc
          exact streamBodies_tx_not_incompatible fs b exec v (b.scripts.length - 1)
            b.scripts 0 _ s1 hsb
        | ok r =>
          rw [hsb] at hc
          obtain ⟨hbytes, s2⟩ := r
          dsimp only at hc
          cases hcm : (txConsumer exec v).commit s2 (sha256 hbytes) with
          | error e => simp [txConsumer] at hcm
          | ok s3 =>
            rw [hcm] at hc
            cases hc
    · rw [if_neg hv] at hc
      cases hc
  | migration m =>
    intro hc
    simp only [AnyArtifact.runScripts, MigrationArtifact.runScripts] at hc
    cases hm : migChunk fs m with
    | error e =>
      rw [hm] at hc
      simp only [Except.error.injEq] at hc
      exact toSPE_ne_incompatible e hc
    | ok code =>
      rw [hm] at hc
      dsimp only at hc
      cases hacc : (txConsumer exec v).accept db code with
      | error e =>
        rw [hacc] at hc
        cases hc
        cases txConsumer_accept_error exec v db code _ hacc
      | ok s1 =>
        rw [hacc] at hc
        dsimp only at hc
        cases hcm : (txConsumer exec v).commit s1 (sha256 code) with
        | error e => simp [txConsumer] at hcm
        | ok s2 =>
          rw [hcm] at hc
          cases hc
  | generated g =>
    intro hc
    simp only [AnyArtifact.runScripts, GeneratedMigration.runScripts] at hc
    cases hg : genLoop (txConsumer exec v) g.statements [] db with
    | error e =>
      rw [hg] at hc
      cases hc
      exact genLoop_tx_not_incompatible exec v g.statements [] db hg
    | ok r =>
      obtain ⟨hbytes, s1⟩ := r
      rw [hg] at hc
      dsimp only at hc
      cases hcm : (txConsumer exec v).commit s1 (sha256 hbytes) with
      | error e => simp [txConsumer] at hcm
      | ok s2 =>
        rw [hcm] at hc
        cases hc

/-! ## C10 -/

/-- C10: the two backends disagree on the state a successful apply
returns.  Both run the same transaction and leave the database in the
same final state, whose open() reads the artifact's version; but
`SqliteBackend::apply` re-reads the state after commit, returning the
artifact's version, while `PostgresBackend::apply` returns the state it
read inside the transaction before streaming, i.e. the pre-apply
version (0.0.0 on a fresh database). -/
theorem backends_disagree_on_returned_state (fs : Fs) (exec : Exec) (a : AnyArtifact)
    (db : Db) (stS stP : SqiglState) (dbS dbP : Db)
    (hinst : db.installed = true) (hwf : HistWF db)
    (hS : sqlite_apply fs exec a db = (.ok stS, dbS))
    (hP : postgres_apply fs exec a db = (.ok stP, dbP)) :
    dbS = dbP ∧
    stS = { project_version := a.version, sqigl_version := db.sqiglVersion } ∧
    get_state db = .ok stP := by
  have hgs : get_state db = .ok (stateOfRow db.project_version_col db.sqiglVersion) := by
    unfold get_state
    rw [hinst, if_pos rfl]
  unfold sqlite_apply at hS
  unfold postgres_apply at hP
  rw [hgs] at hS hP
  dsimp only at hS hP
  by_cases hcomp : a.compatible (stateOfRow db.project_version_col db.sqiglVersion).project_version
  · rw [if_neg (by simp [hcomp])] at hS hP
    cases hrun : a.runScripts fs (txConsumer exec a.version) db with
    | error e =>
      rw [hrun] at hS
      simp only [Prod.mk.injEq] at hS
      exact absurd hS.1 (fun h => nomatch h)
    | ok r =>
      obtain ⟨id, db'⟩ := r
      rw [hrun] at hS hP
      dsimp only at hS hP
      have hafter := get_state_after_apply fs exec a db id db' hinst hwf hrun
      rw [hafter] at hS
      simp only [Prod.mk.injEq] at hS hP
      obtain ⟨hS1, hS2⟩ := hS
      obtain ⟨hP1, hP2⟩ := hP
      refine ⟨by rw [← hS2, ← hP2], ?_, ?_⟩
      · cases hS1
        rfl
      · cases hP1
        exact hgs
  · rw [if_pos (by simpa using hcomp)] at hS
    simp only [Prod.mk.injEq] at hS
    exact absurd hS.1 (fun h => nomatch h)

/-- The appending executor used by witnesses: the user schema is the list
of executed batches. -/
def execW : Exec := fun u b => some (u ++ [b])

/-- The database after applying `genW` to a fresh database. -/
def dbAppliedW : Db :=
  { installed := true
    artifacts := [(1, idW)]
    history := [{ pk := 1, prev := none, artifact := 1, version := v100W }]
    head := some 1
    sqiglVersion := SQIGL_VERSION
    user := [chunkW] }

/-- The state the sqlite backend returns for that apply. -/
def stAppliedW : SqiglState := { project_version := v100W, sqigl_version := SQIGL_VERSION }

/-- The pre-apply state of a fresh database. -/
def stEmptyW : SqiglState :=
  { project_version := empty_database_version, sqigl_version := SQIGL_VERSION }

/-- Witness for C10: on a fresh database, sqlite returns the artifact's
version 1.0.0, postgres returns the pre-apply version 0.0.0, and both
leave the same database behind. -/
theorem backends_disagree_on_returned_state_witness :
    dbAppliedW = dbAppliedW ∧
    stAppliedW = { project_version := (AnyArtifact.generated genW).version
                   sqigl_version := dbEmptyW.sqiglVersion } ∧
    get_state dbEmptyW = .ok stEmptyW :=
  backends_disagree_on_returned_state fsTrivial execW (.generated genW) dbEmptyW
    stAppliedW stEmptyW dbAppliedW dbAppliedW rfl
    (fun _ hr => nomatch hr) rfl rfl

/-! ## C4 -/

/-- C4: on either backend, a successful apply leaves a database whose
open() reports the artifact's version; apply raises Incompatible exactly
when the artifact is incompatible with the project version read at the
start of the transaction; and an Incompatible failure leaves the
database unchanged (the check precedes any script execution and the
transaction is rolled back). -/
theorem apply_version_and_incompatible (fs : Fs) (exec : Exec) (a : AnyArtifact) (db : Db) :
    (∀ stS dbS, db.installed = true → HistWF db →
        sqlite_apply fs exec a db = (.ok stS, dbS) →
        (dbS.openState).2 = { project_version := a.version
                              sqigl_version := db.sqiglVersion }) ∧
    (∀ stP dbP, db.installed = true → HistWF db →
        postgres_apply fs exec a db = (.ok stP, dbP) →
        (dbP.openState).2 = { project_version := a.version
                              sqigl_version := db.sqiglVersion }) ∧
    (db.installed = true →
      (((sqlite_apply fs exec a db).1 = .error .incompatible) ↔
        a.compatible (stateOfRow db.project_version_col db.sqiglVersion).project_version
          = false)) ∧
    (db.installed = true →
      (((postgres_apply fs exec a db).1 = .error .incompatible) ↔
        a.compatible (stateOfRow db.project_version_col db.sqiglVersion).project_version
          = false)) ∧
    ((sqlite_apply fs exec a db).1 = .error .incompatible →
      (sqlite_apply fs exec a db).2 = db) ∧
    ((postgres_apply fs exec a db).1 = .error .incompatible →
      (postgres_apply fs exec a db).2 = db) := by
  have hopen : ∀ (d : Db) (st : SqiglState), get_state d = .ok st → (d.openState).2 = st := by
    intro d st h
    unfold Db.openState
    rw [h]
  refine ⟨?_, ?_, ?_, ?_, ?_, ?_⟩
  · intro stS dbS hinst hwf hS
    have hgs : get_state db = .ok (stateOfRow db.project_version_col db.sqiglVersion) := by
      unfold get_state; rw [hinst, if_pos rfl]
    unfold sqlite_apply at hS
    rw [hgs] at hS
    dsimp only at hS
    by_cases hcomp : a.compatible (stateOfRow db.project_version_col db.sqiglVersion).project_version
    · rw [if_neg (by simp [hcomp])] at hS
      cases hrun : a.runScripts fs (txConsumer exec a.version) db with
      | error e =>
        rw [hrun] at hS
        simp only [Prod.mk.injEq] at hS
        exact absurd hS.1 (fun h => nomatch h)
      | ok r =>
        obtain ⟨id, db'⟩ := r
        rw [hrun] at hS
        dsimp only at hS
        have hafter := get_state_after_apply fs exec a db id db' hinst hwf hrun
        rw [hafter] at hS
        simp only [Prod.mk.injEq] at hS
        obtain ⟨_, hS2⟩ := hS
        rw [← hS2]
        exact hopen db' _ hafter
    · rw [if_pos (by simpa using hcomp)] at hS
      simp only [Prod.mk.injEq] at hS
      exact absurd hS.1 (fun h => nomatch h)
  · intro stP dbP hinst hwf hP
    have hgs : get_state db = .ok (stateOfRow db.project_version_col db.sqiglVersion) := by
      unfold get_state; rw [hinst, if_pos rfl]
    unfold postgres_apply at hP
    rw [hgs] at hP
    dsimp only at hP
    by_cases hcomp : a.compatible (stateOfRow db.project_version_col db.sqiglVersion).project_version
    · rw [if_neg (by simp [hcomp])] at hP
      cases hrun : a.runScripts fs (txConsumer exec a.version) db with
      | error e =>
        rw [hrun] at hP
        simp only [Prod.mk.injEq] at hP
        exact absurd hP.1 (fun h => nomatch h)
      | ok r =>
        obtain ⟨id, db'⟩ := r
        rw [hrun] at hP
        dsimp only at hP
        have hafter := get_state_after_apply fs exec a db id db' hinst hwf hrun
        simp only [Prod.mk.injEq] at hP
        obtain ⟨_, hP2⟩ := hP
        rw [← hP2]
        exact hopen db' _ hafter
    · rw [if_pos (by simpa using hcomp)] at hP
      simp only [Prod.mk.injEq] at hP
      exact absurd hP.1 (fun h => nomatch h)
  · intro hinst
    have hgs : get_state db = .ok (stateOfRow db.project_version_col db.sqiglVersion) := by
      unfold get_state; rw [hinst, if_pos rfl]
    unfold sqlite_apply
    rw [hgs]
    dsimp only
    by_cases hcomp : a.compatible (stateOfRow db.project_version_col db.sqiglVersion).project_version
    · rw [if_neg (by simp [hcomp])]
      constructor
      · intro hfst
        exfalso
        cases hrun : a.runScripts fs (txConsumer exec a.version) db with
        | error e =>
          rw [hrun] at hfst
          dsimp only at hfst
          cases hfst
          exact runScripts_tx_not_incompatible fs exec a a.version db hrun
        | ok r =>
          obtain ⟨id, db'⟩ := r
          rw [hrun] at hfst
          dsimp only at hfst
          cases hgs' : get_state db' with
          | error e => rw [hgs'] at hfst; cases hfst
          | ok st' => rw [hgs'] at hfst; cases hfst
      · intro hfalse
        rw [hcomp] at hfalse
        cases hfalse
    · rw [if_pos (by simpa using hcomp)]
      simp only [true_iff]
      simpa using hcomp
  · intro hinst
    have hgs : get_state db = .ok (stateOfRow db.project_version_col db.sqiglVersion) := by
      unfold get_state; rw [hinst, if_pos rfl]
    unfold postgres_apply
    rw [hgs]
    dsimp only
    by_cases hcomp : a.compatible (stateOfRow db.project_version_col db.sqiglVersion).project_version
    · rw [if_neg (by simp [hcomp])]
      constructor
      · intro hfst
        exfalso
        cases hrun : a.runScripts fs (txConsumer exec a.version) db with
        | error e =>
          rw [hrun] at hfst
          dsimp only at hfst
          cases hfst
          exact runScripts_tx_not_incompatible fs exec a a.version db hrun
        | ok r =>
          obtain ⟨id, db'⟩ := r
          rw [hrun] at hfst
          cases hfst
      · intro hfalse
        rw [hcomp] at hfalse
        cases hfalse
    · rw [if_pos (by simpa using hcomp)]
      constructor
      · intro _
        simpa using hcomp
      · intro _
        rfl
  · intro h
    unfold sqlite_apply at h ⊢
    cases hgs : get_state db with
    | error e => rfl
    | ok state =>
      rw [hgs] at h
      dsimp only at h ⊢
      by_cases hcomp : a.compatible state.project_version
      · rw [if_neg (by simp [hcomp])] at h ⊢
        cases hrun : a.runScripts fs (txConsumer exec a.version) db with
        | error e => rfl
        | ok r =>
          obtain ⟨id, db'⟩ := r
          rw [hrun] at h
          dsimp only at h
          cases hgs' : get_state db' with
          | error e => rw [hgs'] at h; cases h
          | ok st' => rw [hgs'] at h; cases h
      · rw [if_pos (by simpa using hcomp)]
  · intro h
    unfold postgres_apply at h ⊢
    cases hgs : get_state db with
    | error e => rfl
    | ok state =>
      rw [hgs] at h
      dsimp only at h ⊢
      by_cases hcomp : a.compatible state.project_version
      · rw [if_neg (by simp [hcomp])] at h ⊢
        cases hrun : a.runScripts fs (txConsumer exec a.version) db with
        | error e => rfl
        | ok r =>
          obtain ⟨id, db'⟩ := r
          rw [hrun] at h
          cases h
      · rw [if_pos (by simpa using hcomp)]

/-- Witness for C4: a successful apply on a fresh database, and an
Incompatible apply of the same artifact on the already-migrated
database, which leaves it unchanged. -/
theorem apply_version_and_incompatible_witness :
    ((dbAppliedW.openState).2 = { project_version := (AnyArtifact.generated genW).version
                                  sqigl_version := dbEmptyW.sqiglVersion }) ∧
    (((sqlite_apply fsTrivial execW (.generated genW) dbAppliedW).1 = .error .incompatible) ↔
      (AnyArtifact.generated genW).compatible
        (stateOfRow dbAppliedW.project_version_col dbAppliedW.sqiglVersion).project_version
          = false) ∧
    ((sqlite_apply fsTrivial execW (.generated genW) dbAppliedW).2 = dbAppliedW) :=
  ⟨(apply_version_and_incompatible fsTrivial execW (.generated genW) dbEmptyW).1
      stAppliedW dbAppliedW rfl (fun _ hr => nomatch hr) rfl,
   (apply_version_and_incompatible fsTrivial execW (.generated genW) dbAppliedW).2.2.1 rfl,
   (apply_version_and_incompatible fsTrivial execW (.generated genW) dbAppliedW).2.2.2.2.1 rfl⟩

/-! ## C3 -/

/-- Specification of `findIdx?` with its index accumulator. -/
theorem findIdx?_go_spec {α : Type} (pred : α → Bool) :
    ∀ (l : List α) (s i : Nat), List.findIdx? pred l s = some i →
    s ≤ i ∧ i - s < l.length ∧ ∃ x, (l.drop (i - s)).head? = some x ∧ pred x = true := by
  intro l
  induction l with
  | nil => intro s i h; simp [List.findIdx?] at h
  | cons a rest ih =>
    intro s i h
    rw [List.findIdx?_cons] at h
    by_cases hp : pred a
    · rw [if_pos hp] at h
      cases h
      exact ⟨Nat.le_refl _, by simp, a, by simp, hp⟩
    · rw [if_neg hp] at h
      obtain ⟨h1, h2, x, hx1, hx2⟩ := ih (s + 1) i h
      refine ⟨by omega, by simp; omega, x, ?_, hx2⟩
      have : i - s = (i - (s + 1)) + 1 := by omega
      rw [this]
      simpa using hx1

/-- Dropping strictly inside a list keeps its last element. -/
theorem getLast?_drop_lt {α : Type} (l : List α) : ∀ i, i < l.length →
    (l.drop i).getLast? = l.getLast? := by
  induction l with
  | nil => intro i h; simp at h
  | cons a rest ih =>
    intro i h
    cases i with
    | zero => rfl
    | succ j =>
      have hj : j < rest.length := by simpa using h
      rw [List.drop_succ_cons, ih j hj]
      cases rest with
      | nil => simp at hj
      | cons b bs => rfl

/-- C3 (amended): before pushing a task whose key is already on the
dependency stack, both push functions fail with a Dependency-Cycle error
whose `cycle_path` is exactly the stack slice from the first occurrence
of that key to the top of the stack, inclusive; the slice *begins* at the
repeated key, and it *ends* at the top task — the one that declared the
dependency back on the key — which is in general a different task key
(the cycle closes from the slice's last element back to its first).  (As
stated, the claim's "beginning and ending at the same task key" is
false.) -/
theorem dependency_cycle_slice_amended (fs : Fs) (stack : List PlanTask) (p : FsPath)
    (root : FsPath) (i : Nat)
    (hfind : stack.findIdx? (fun t => t.path == p) = some i) :
    push_module fs p stack root =
      .error (.dependencyCycle root ((stack.drop i).map PlanTask.path)) ∧
    push_script p stack root =
      .error (.dependencyCycle root ((stack.drop i).map PlanTask.path)) ∧
    ((stack.drop i).map PlanTask.path).head? = some p ∧
    ((stack.drop i).map PlanTask.path).getLast? = (stack.map PlanTask.path).getLast? := by
  have h0 := findIdx?_go_spec (fun t => t.path == p) stack 0 i hfind
  rw [Nat.sub_zero] at h0
  obtain ⟨-, hlen, x, hx1, hx2⟩ := h0
  refine ⟨?_, ?_, ?_, ?_⟩
  · unfold push_module
    rw [hfind]
  · unfold push_script
    rw [hfind]
  · rw [List.head?_map, hx1]
    have hxp : x.path = p := by simpa using hx2
    simp [hxp]
  · rw [List.getLast?_map, List.getLast?_map, getLast?_drop_lt stack i hlen]

/-- A project with a two-script cycle inside one module. -/
def projC3 : ProjectInfo := { title := "p", version := v100W, root := [] }

/-- Its filesystem: `src/a.sql` depends on `b.sql`, which depends back on
`a.sql`. -/
def fsCyc : Fs :=
  { nodes :=
      [.dir [], .dir ["src"],
       .file ["src", "a.sql"] (strBytes "select a;"),
       .file ["src", "b.sql"] (strBytes "select b;")]
    moduleManifests :=
      [(["src"],
        { dependencies := []
          scripts :=
            [{ script := "a.sql", dependencies := [{ absolute := false, comps := ["b.sql"] }] },
             { script := "b.sql", dependencies := [{ absolute := false, comps := ["a.sql"] }] }] })]
    artifactManifests := []
    projectManifests := [] }

/-- C3 counterexample: on the two-script cycle the planner fails with a
Dependency-Cycle whose `cycle_path` is `[src/a.sql, src/b.sql]` — it
begins at the repeated key `a.sql` but ends at the top task `b.sql`, a
different key, so the claimed "beginning and ending at the same task
key" is false at this input. -/
theorem dependency_cycle_slice_counterexample :
    build_project 32 fsCyc projC3 =
      .error (.dependencyCycle ["src"] [["src", "a.sql"], ["src", "b.sql"]]) ∧
    ([["src", "a.sql"], ["src", "b.sql"]] : List FsPath).head? ≠
      ([["src", "a.sql"], ["src", "b.sql"]] : List FsPath).getLast? := by
  exact ⟨by decide, by decide⟩

/-- A concrete cyclic stack for the C3 witness. -/
def stackC3 : List PlanTask :=
  [.script ["src", "a.sql"], .script ["src", "b.sql"]]

/-- Witness for the amended C3 at a concrete stack whose bottom task key
is re-pushed. -/
theorem dependency_cycle_slice_amended_witness :
    push_module fsCyc ["src", "a.sql"] stackC3 ["src"] =
      .error (.dependencyCycle ["src"] [["src", "a.sql"], ["src", "b.sql"]]) ∧
    push_script ["src", "a.sql"] stackC3 ["src"] =
      .error (.dependencyCycle ["src"] [["src", "a.sql"], ["src", "b.sql"]]) ∧
    ([["src", "a.sql"], ["src", "b.sql"]] : List FsPath).head? = some ["src", "a.sql"] ∧
    ([["src", "a.sql"], ["src", "b.sql"]] : List FsPath).getLast? =
      (stackC3.map PlanTask.path).getLast? :=
  dependency_cycle_slice_amended fsCyc stackC3 ["src", "a.sql"] ["src"] 0 rfl

/-! ## C2 -/

/-- The C2 project: module `src/a`'s script declares a dependency on a
script of module `src/b`. -/
def projBug : ProjectInfo := { title := "p", version := v100W, root := [] }

/-- Its filesystem. -/
def fsBug : Fs :=
  { nodes :=
      [.dir [], .dir ["src"], .dir ["src", "a"], .dir ["src", "b"],
       .file ["src", "a", "s.sql"] (strBytes "select a;"),
       .file ["src", "b", "t.sql"] (strBytes "select b;")]
    moduleManifests :=
      [(["src", "a"],
        { dependencies := []
          scripts := [{ script := "s.sql"
                        dependencies := [{ absolute := true, comps := ["b", "t.sql"] }] }] })]
    artifactManifests := []
    projectManifests := [] }

/-- The root module's info. -/
def srcInfoBug : ModuleInfo := { deps := [], scripts := [], path := ["src"] }

/-- Module `src/a`'s info. -/
def aInfoBug : ModuleInfo :=
  { deps := []
    scripts := [{ script := "s.sql"
                  dependencies := [{ absolute := true, comps := ["b", "t.sql"] }] }]
    path := ["src", "a"] }

/-- Module `src/b`'s info. -/
def bInfoBug : ModuleInfo := { deps := [], scripts := [], path := ["src", "b"] }

/-- The loop state after seeding. -/
def st0Bug : BuildState :=
  { scripts := [], dependStack := [.module srcInfoBug], deferStack := [], completed := [] }

/-- The completed set once `src`, `src/b/t.sql` and `src/b` are done. -/
def completedBug : List FsPath := [["src"], ["src", "b", "t.sql"], ["src", "b"]]

/-- The recurring state with the completed module `src/b` re-pushed. -/
def sBug : BuildState :=
  { scripts := [["src", "b", "t.sql"]]
    dependStack := [.module aInfoBug, .module bInfoBug]
    deferStack := []
    completed := completedBug }

/-- The other state of the period-2 cycle. -/
def sBug' : BuildState :=
  { scripts := [["src", "b", "t.sql"]]
    dependStack := [.module aInfoBug]
    deferStack := []
    completed := completedBug }

/-- One iteration: the root module defers its children and completes. -/
theorem bug_step1 (n : Nat) : build_loop fsBug ["src"] (n + 1) st0Bug =
    build_loop fsBug ["src"] n
      { scripts := [], dependStack := [], deferStack := [["src", "b"], ["src", "a"]]
        completed := [["src"]] } := rfl

/-- One iteration: `src/b` is refilled from the defer stack and pushes
its script. -/
theorem bug_step2 (n : Nat) : build_loop fsBug ["src"] (n + 1)
      { scripts := [], dependStack := [], deferStack := [["src", "b"], ["src", "a"]]
        completed := [["src"]] } =
    build_loop fsBug ["src"] n
      { scripts := [], dependStack := [.module bInfoBug, .script ["src", "b", "t.sql"]]
        deferStack := [["src", "a"]], completed := [["src"]] } := rfl

/-- One iteration: the script `t.sql` is emitted. -/
theorem bug_step3 (n : Nat) : build_loop fsBug ["src"] (n + 1)
      { scripts := [], dependStack := [.module bInfoBug, .script ["src", "b", "t.sql"]]
        deferStack := [["src", "a"]], completed := [["src"]] } =
    build_loop fsBug ["src"] n
      { scripts := [["src", "b", "t.sql"]], dependStack := [.module bInfoBug]
        deferStack := [["src", "a"]], completed := [["src"], ["src", "b", "t.sql"]] } := rfl

/-- One iteration: module `src/b` completes. -/
theorem bug_step4 (n : Nat) : build_loop fsBug ["src"] (n + 1)
      { scripts := [["src", "b", "t.sql"]], dependStack := [.module bInfoBug]
        deferStack := [["src", "a"]], completed := [["src"], ["src", "b", "t.sql"]] } =
    build_loop fsBug ["src"] n
      { scripts := [["src", "b", "t.sql"]], dependStack := []
        deferStack := [["src", "a"]], completed := completedBug } := rfl

/-- One iteration: `src/a` is refilled and, scanning its script's
cross-module dependency, re-pushes the already completed module `src/b`
(rule 3 of `process_module_task` has no completed-set check). -/
theorem bug_step5 (n : Nat) : build_loop fsBug ["src"] (n + 1)
      { scripts := [["src", "b", "t.sql"]], dependStack := []
        deferStack := [["src", "a"]], completed := completedBug } =
    build_loop fsBug ["src"] n sBug := rfl

/-- One iteration: the re-pushed `src/b` completes again (its completed
insertion is a no-op). -/
theorem bug_step6 (n : Nat) : build_loop fsBug ["src"] (n + 1) sBug =
    build_loop fsBug ["src"] n sBug' := rfl

/-- One iteration: `src/a` re-pushes `src/b` yet again — the loop is
periodic with period 2. -/
theorem bug_step7 (n : Nat) : build_loop fsBug ["src"] (n + 1) sBug' =
    build_loop fsBug ["src"] n sBug := rfl

/-- From the recurring state the loop never finishes. -/
theorem build_loop_bug_stuck : ∀ n, build_loop fsBug ["src"] n sBug = .ok none := by
  intro n
  induction n using Nat.strong_induction_on with
  | _ n ih =>
    match n with
    | 0 => rfl
    | 1 => rfl
    | (m + 2) =>
      rw [bug_step6 (m + 1), bug_step7 m]
      exact ih m (by omega)

/-- The planner's loop exhausts any fuel on the C2 project. -/
theorem build_loop_bug_never_finishes (fuel : Nat) :
    build_loop fsBug ["src"] fuel st0Bug = .ok none := by
  match fuel with
  | 0 => rfl
  | 1 => rfl
  | 2 => rfl
  | 3 => rfl
  | 4 => rfl
  | (n + 5) =>
    rw [bug_step1 (n + 4), bug_step2 (n + 3), bug_step3 (n + 2), bug_step4 (n + 1),
      bug_step5 n]
    exact build_loop_bug_stuck n

/-- C2: the claimed scheduling invariant is violated by the code.  On a
project where module `src/a`'s script depends on a script of module
`src/b` that is already completed, `process_module_task` pushes the
completed module `src/b` back onto the dependency stack (the rule-3 scan
has no completed-set check, contradicting the `debug_assert` in
`push_module` that completed tasks are never scheduled), the module task
is processed again, and `build_project` exhausts every fuel bound — the
planner does not terminate on this acyclic project. -/
theorem completed_module_repushed_and_planner_diverges :
    (∀ fuel, build_project fuel fsBug projBug = .ok none) ∧
    process_module_task fsBug aInfoBug [.module aInfoBug] [] ["src"] completedBug =
      .ok (false, [.module aInfoBug, .module bInfoBug], []) ∧
    completedBug.contains ["src", "b"] = true := by
  refine ⟨?_, by decide, by decide⟩
  intro fuel
  have h : build_project fuel fsBug projBug =
      (build_loop fsBug ["src"] fuel st0Bug).map
        (Option.map (fun st => BuildArtifact.new st.scripts projBug)) := rfl
  rw [h, build_loop_bug_never_finishes fuel]
  rfl

/-! ## The encoder produces valid UTF-8 -/

/-- Valid unicode scalar values (what a `Char` carries). -/
def ValidScalar (n : Nat) : Prop := n < 0xD800 ∨ (0xE000 ≤ n ∧ n < 0x110000)

/-- Decoding inverts encoding for a valid scalar, consuming exactly the
encoded bytes. -/
theorem utf8DecodeChar?_encode (n : Nat) (hv : ValidScalar n) (rest : List Nat) :
    utf8DecodeChar? (utf8EncodeChar n ++ rest) = some (n, rest) := by
  have hn : n < 0x110000 := by
    rcases hv with hv | hv
    · omega
    · omega
  have hnsur : n < 0xD800 ∨ 0xE000 ≤ n := by
    rcases hv with hv | hv
    · exact Or.inl hv
    · exact Or.inr hv.1
  unfold utf8EncodeChar
  by_cases h1 : n < 0x80
  · rw [if_pos h1]
    simp only [List.cons_append, List.nil_append]
    unfold utf8DecodeChar?
    dsimp only
    rw [if_pos h1]
  · rw [if_neg h1]
    by_cases h2 : n < 0x800
    · rw [if_pos h2]
      simp only [List.cons_append, List.nil_append]
      unfold utf8DecodeChar?
      dsimp only
      rw [if_neg (by omega), if_neg (by omega), if_pos (by omega),
        if_pos (show isUtf8Cont (0x80 + n % 64) by unfold isUtf8Cont; omega)]
      have hval : (0xC0 + n / 64 - 0xC0) * 64 + (0x80 + n % 64 - 0x80) = n := by omega
      rw [hval]
    · rw [if_neg h2]
      by_cases h3 : n < 0x10000
      · rw [if_pos h3]
        simp only [List.cons_append, List.nil_append]
        unfold utf8DecodeChar?
        dsimp only
        rw [if_neg (by omega), if_neg (by omega), if_neg (by omega), if_pos (by omega),
          if_pos (show isUtf8Cont (0x80 + n / 64 % 64) ∧ isUtf8Cont (0x80 + n % 64) by
            unfold isUtf8Cont; omega)]
        have hval : (0xE0 + n / 4096 - 0xE0) * 4096 + (0x80 + n / 64 % 64 - 0x80) * 64
            + (0x80 + n % 64 - 0x80) = n := by omega
        rw [hval]
        rw [if_pos (by omega)]
      · rw [if_neg h3]
        simp only [List.cons_append, List.nil_append]
        unfold utf8DecodeChar?
        dsimp only
        rw [if_neg (by omega), if_neg (by omega), if_neg (by omega), if_neg (by omega),
          if_pos (by omega),
          if_pos (show isUtf8Cont (0x80 + n / 4096 % 64) ∧ isUtf8Cont (0x80 + n / 64 % 64)
              ∧ isUtf8Cont (0x80 + n % 64) by unfold isUtf8Cont; omega)]
        have hval : (0xF0 + n / 262144 - 0xF0) * 262144 + (0x80 + n / 4096 % 64 - 0x80) * 4096
            + (0x80 + n / 64 % 64 - 0x80) * 64 + (0x80 + n % 64 - 0x80) = n := by omega
        rw [hval]
        rw [if_pos (by omega)]

/-- The encoding of a scalar is never empty. -/
theorem utf8EncodeChar_ne_nil (n : Nat) : ∃ b bs, utf8EncodeChar n = b :: bs := by
  unfold utf8EncodeChar
  by_cases h1 : n < 0x80
  · rw [if_pos h1]; exact ⟨_, _, rfl⟩
  · rw [if_neg h1]
    by_cases h2 : n < 0x800
    · rw [if_pos h2]; exact ⟨_, _, rfl⟩
    · rw [if_neg h2]
      by_cases h3 : n < 0x10000
      · rw [if_pos h3]; exact ⟨_, _, rfl⟩
      · rw [if_neg h3]; exact ⟨_, _, rfl⟩

/-- A chain of encoded valid scalars passes the fueled validity check. -/
theorem utf8ValidFuel_encode_chain (cs : List Char) : ∀ (n : Nat),
    (cs.flatMap (fun c => utf8EncodeChar c.toNat)).length ≤ n →
    utf8ValidFuel n (cs.flatMap (fun c => utf8EncodeChar c.toNat)) = true := by
  induction cs with
  | nil => intro n _; cases n <;> rfl
  | cons c cs ih =>
    intro n hn
    simp only [List.flatMap_cons] at hn ⊢
    obtain ⟨b, bs, hb⟩ := utf8EncodeChar_ne_nil c.toNat
    have hvalid : ValidScalar c.toNat := by
      have hv := c.valid
      rcases hv with hv | hv
      · exact Or.inl hv
      · exact Or.inr hv
    have hdec := utf8DecodeChar?_encode c.toNat hvalid (cs.flatMap (fun c => utf8EncodeChar c.toNat))
    rw [hb] at hdec hn ⊢
    simp only [List.cons_append, List.length_cons] at hn ⊢
    cases n with
    | zero => omega
    | succ m =>
      show utf8ValidFuel (m + 1) (b :: (bs ++ cs.flatMap (fun c => utf8EncodeChar c.toNat))) = true
      unfold utf8ValidFuel
      simp only [List.cons_append] at hdec
      rw [hdec]
      exact ih m (by simp at hn ⊢; omega)

/-- Encoded strings are valid UTF-8. -/
theorem utf8Valid_strBytes (s : String) : utf8Valid (strBytes s) = true := by
  unfold utf8Valid strBytes
  exact utf8ValidFuel_encode_chain s.data _ (Nat.le_refl _)

/-! ## C8: building an empty source directory -/

/-- A list extended by one element is never a prefix of the original. -/
theorem concat_isPrefixOf_self_eq_false (l : List String) (x : String) :
    (l ++ [x]).isPrefixOf l = false := by
  induction l with
  | nil => rfl
  | cons a l ih => simpa [List.isPrefixOf] using ih

/-- Processing a module with no manifest, no children and an empty
completed set pops immediately. -/
theorem process_module_task_of_empty_dir (fs : Fs) (sd : FsPath) (a : String) (as : List String)
    (hcons : sd = a :: as)
    (hnp : sd.isPrefixOf sd.dropLast = false)
    (hrd : readDir fs sd = [])
    (stack : List PlanTask) (defer : List FsPath) :
    process_module_task fs { deps := [], scripts := [], path := sd } stack defer sd []
      = .ok (true, stack, defer) := by
  unfold process_module_task
  dsimp only
  rw [hcons]
  dsimp only
  rw [← hcons]
  rw [if_neg (by simp [hnp])]
  dsimp only [pure, Except.pure, bind, Except.bind]
  dsimp only [scanModuleDeps, List.flatMap_nil, scanScriptHoist]
  rw [hrd]
  dsimp only [scanChildren]

/-- C8: for a project whose source directory exists but contains no
entries (and carries no module manifest), `build_project` succeeds (with
fuel for its two loop iterations) and returns a Build Artifact whose
scripts list is empty, whose chunk stream is exactly the single header
chunk `"-- [ <title> <version> ]\n\n"` with the title ASCII-trimmed, and
whose content id is the SHA-256 of exactly that header string. -/
theorem empty_source_build (fs : Fs) (info : ProjectInfo) (fuel : Nat)
    (hdir : isDirB fs info.source_dir = true)
    (hman : moduleManifest? fs info.source_dir = none)
    (hrd : readDir fs info.source_dir = [])
    (hfuel : 2 ≤ fuel) :
    build_project fuel fs info = .ok (some (BuildArtifact.new [] info)) ∧
    (BuildArtifact.new [] info).scripts = [] ∧
    streamChunksOf fs (.build (BuildArtifact.new [] info))
      = .ok [strBytes ("-- [ " ++ trimAsciiStr info.title ++ " "
          ++ semverString info.version ++ " ]\n\n")] ∧
    AnyArtifact.content_id fs (.build (BuildArtifact.new [] info))
      = .ok (sha256 (strBytes ("-- [ " ++ trimAsciiStr info.title ++ " "
          ++ semverString info.version ++ " ]\n\n"))) := by
  obtain ⟨f, rfl⟩ : ∃ f, fuel = f + 2 := ⟨fuel - 2, by omega⟩
  have hsd : info.source_dir = info.root ++ ["src"] := rfl
  have hcons : ∃ a as, info.source_dir = a :: as := by
    rw [hsd]
    cases info.root with
    | nil => exact ⟨"src", [], rfl⟩
    | cons r rs => exact ⟨r, rs ++ ["src"], rfl⟩
  obtain ⟨a, as, hcons⟩ := hcons
  have hnp : info.source_dir.isPrefixOf info.source_dir.dropLast = false := by
    rw [hsd]
    rw [show (info.root ++ ["src"]).dropLast = info.root by simp]
    exact concat_isPrefixOf_self_eq_false _ _
  have hex : existsB fs info.source_dir = true := by
    unfold existsB; rw [hdir]; rfl
  have hom : open_module fs info.source_dir
      = .ok { deps := [], scripts := [], path := info.source_dir } := by
    unfold open_module; rw [hman]
  have hpm : push_module fs info.source_dir [] info.source_dir
      = .ok [.module { deps := [], scripts := [], path := info.source_dir }] := by
    unfold push_module
    rw [show List.findIdx? (fun t => t.path == info.source_dir) ([] : List PlanTask)
      = none from rfl]
    rw [hom]
    rfl
  have hproc := process_module_task_of_empty_dir fs info.source_dir a as hcons hnp hrd
    [.module { deps := [], scripts := [], path := info.source_dir }] []
  have hloop : build_loop fs info.source_dir (f + 2)
      { scripts := [], dependStack := [.module { deps := [], scripts := [], path := info.source_dir }],
        deferStack := [], completed := [] }
      = .ok (some { scripts := [], dependStack := [], deferStack := [],
                    completed := [info.source_dir] }) := by
    unfold build_loop
    rw [if_neg (by simp)]
    dsimp only [pure, Except.pure, bind, Except.bind]
    rw [if_neg (by simp)]
    rw [List.getLast?_singleton]
    dsimp only
    rw [hproc]
    dsimp only
    rw [if_pos rfl]
    dsimp only [List.dropLast_single]
    rw [show insertCompleted [] info.source_dir = [info.source_dir] from rfl]
    unfold build_loop
    rfl
  have htrace : build_project_trace (f + 2) fs info
      = .ok (some { scripts := [], dependStack := [], deferStack := [],
                    completed := [info.source_dir] }) := by
    unfold build_project_trace
    rw [if_neg (by simp [hex])]
    rw [hpm]
    exact hloop
  have hbuild : build_project (f + 2) fs info = .ok (some (BuildArtifact.new [] info)) := by
    unfold build_project
    rw [htrace]
    rfl
  have hchunks : streamChunksOf fs (.build (BuildArtifact.new [] info))
      = .ok [strBytes ("-- [ " ++ trimAsciiStr info.title ++ " "
          ++ semverString info.version ++ " ]\n\n")] := by
    show buildStreamChunks fs (BuildArtifact.new [] info) = _
    unfold buildStreamChunks
    rw [if_pos]
    · rfl
    · show utf8Valid (strBytes (buildHeaderStr (BuildArtifact.new [] info).title
        (BuildArtifact.new [] info).version)) = true
      exact utf8Valid_strBytes _
  refine ⟨hbuild, rfl, hchunks, ?_⟩
  unfold AnyArtifact.content_id
  rw [runScripts_factor fs _ nullConsumer () _ hchunks]
  dsimp only [runConsumer, foldAccept, nullConsumer]
  simp only [List.flatten_cons, List.flatten_nil, List.append_nil]
  rfl

/-- A filesystem holding only an empty `src` directory. -/
def fsW8 : Fs :=
  { nodes := [.dir ["src"]], moduleManifests := [], artifactManifests := [],
    projectManifests := [] }

/-- A project rooted at the filesystem root with an untrimmed title. -/
def infoW8 : ProjectInfo := { title := "  demo  ", version := v100W, root := [] }

/-- Witness for C8 at a concrete empty-`src` project. -/
theorem empty_source_build_witness :
    build_project 2 fsW8 infoW8 = .ok (some (BuildArtifact.new [] infoW8)) ∧
    (BuildArtifact.new [] infoW8).scripts = [] ∧
    streamChunksOf fsW8 (.build (BuildArtifact.new [] infoW8))
      = .ok [strBytes ("-- [ " ++ trimAsciiStr infoW8.title ++ " "
          ++ semverString infoW8.version ++ " ]\n\n")] ∧
    AnyArtifact.content_id fsW8 (.build (BuildArtifact.new [] infoW8))
      = .ok (sha256 (strBytes ("-- [ " ++ trimAsciiStr infoW8.title ++ " "
          ++ semverString infoW8.version ++ " ]\n\n"))) :=
  empty_source_build fsW8 infoW8 2 (by decide) rfl rfl (by decide)

/-! ## UTF-8 validity is closed under concatenation (needed for the
round-trip claim: the saved file is the concatenation of the validated
stream chunks and is re-validated on read). -/

/-- A successful decode is stable under appending bytes, and consumes at
least one byte. -/
theorem utf8DecodeChar?_append_and_lt (l t : List Nat) (c : Nat) (r : List Nat)
    (h : utf8DecodeChar? l = some (c, r)) :
    utf8DecodeChar? (l ++ t) = some (c, r ++ t) ∧ r.length < l.length := by
  cases l with
  | nil => exact Option.noConfusion h
  | cons b r0 =>
    rw [List.cons_append]
    unfold utf8DecodeChar? at h ⊢
    dsimp only at h ⊢
    by_cases h1 : b < 0x80
    · rw [if_pos h1] at h ⊢
      simp only [Option.some.injEq, Prod.mk.injEq] at h
      obtain ⟨rfl, rfl⟩ := h
      exact ⟨rfl, by simp⟩
    · rw [if_neg h1] at h ⊢
      by_cases h2 : b < 0xC2
      · rw [if_pos h2] at h; exact Option.noConfusion h
      · rw [if_neg h2] at h ⊢
        by_cases h3 : b < 0xE0
        · rw [if_pos h3] at h ⊢
          cases r0 with
          | nil => exact Option.noConfusion h
          | cons b2 r2 =>
            dsimp only at h
            rw [List.cons_append]
            dsimp only
            by_cases hc : isUtf8Cont b2
            · rw [if_pos hc] at h ⊢
              simp only [Option.some.injEq, Prod.mk.injEq] at h
              obtain ⟨rfl, rfl⟩ := h
              exact ⟨rfl, by simp only [List.length_cons]; omega⟩
            · rw [if_neg hc] at h; exact Option.noConfusion h
        · rw [if_neg h3] at h ⊢
          by_cases h4 : b < 0xF0
          · rw [if_pos h4] at h ⊢
            match r0, h with
            | [], h => exact Option.noConfusion h
            | [b2], h => exact Option.noConfusion h
            | b2 :: b3 :: r3, h =>
              dsimp only at h
              rw [List.cons_append, List.cons_append]
              dsimp only
              by_cases hc : isUtf8Cont b2 ∧ isUtf8Cont b3
              · rw [if_pos hc] at h ⊢
                by_cases hv : 0x800 ≤ (b - 0xE0) * 4096 + (b2 - 0x80) * 64 + (b3 - 0x80)
                    ∧ ¬ (0xD800 ≤ (b - 0xE0) * 4096 + (b2 - 0x80) * 64 + (b3 - 0x80)
                        ∧ (b - 0xE0) * 4096 + (b2 - 0x80) * 64 + (b3 - 0x80) ≤ 0xDFFF)
                · rw [if_pos hv] at h ⊢
                  simp only [Option.some.injEq, Prod.mk.injEq] at h
                  obtain ⟨rfl, rfl⟩ := h
                  exact ⟨rfl, by simp only [List.length_cons]; omega⟩
                · rw [if_neg hv] at h; exact Option.noConfusion h
              · rw [if_neg hc] at h; exact Option.noConfusion h
          · rw [if_neg h4] at h ⊢
            by_cases h5 : b < 0xF5
            · rw [if_pos h5] at h ⊢
              match r0, h with
              | [], h => exact Option.noConfusion h
              | [b2], h => exact Option.noConfusion h
              | [b2, b3], h => exact Option.noConfusion h
              | b2 :: b3 :: b4 :: r4, h =>
                dsimp only at h
                rw [List.cons_append, List.cons_append, List.cons_append]
                dsimp only
                by_cases hc : isUtf8Cont b2 ∧ isUtf8Cont b3 ∧ isUtf8Cont b4
                · rw [if_pos hc] at h ⊢
                  by_cases hv : 0x10000 ≤ (b - 0xF0) * 262144 + (b2 - 0x80) * 4096
                        + (b3 - 0x80) * 64 + (b4 - 0x80)
                      ∧ (b - 0xF0) * 262144 + (b2 - 0x80) * 4096
                        + (b3 - 0x80) * 64 + (b4 - 0x80) < 0x110000
                  · rw [if_pos hv] at h ⊢
                    simp only [Option.some.injEq, Prod.mk.injEq] at h
                    obtain ⟨rfl, rfl⟩ := h
                    exact ⟨rfl, by simp only [List.length_cons]; omega⟩
                  · rw [if_neg hv] at h; exact Option.noConfusion h
                · rw [if_neg hc] at h; exact Option.noConfusion h
            · rw [if_neg h5] at h; exact Option.noConfusion h

/-- More fuel never hurts the validity check. -/
theorem utf8ValidFuel_mono : ∀ (n m : Nat) (l : List Nat), n ≤ m →
    utf8ValidFuel n l = true → utf8ValidFuel m l = true := by
  intro n
  induction n with
  | zero =>
    intro m l _ h
    cases l with
    | nil => cases m <;> rfl
    | cons b r => exact absurd h (by simp [utf8ValidFuel])
  | succ k ih =>
    intro m l hle h
    cases l with
    | nil => cases m <;> rfl
    | cons b r =>
      unfold utf8ValidFuel at h
      cases m with
      | zero => omega
      | succ m' =>
        unfold utf8ValidFuel
        cases hd : utf8DecodeChar? (b :: r) with
        | none => rw [hd] at h; exact absurd h (by simp)
        | some p =>
          rw [hd] at h
          dsimp only at h ⊢
          exact ih m' p.2 (by omega) h
/-- Validity is closed under concatenation (at summed fuel). -/
theorem utf8ValidFuel_append : ∀ (n : Nat) (a b : List Nat) (m : Nat),
    utf8ValidFuel n a = true → utf8ValidFuel m b = true →
    utf8ValidFuel (n + m) (a ++ b) = true := by
  intro n
  induction n with
  | zero =>
    intro a b m ha hb
    cases a with
    | nil => simpa using utf8ValidFuel_mono m (0 + m) b (by omega) hb
    | cons x a' => exact absurd ha (by simp [utf8ValidFuel])
  | succ k ih =>
    intro a b m ha hb
    cases a with
    | nil => simpa using utf8ValidFuel_mono m (k + 1 + m) b (by omega) hb
    | cons x a' =>
      unfold utf8ValidFuel at ha
      cases hd : utf8DecodeChar? (x :: a') with
      | none => rw [hd] at ha; exact absurd ha (by simp)
      | some p =>
        rw [hd] at ha
        dsimp only at ha
        have happ := (utf8DecodeChar?_append_and_lt (x :: a') b p.1 p.2
          (by rw [hd])).1
        rw [show k + 1 + m = (k + m) + 1 from by omega]
        rw [List.cons_append]
        unfold utf8ValidFuel
        rw [List.cons_append] at happ
        rw [happ]
        exact ih p.2 b m ha hb

/-- Validity is closed under concatenation. -/
theorem utf8Valid_append (a b : List Nat)
    (ha : utf8Valid a = true) (hb : utf8Valid b = true) :
    utf8Valid (a ++ b) = true := by
  unfold utf8Valid at ha hb ⊢
  rw [List.length_append]
  exact utf8ValidFuel_append a.length a b b.length ha hb

/-- The concatenation of valid chunks is valid. -/
theorem utf8Valid_flatten (chunks : List ByteStr)
    (h : ∀ c ∈ chunks, utf8Valid c = true) : utf8Valid chunks.flatten = true := by
  induction chunks with
  | nil => rfl
  | cons c rest ih =>
    rw [List.flatten_cons]
    exact utf8Valid_append c rest.flatten (h c (by simp))
      (ih (fun x hx => h x (by simp [hx])))

/-- The validity guard of the streaming code: an `ok` outcome means the
guarded chunk is valid. -/
theorem guardValid_ok (C ch : ByteStr)
    (h : (if utf8Valid C then (.ok C : Except StreamErr ByteStr) else .error .utf8) = .ok ch) :
    utf8Valid ch = true := by
  split at h
  · cases h; assumption
  · exact Except.noConfusion h

/-- A batch accepted by `buildScriptChunk` passed its UTF-8 check. -/
theorem buildScriptChunk_ok_utf8 (fs : Fs) (a : BuildArtifact) (li i : Nat) (s : FsPath)
    (ch : ByteStr) (h : buildScriptChunk fs a li i s = .ok ch) : utf8Valid ch = true := by
  unfold buildScriptChunk at h
  by_cases hp : a.source_dir.isPrefixOf s
  · rw [if_pos hp] at h
    dsimp only at h
    cases hfc : fileContent? fs s with
    | none => rw [hfc] at h; exact Except.noConfusion h
    | some content =>
      rw [hfc] at h
      dsimp only at h
      exact guardValid_ok _ ch h
  · rw [if_neg hp] at h; exact Except.noConfusion h

/-- Every chunk of a Build Artifact's stream is valid UTF-8. -/
theorem bodyChunks_utf8 (fs : Fs) (a : BuildArtifact) (li : Nat) :
    ∀ (i : Nat) (scripts : List FsPath) (l : List ByteStr),
    bodyChunks fs a li i scripts = .ok l → ∀ ch ∈ l, utf8Valid ch = true := by
  intro i scripts
  induction scripts generalizing i with
  | nil =>
    intro l h ch hch
    cases h; simp at hch
  | cons s rest ih =>
    intro l h ch hch
    unfold bodyChunks at h
    cases hc : buildScriptChunk fs a li i s with
    | error e => rw [hc] at h; exact Except.noConfusion h
    | ok chunk =>
      rw [hc] at h
      dsimp only at h
      cases hm : bodyChunks fs a li (i + 1) rest with
      | error e => rw [hm] at h; exact Except.noConfusion h
      | ok more =>
        rw [hm] at h
        cases h
        rcases List.mem_cons.mp hch with rfl | hmem
        · exact buildScriptChunk_ok_utf8 fs a li i s ch hc
        · exact ih (i + 1) more hm ch hmem

/-- Every chunk of a successful Build Artifact stream is valid UTF-8. -/
theorem buildStreamChunks_utf8 (fs : Fs) (a : BuildArtifact) (chunks : List ByteStr)
    (h : buildStreamChunks fs a = .ok chunks) : ∀ ch ∈ chunks, utf8Valid ch = true := by
  unfold buildStreamChunks at h
  dsimp only at h
  by_cases hv : utf8Valid (strBytes (buildHeaderStr a.title a.version)) = true
  · rw [if_pos hv] at h
    cases hb : bodyChunks fs a (a.scripts.length - 1) 0 a.scripts with
    | error e => rw [hb] at h; exact Except.noConfusion h
    | ok bodies =>
      rw [hb] at h
      cases h
      intro ch hch
      rcases List.mem_cons.mp hch with rfl | hmem
      · exact hv
      · exact bodyChunks_utf8 fs a _ 0 a.scripts bodies hb ch hmem
  · rw [if_neg hv] at h; exact Except.noConfusion h

/-! ## Filesystem lemmas for the save/read round trip -/

/-- A list never `==` itself extended by an element. -/
theorem beq_append_singleton_right_eq_false (l : List String) (x : String) :
    (l == l ++ [x]) = false := by
  rw [beq_eq_false_iff_ne]
  intro h
  have := congrArg List.length h
  simp at this

/-- `fsEnsureDir` leaves file contents unchanged. -/
theorem fileContent?_fsEnsureDir (fs : Fs) (d p : FsPath) :
    fileContent? (fsEnsureDir fs d) p = fileContent? fs p := by
  unfold fsEnsureDir
  split
  · rfl
  · unfold fileContent?
    dsimp only
    rw [List.findSome?_append]
    cases hx : List.findSome? (fun n => match n with
      | FsNode.file q c => if q == p then some c else none
      | x => none) fs.nodes <;> rfl

/-- No file anywhere means no content anywhere. -/
theorem fileContent?_eq_none (fs : Fs) (p : FsPath) (h : isFileB fs p = false) :
    fileContent? fs p = none := by
  unfold isFileB at h
  unfold fileContent?
  revert h
  generalize fs.nodes = ns
  induction ns with
  | nil => intro h; rfl
  | cons n rest ih =>
    intro h
    rw [List.any_cons] at h
    rw [List.findSome?_cons]
    cases n with
    | dir q => exact ih (by simpa using h)
    | file q c =>
      dsimp only at h ⊢
      rw [Bool.or_eq_false_iff] at h
      rw [if_neg (by simp [h.1])]
      exact ih h.2

/-- `buildScriptChunk` depends on the filesystem only through file
contents. -/
theorem buildScriptChunk_congr (fs fs' : Fs) (a : BuildArtifact) (li i : Nat) (s : FsPath)
    (h : ∀ p, fileContent? fs p = fileContent? fs' p) :
    buildScriptChunk fs a li i s = buildScriptChunk fs' a li i s := by
  unfold buildScriptChunk
  rw [h s]

/-- `bodyChunks` depends on the filesystem only through file contents. -/
theorem bodyChunks_congr (fs fs' : Fs) (a : BuildArtifact) (li : Nat)
    (h : ∀ p, fileContent? fs p = fileContent? fs' p) :
    ∀ (i : Nat) (scripts : List FsPath),
    bodyChunks fs a li i scripts = bodyChunks fs' a li i scripts := by
  intro i scripts
  induction scripts generalizing i with
  | nil => rfl
  | cons s rest ih =>
    unfold bodyChunks
    rw [buildScriptChunk_congr fs fs' a li i s h, ih (i + 1)]

/-- The Build Artifact stream depends on the filesystem only through file
contents. -/
theorem buildStreamChunks_congr (fs fs' : Fs) (a : BuildArtifact)
    (h : ∀ p, fileContent? fs p = fileContent? fs' p) :
    buildStreamChunks fs a = buildStreamChunks fs' a := by
  unfold buildStreamChunks
  rw [bodyChunks_congr fs fs' a _ h]

/-- A successful `build_project` returns the loop's scripts wrapped by
`BuildArtifact.new`. -/
theorem build_project_ok_shape (fuel : Nat) (fs : Fs) (info : ProjectInfo) (b : BuildArtifact)
    (h : build_project fuel fs info = .ok (some b)) :
    ∃ scripts, b = BuildArtifact.new scripts info := by
  unfold build_project at h
  cases ht : build_project_trace fuel fs info with
  | error e => rw [ht] at h; exact Except.noConfusion h
  | ok o =>
    rw [ht] at h
    cases o with
    | none => simp [Except.map] at h
    | some st =>
      refine ⟨st.scripts, ?_⟩
      simp only [Except.map, Option.map] at h
      cases h
      rfl

/-- C7: round trip.  After `save_project` on a buildable project at
version V (over a filesystem where the artifacts directory is fresh), the
Build Artifact's stream is written to
`artifacts/<normalize(V)>/schema.sql` with a `{from: =0.0.0, to: V}`
migration recorded; opening the migration set and taking
`get_schema(V)` yields a Migration Artifact over that file whose stream
is the single chunk equal to the concatenation of the Build Artifact's
chunks — byte-for-byte the saved stream — and whose content id equals the
Build Artifact's content id, the SHA-256 of those bytes. -/
theorem save_get_schema_round_trip (fuel : Nat) (fs : Fs) (info : ProjectInfo)
    (build : BuildArtifact) (chunks : List ByteStr) (vd sp : FsPath)
    (hvdDef : vd = info.artifacts_dir ++ [semverString (normalize_version info.version)])
    (hspDef : sp = vd ++ [SCHEMA_ARTIFACT_TITLE ++ "." ++ SQL_EXTENSION])
    (hbuild : build_project fuel fs info = .ok (some build))
    (hchunks : streamChunksOf fs (.build build) = .ok chunks)
    (hart : isDirB fs info.artifacts_dir = false)
    (hvd : isDirB fs vd = false)
    (hfile : isFileB fs sp = false)
    (hrd : readDir fs info.artifacts_dir = [])
    (hman : artifactManifest? fs vd = none) :
    ∃ fs2 mset M,
      save_project fuel fs info = .ok (some fs2) ∧
      MigrationSet.open fs2 info = .ok mset ∧
      mset.get_schema info.version = some M ∧
      M.fromReq = from_empty_database ∧ M.toV = info.version ∧ M.script = sp ∧
      streamChunksOf fs2 (.migration M) = .ok [chunks.flatten] ∧
      AnyArtifact.content_id fs2 (.migration M) = .ok (sha256 chunks.flatten) ∧
      AnyArtifact.content_id fs (.build build) = .ok (sha256 chunks.flatten) := by
  obtain ⟨scr, rfl⟩ := build_project_ok_shape fuel fs info build hbuild
  have hmig : (SCHEMA_ARTIFACT_TITLE ++ "." ++ SQL_EXTENSION).data.contains '/' = false := by
    decide
  have h1 : fsEnsureDir fs info.artifacts_dir
      = { fs with nodes := fs.nodes ++ [.dir info.artifacts_dir] } := by
    unfold fsEnsureDir
    rw [if_neg (by simp [hart])]
  have hvd1 : isDirB { fs with nodes := fs.nodes ++ [FsNode.dir info.artifacts_dir] } vd = false := by
    unfold isDirB at hvd ⊢
    dsimp only
    rw [List.any_append, hvd]
    simp [hvdDef, beq_append_singleton_right_eq_false]
  have h2 : fsEnsureDir (fsEnsureDir fs info.artifacts_dir) vd
      = { fs with nodes := (fs.nodes ++ [.dir info.artifacts_dir]) ++ [.dir vd] } := by
    rw [h1]
    unfold fsEnsureDir
    rw [if_neg (by simp [hvd1])]
  have hfc1 : ∀ p, fileContent? { fs with nodes := (fs.nodes ++ [.dir info.artifacts_dir]) ++ [.dir vd] } p
      = fileContent? fs p := by
    intro p
    rw [← h2, fileContent?_fsEnsureDir, fileContent?_fsEnsureDir]
  have hchunks1 : streamChunksOf { fs with nodes := (fs.nodes ++ [.dir info.artifacts_dir]) ++ [.dir vd] }
      (.build (BuildArtifact.new scr info)) = .ok chunks := by
    show buildStreamChunks _ _ = _
    rw [buildStreamChunks_congr _ fs _ hfc1]
    exact hchunks
  have hrc : runConsumer sinkConsumer [] chunks (sha256 chunks.flatten) = .ok chunks.flatten := by
    unfold runConsumer
    rw [foldAccept_sink]
    show Except.ok ([] ++ chunks.flatten) = _
    simp
  have hwrite : AnyArtifact.write_to { fs with nodes := (fs.nodes ++ [.dir info.artifacts_dir]) ++ [.dir vd] }
      (.build (BuildArtifact.new scr info)) []
      = .ok (sha256 chunks.flatten, chunks.flatten) := by
    unfold AnyArtifact.write_to
    rw [runScripts_factor _ _ sinkConsumer [] chunks hchunks1, hrc]
  have hrepl : replace_artifact { fs with nodes := (fs.nodes ++ [.dir info.artifacts_dir]) ++ [.dir vd] }
      (.build (BuildArtifact.new scr info)) sp
      = .ok (sha256 chunks.flatten,
          fsSetFile { fs with nodes := (fs.nodes ++ [.dir info.artifacts_dir]) ++ [.dir vd] } sp chunks.flatten) := by
    unfold replace_artifact
    rw [hwrite]
  have hnotfile1 : isFileB { fs with nodes := (fs.nodes ++ [.dir info.artifacts_dir]) ++ [.dir vd] } sp = false := by
    unfold isFileB at hfile ⊢
    dsimp only
    simp [List.any_append, hfile]
  have hsetfile : fsSetFile { fs with nodes := (fs.nodes ++ [.dir info.artifacts_dir]) ++ [.dir vd] } sp chunks.flatten
      = { fs with nodes := ((fs.nodes ++ [.dir info.artifacts_dir]) ++ [.dir vd]) ++ [.file sp chunks.flatten] } := by
    unfold fsSetFile
    rw [if_neg (by rw [hnotfile1]; simp)]
  have hfindnone : fs.artifactManifests.find? (fun e => e.1 == vd) = none := by
    unfold artifactManifest? at hman
    cases hx : fs.artifactManifests.find? (fun e => e.1 == vd) with
    | none => rfl
    | some a => rw [hx] at hman; simp [Option.map] at hman
  have hfs2 : update_artifact_migration
        (ArtifactMigration.mk (SCHEMA_ARTIFACT_TITLE ++ "." ++ SQL_EXTENSION)
          from_empty_database info.version) vd
        { fs with nodes := ((fs.nodes ++ [.dir info.artifacts_dir]) ++ [.dir vd]) ++ [.file sp chunks.flatten] }
      = { fs with
          nodes := ((fs.nodes ++ [.dir info.artifacts_dir]) ++ [.dir vd]) ++ [.file sp chunks.flatten],
          artifactManifests := fs.artifactManifests
            ++ [(vd, [ArtifactMigration.mk (SCHEMA_ARTIFACT_TITLE ++ "." ++ SQL_EXTENSION)
                from_empty_database info.version])] } := by
    unfold update_artifact_migration
    have hm2 : artifactManifest?
        { fs with nodes := ((fs.nodes ++ [.dir info.artifacts_dir]) ++ [.dir vd]) ++ [.file sp chunks.flatten] } vd
        = none := hman
    rw [hm2]
    dsimp only [Option.getD, upsertMigration]
    unfold fsSetArtifactManifest
    rw [if_neg (by simp [hfindnone])]
  have hsavemig : save_migration SCHEMA_ARTIFACT_TITLE (.build (BuildArtifact.new scr info)) info
        { fs with nodes := (fs.nodes ++ [.dir info.artifacts_dir]) ++ [.dir vd] }
      = .ok (sp,
          { fs with
            nodes := ((fs.nodes ++ [.dir info.artifacts_dir]) ++ [.dir vd]) ++ [.file sp chunks.flatten],
            artifactManifests := fs.artifactManifests
              ++ [(vd, [ArtifactMigration.mk (SCHEMA_ARTIFACT_TITLE ++ "." ++ SQL_EXTENSION)
                  from_empty_database info.version])] }) := by
    unfold save_migration
    dsimp only [AnyArtifact.spec]
    rw [show (BuildArtifact.new scr info).version = info.version from rfl]
    rw [← hvdDef, ← hspDef]
    rw [hrepl]
    dsimp only
    rw [hsetfile, hfs2]
  have hsaveproj : save_project fuel fs info
      = .ok (some
          { fs with
            nodes := ((fs.nodes ++ [.dir info.artifacts_dir]) ++ [.dir vd]) ++ [.file sp chunks.flatten],
            artifactManifests := fs.artifactManifests
              ++ [(vd, [ArtifactMigration.mk (SCHEMA_ARTIFACT_TITLE ++ "." ++ SQL_EXTENSION)
                  from_empty_database info.version])] }) := by
    unfold save_project
    rw [hbuild]
    dsimp only
    rw [← hvdDef, h2, hsavemig]
  have hmatch : from_empty_database.matches empty_database_version = true := by decide
  have hdir2 : isDirB { fs with
        nodes := ((fs.nodes ++ [.dir info.artifacts_dir]) ++ [.dir vd]) ++ [.file sp chunks.flatten],
        artifactManifests := fs.artifactManifests
          ++ [(vd, [ArtifactMigration.mk (SCHEMA_ARTIFACT_TITLE ++ "." ++ SQL_EXTENSION)
              from_empty_database info.version])] } info.artifacts_dir = true := by
    unfold isDirB
    dsimp only
    simp [List.any_append]
  have hvd2 : isDirB { fs with
        nodes := ((fs.nodes ++ [.dir info.artifacts_dir]) ++ [.dir vd]) ++ [.file sp chunks.flatten],
        artifactManifests := fs.artifactManifests
          ++ [(vd, [ArtifactMigration.mk (SCHEMA_ARTIFACT_TITLE ++ "." ++ SQL_EXTENSION)
              from_empty_database info.version])] } vd = true := by
    unfold isDirB
    dsimp only
    simp [List.any_append]
  have hrd2 : readDir { fs with
        nodes := ((fs.nodes ++ [.dir info.artifacts_dir]) ++ [.dir vd]) ++ [.file sp chunks.flatten],
        artifactManifests := fs.artifactManifests
          ++ [(vd, [ArtifactMigration.mk (SCHEMA_ARTIFACT_TITLE ++ "." ++ SQL_EXTENSION)
              from_empty_database info.version])] } info.artifacts_dir = [vd] := by
    unfold readDir at hrd ⊢
    dsimp only
    rw [List.filterMap_append, List.filterMap_append, List.filterMap_append, hrd]
    rw [hspDef, hvdDef]
    simp [FsNode.path, List.dropLast_concat]
  have hman2 : artifactManifest? { fs with
        nodes := ((fs.nodes ++ [.dir info.artifacts_dir]) ++ [.dir vd]) ++ [.file sp chunks.flatten],
        artifactManifests := fs.artifactManifests
          ++ [(vd, [ArtifactMigration.mk (SCHEMA_ARTIFACT_TITLE ++ "." ++ SQL_EXTENSION)
              from_empty_database info.version])] } vd
      = some [(ArtifactMigration.mk (SCHEMA_ARTIFACT_TITLE ++ "." ++ SQL_EXTENSION)
      from_empty_database info.version)] := by
    unfold artifactManifest?
    dsimp only
    rw [List.find?_append, hfindnone]
    simp [List.find?]
  have hscan : scanArtifacts { fs with
        nodes := ((fs.nodes ++ [.dir info.artifacts_dir]) ++ [.dir vd]) ++ [.file sp chunks.flatten],
        artifactManifests := fs.artifactManifests
          ++ [(vd, [ArtifactMigration.mk (SCHEMA_ARTIFACT_TITLE ++ "." ++ SQL_EXTENSION)
              from_empty_database info.version])] } [vd] []
      = .ok [(info.version, (vd, [(ArtifactMigration.mk (SCHEMA_ARTIFACT_TITLE ++ "." ++ SQL_EXTENSION)
      from_empty_database info.version)]))] := by
    unfold scanArtifacts
    rw [if_pos hvd2, hman2]
    dsimp only
    rw [if_neg (by simp; decide)]
    dsimp only [List.foldl]
    unfold scanArtifacts
    rfl
  have hopen : MigrationSet.open { fs with
        nodes := ((fs.nodes ++ [.dir info.artifacts_dir]) ++ [.dir vd]) ++ [.file sp chunks.flatten],
        artifactManifests := fs.artifactManifests
          ++ [(vd, [ArtifactMigration.mk (SCHEMA_ARTIFACT_TITLE ++ "." ++ SQL_EXTENSION)
              from_empty_database info.version])] } info
      = .ok (MigrationSet.mk [(info.version, (vd, [(ArtifactMigration.mk (SCHEMA_ARTIFACT_TITLE ++ "." ++ SQL_EXTENSION)
      from_empty_database info.version)]))]) := by
    unfold MigrationSet.open
    rw [if_neg (by rw [hdir2]; simp), hrd2, hscan]
    rfl
  have hget : MigrationSet.get_schema (MigrationSet.mk [(info.version, (vd, [(ArtifactMigration.mk (SCHEMA_ARTIFACT_TITLE ++ "." ++ SQL_EXTENSION)
      from_empty_database info.version)]))]) info.version
      = some (MigrationArtifact.mk from_empty_database info.version sp) := by
    unfold MigrationSet.get_schema MigrationSet.get
    simp [List.find?, hmatch]
    rw [← hspDef]
  have hvalidbytes : utf8Valid chunks.flatten = true :=
    utf8Valid_flatten chunks (buildStreamChunks_utf8 fs (BuildArtifact.new scr info) chunks hchunks)
  have hfc2 : fileContent? { fs with
        nodes := ((fs.nodes ++ [.dir info.artifacts_dir]) ++ [.dir vd]) ++ [.file sp chunks.flatten],
        artifactManifests := fs.artifactManifests
          ++ [(vd, [ArtifactMigration.mk (SCHEMA_ARTIFACT_TITLE ++ "." ++ SQL_EXTENSION)
              from_empty_database info.version])] } sp = some chunks.flatten := by
    unfold fileContent?
    dsimp only
    rw [List.findSome?_append, List.findSome?_append, List.findSome?_append]
    have h0 := fileContent?_eq_none fs sp hfile
    unfold fileContent? at h0
    rw [h0]
    simp [List.findSome?]
  have hmigc : migChunk { fs with
        nodes := ((fs.nodes ++ [.dir info.artifacts_dir]) ++ [.dir vd]) ++ [.file sp chunks.flatten],
        artifactManifests := fs.artifactManifests
          ++ [(vd, [ArtifactMigration.mk (SCHEMA_ARTIFACT_TITLE ++ "." ++ SQL_EXTENSION)
              from_empty_database info.version])] } (MigrationArtifact.mk from_empty_database info.version sp) = .ok chunks.flatten := by
    unfold migChunk
    dsimp only
    rw [hfc2]
    dsimp only
    rw [if_pos hvalidbytes]
  have hstream2 : streamChunksOf { fs with
        nodes := ((fs.nodes ++ [.dir info.artifacts_dir]) ++ [.dir vd]) ++ [.file sp chunks.flatten],
        artifactManifests := fs.artifactManifests
          ++ [(vd, [ArtifactMigration.mk (SCHEMA_ARTIFACT_TITLE ++ "." ++ SQL_EXTENSION)
              from_empty_database info.version])] } (.migration (MigrationArtifact.mk from_empty_database info.version sp)) = .ok [chunks.flatten] := by
    show (migChunk { fs with
        nodes := ((fs.nodes ++ [.dir info.artifacts_dir]) ++ [.dir vd]) ++ [.file sp chunks.flatten],
        artifactManifests := fs.artifactManifests
          ++ [(vd, [ArtifactMigration.mk (SCHEMA_ARTIFACT_TITLE ++ "." ++ SQL_EXTENSION)
              from_empty_database info.version])] } (MigrationArtifact.mk from_empty_database info.version sp)).map _ = _
    rw [hmigc]
    rfl
  have hnull : ∀ (l : List ByteStr) (id : ContentId), runConsumer nullConsumer () l id = .ok () := by
    intro l id
    unfold runConsumer
    rw [foldAccept_null]
    rfl
  have hcid2 : AnyArtifact.content_id { fs with
        nodes := ((fs.nodes ++ [.dir info.artifacts_dir]) ++ [.dir vd]) ++ [.file sp chunks.flatten],
        artifactManifests := fs.artifactManifests
          ++ [(vd, [ArtifactMigration.mk (SCHEMA_ARTIFACT_TITLE ++ "." ++ SQL_EXTENSION)
              from_empty_database info.version])] } (.migration (MigrationArtifact.mk from_empty_database info.version sp)) = .ok (sha256 chunks.flatten) := by
    unfold AnyArtifact.content_id
    rw [runScripts_factor _ _ nullConsumer () [chunks.flatten] hstream2, hnull]
    dsimp only [Except.map]
    simp [List.flatten_cons, List.flatten_nil]
  have hcidb : AnyArtifact.content_id fs (.build (BuildArtifact.new scr info)) = .ok (sha256 chunks.flatten) := by
    unfold AnyArtifact.content_id
    rw [runScripts_factor _ _ nullConsumer () chunks hchunks, hnull]
    rfl
  exact ⟨_, _, _, hsaveproj, hopen, hget, rfl, rfl, rfl, hstream2, hcid2, hcidb⟩

/-- Witness for C7 at the concrete empty-`src` project: saving at 1.0.0
then reading `get_schema 1.0.0` streams exactly the saved header bytes. -/
theorem save_get_schema_round_trip_witness :
    ∃ fs2 mset M,
      save_project 2 fsW8 infoW8 = .ok (some fs2) ∧
      MigrationSet.open fs2 infoW8 = .ok mset ∧
      mset.get_schema infoW8.version = some M ∧
      M.fromReq = from_empty_database ∧ M.toV = infoW8.version ∧
      M.script = ["artifacts", "1.0.0", "schema.sql"] ∧
      streamChunksOf fs2 (.migration M)
        = .ok [[strBytes "-- [ demo 1.0.0 ]\n\n"].flatten] ∧
      AnyArtifact.content_id fs2 (.migration M)
        = .ok (sha256 [strBytes "-- [ demo 1.0.0 ]\n\n"].flatten) ∧
      AnyArtifact.content_id fsW8 (.build (BuildArtifact.new [] infoW8))
        = .ok (sha256 [strBytes "-- [ demo 1.0.0 ]\n\n"].flatten) :=
  save_get_schema_round_trip 2 fsW8 infoW8 (BuildArtifact.new [] infoW8)
    [strBytes "-- [ demo 1.0.0 ]\n\n"] ["artifacts", "1.0.0"] ["artifacts", "1.0.0", "schema.sql"]
    (by decide) (by decide) (by decide) (by decide) (by decide) (by decide) (by decide)
    (by decide) (by decide)

/-! ## C1: the schedule respects the dependency edges

`beforeIn c a b` states that `a` occurs strictly before (an occurrence
of) `b` in the list `c`; on duplicate-free lists this is the strict order
of the unique positions. -/

/-- `a` occurs before `b` in `c`. -/
def beforeIn (c : List FsPath) (a b : FsPath) : Prop :=
  ∃ c1 c2, c = c1 ++ b :: c2 ∧ a ∈ c1

/-- Order is stable under extending the list on the right. -/
theorem beforeIn_append (c l : List FsPath) (a b : FsPath)
    (h : beforeIn c a b) : beforeIn (c ++ l) a b := by
  obtain ⟨c1, c2, rfl, ha⟩ := h
  exact ⟨c1, c2 ++ l, by simp, ha⟩

/-- Everything already present is before a newly appended element. -/
theorem beforeIn_extend (c : List FsPath) (a p : FsPath) (ha : a ∈ c) :
    beforeIn (c ++ [p]) a p :=
  ⟨c, [], rfl, ha⟩

/-- The earlier element of an ordered pair is in the list. -/
theorem beforeIn_mem_left (c : List FsPath) (a b : FsPath) (h : beforeIn c a b) : a ∈ c := by
  obtain ⟨c1, c2, rfl, ha⟩ := h
  exact List.mem_append.mpr (Or.inl ha)

/-- Splits of a list at an element absent from both prefixes agree. -/
theorem split_unique : ∀ (l₁ l₂ r₁ r₂ : List FsPath) (a : FsPath),
    l₁ ++ a :: r₁ = l₂ ++ a :: r₂ → a ∉ l₁ → a ∉ l₂ → l₁ = l₂ ∧ r₁ = r₂ := by
  intro l₁
  induction l₁ with
  | nil =>
    intro l₂ r₁ r₂ a h h1 h2
    cases l₂ with
    | nil => simpa using h
    | cons x l₂ =>
      simp only [List.nil_append, List.cons_append, List.cons.injEq] at h
      exact absurd (h.1 ▸ List.mem_cons_self x l₂) h2
  | cons x l₁ ih =>
    intro l₂ r₁ r₂ a h h1 h2
    cases l₂ with
    | nil =>
      simp only [List.nil_append, List.cons_append, List.cons.injEq] at h
      exact absurd (h.1.symm ▸ List.mem_cons_self x l₁) h1
    | cons y l₂ =>
      simp only [List.cons_append, List.cons.injEq] at h
      obtain ⟨rfl, h⟩ := h
      obtain ⟨rfl, rfl⟩ := ih l₂ r₁ r₂ a h (fun hm => h1 (List.mem_cons_of_mem _ hm))
        (fun hm => h2 (List.mem_cons_of_mem _ hm))
      exact ⟨rfl, rfl⟩

/-- On a duplicate-free list the order is transitive. -/
theorem beforeIn_trans (c : List FsPath) (hnd : c.Nodup) (a b d : FsPath)
    (h1 : beforeIn c a b) (h2 : beforeIn c b d) : beforeIn c a d := by
  obtain ⟨c1, c2, he1, ha⟩ := h1
  obtain ⟨d1, d2, he2, hb⟩ := h2
  obtain ⟨e, f, rfl⟩ := List.append_of_mem hb
  have hbc1 : b ∉ c1 := by
    intro hm
    rw [he1] at hnd
    exact (List.disjoint_of_nodup_append hnd) hm (List.mem_cons_self b c2)
  have hbe : b ∉ e := by
    intro hm
    rw [he2] at hnd
    have : b ∈ e ++ b :: (f ++ d :: d2) := List.mem_append.mpr (Or.inl hm)
    rw [List.append_assoc] at he2
    rw [he2] at he1
    have hnd2 := hnd
    rw [List.append_assoc] at hnd2
    exact (List.disjoint_of_nodup_append hnd2) hm (List.mem_cons_self b _)
  have heq : c1 ++ b :: c2 = e ++ b :: (f ++ d :: d2) := by
    rw [← he1, he2]
    simp
  obtain ⟨rfl, hr⟩ := split_unique c1 e c2 (f ++ d :: d2) b heq hbc1 hbe
  refine ⟨c1 ++ b :: f, d2, ?_, List.mem_append.mpr (Or.inl ha)⟩
  rw [he1, hr]
  simp

/-- Order transfers from a duplicate-free list to a sublist containing
both elements. -/
theorem beforeIn_sublist : ∀ (s c : List FsPath), List.Sublist s c → c.Nodup →
    ∀ a b, beforeIn c a b → a ∈ s → b ∈ s → beforeIn s a b := by
  intro s c hs
  induction hs with
  | slnil => intro _ a b _ ha _; simp at ha
  | @cons s c x hsub ih =>
    intro hnd a b hord ha hb
    obtain ⟨c1, c2, he, hac1⟩ := hord
    have hxnotc : x ∉ c := (List.nodup_cons.mp hnd).1
    have hndc : c.Nodup := (List.nodup_cons.mp hnd).2
    cases c1 with
    | nil =>
      simp only [List.nil_append, List.cons.injEq] at he
      exact absurd hac1 (by simp)
    | cons y c1 =>
      simp only [List.cons_append, List.cons.injEq] at he
      obtain ⟨rfl, he⟩ := he
      rcases List.mem_cons.mp hac1 with rfl | hac1
      · exact absurd (hsub.mem ha) hxnotc
      · exact ih hndc a b ⟨c1, c2, he, hac1⟩ ha hb
  | @cons₂ s c x hsub ih =>
    intro hnd a b hord ha hb
    obtain ⟨c1, c2, he, hac1⟩ := hord
    have hxnotc : x ∉ c := (List.nodup_cons.mp hnd).1
    have hndc : c.Nodup := (List.nodup_cons.mp hnd).2
    cases c1 with
    | nil =>
      simp only [List.nil_append, List.cons.injEq] at he
      exact absurd hac1 (by simp)
    | cons y c1 =>
      simp only [List.cons_append, List.cons.injEq] at he
      obtain ⟨rfl, he⟩ := he
      have hbnex : b ≠ x := by
        intro hbx
        apply hxnotc
        rw [← hbx, he]
        simp
      have hbs : b ∈ s := by
        rcases List.mem_cons.mp hb with rfl | h
        · exact absurd rfl hbnex
        · exact h
      obtain ⟨s1, s2, rfl⟩ := List.append_of_mem hbs
      rcases List.mem_cons.mp hac1 with rfl | hac1
      · exact ⟨a :: s1, s2, rfl, by simp⟩
      · have hac : a ∈ c := by rw [he]; exact List.mem_append.mpr (Or.inl hac1)
        have hanex : a ≠ x := fun hax => hxnotc (hax ▸ hac)
        have has : a ∈ s1 ++ b :: s2 := by
          rcases List.mem_cons.mp ha with rfl | h
          · exact absurd rfl hanex
          · exact h
        have hprev := ih hndc a b ⟨c1, c2, he, hac1⟩ has hbs
        obtain ⟨t1, t2, het, hat⟩ := hprev
        exact ⟨x :: t1, t2, by rw [het]; simp, List.mem_cons_of_mem _ hat⟩

/-- The module-sourced dependency edges of §4.1 rules 1-4: the target
must be completed before the module keyed by `mp` is.  Rule 1 is the
parent module, rule 2 the canonicalized manifest module dependencies
(self-dependencies excluded), rule 3 the module containing an
out-of-module script dependency, rule 4 each `.sql` file directly inside
the module. -/
inductive RequiresM (fs : Fs) (sd : FsPath) (mp : FsPath) : FsPath → Prop
  | parent :
      mp ≠ [] → sd.isPrefixOf mp.dropLast = true →
      RequiresM fs sd mp mp.dropLast
  | moduleDep (m : ModuleInfo) (dep : DepPath) (p : FsPath) :
      open_module fs mp = .ok m → dep ∈ m.deps →
      canonicalize_dep_path fs dep mp sd = .ok p →
      dep_module_path fs p ≠ mp →
      RequiresM fs sd mp (dep_module_path fs p)
  | scriptHoist (m : ModuleInfo) (dep : DepPath) (p : FsPath) :
      open_module fs mp = .ok m →
      dep ∈ m.scripts.flatMap (fun s => s.dependencies) →
      canonicalize_dep_path fs dep mp sd = .ok p →
      dep_module_path fs p ≠ mp →
      RequiresM fs sd mp (dep_module_path fs p)
  | child (c : FsPath) :
      c ∈ readDir fs mp → isDirB fs c = false →
      (isFileB fs c && pathExtOf? c == some SQL_EXTENSION) = true →
      RequiresM fs sd mp c

/-- The script-sourced dependency edges of §4.1 rule 5: each
canonicalized path listed in the script's manifest dependencies must be
completed before the script keyed by `sp` is. -/
inductive RequiresS (fs : Fs) (sd : FsPath) (sp : FsPath) : FsPath → Prop
  | dep (m : ModuleInfo) (deps : List DepPath) (dep : DepPath) (p : FsPath) :
      open_module fs sp.dropLast = .ok m →
      get_script_deps sp m = some deps → dep ∈ deps →
      canonicalize_dep_path fs dep sp.dropLast sd = .ok p →
      RequiresS fs sd sp p

/-- `open_module` keys the result by the directory it opened. -/
theorem open_module_path (fs : Fs) (d : FsPath) (m : ModuleInfo)
    (h : open_module fs d = .ok m) : m.path = d := by
  unfold open_module at h
  cases hm : moduleManifest? fs d with
  | some manifest =>
    rw [hm] at h
    dsimp only at h
    cases hf : manifest.scripts.find? (fun s => s.script.data.contains '/') with
    | some bad => rw [hf] at h; exact Except.noConfusion h
    | none => rw [hf] at h; cases h; rfl
  | none => rw [hm] at h; cases h; rfl

/-- A successful `push_module` appends one module task whose key is new
on the stack and whose info is the opened module. -/
theorem push_module_ok (fs : Fs) (path : FsPath) (stack : List PlanTask) (root : FsPath)
    (s' : List PlanTask) (h : push_module fs path stack root = .ok s') :
    ∃ m', s' = stack ++ [.module m'] ∧ open_module fs path = .ok m' ∧ m'.path = path ∧
      ∀ t ∈ stack, t.path ≠ path := by
  unfold push_module at h
  cases hf : stack.findIdx? (fun t => t.path == path) with
  | some start => rw [hf] at h; exact Except.noConfusion h
  | none =>
    rw [hf] at h
    cases hm : open_module fs path with
    | error e => rw [hm] at h; exact Except.noConfusion h
    | ok m' =>
      rw [hm] at h
      cases h
      refine ⟨m', rfl, rfl, open_module_path fs path m' hm, ?_⟩
      rw [List.findIdx?_eq_none_iff] at hf
      intro t ht hteq
      have := hf t ht
      simp [hteq] at this

/-- A successful `push_script` appends one script task with a new key. -/
theorem push_script_ok (path : FsPath) (stack : List PlanTask) (root : FsPath)
    (s' : List PlanTask) (h : push_script path stack root = .ok s') :
    s' = stack ++ [.script path] ∧ ∀ t ∈ stack, t.path ≠ path := by
  unfold push_script at h
  cases hf : stack.findIdx? (fun t => t.path == path) with
  | some start => rw [hf] at h; exact Except.noConfusion h
  | none =>
    rw [hf] at h
    cases h
    refine ⟨rfl, ?_⟩
    rw [List.findIdx?_eq_none_iff] at hf
    intro t ht hteq
    have := hf t ht
    simp [hteq] at this

/-- A module-dependency scan that found nothing to push: every
canonicalizable dependency's module is the module itself or already
completed. -/
theorem scanModuleDeps_none (fs : Fs) (sd mp : FsPath) (stack : List PlanTask)
    (completed : List FsPath) :
    ∀ (deps : List DepPath), scanModuleDeps fs sd mp stack completed deps = .ok none →
    ∀ dep ∈ deps, ∀ p, canonicalize_dep_path fs dep mp sd = .ok p →
      dep_module_path fs p = mp ∨ dep_module_path fs p ∈ completed := by
  intro deps
  induction deps with
  | nil => intro _ dep hdep; simp at hdep
  | cons d rest ih =>
    intro h dep hdep p hp
    unfold scanModuleDeps at h
    dsimp only [bind, Except.bind] at h
    cases hc : canonicalize_dep_path fs d mp sd with
    | error e => rw [hc] at h; exact Except.noConfusion h
    | ok dp =>
      rw [hc] at h
      dsimp only at h
      rcases List.mem_cons.mp hdep with rfl | hdep
      · rw [hc] at hp
        cases hp
        by_cases h1 : completed.contains (dep_module_path fs p) = true
        · exact Or.inr (by simpa using h1)
        · rw [if_neg (by simpa using h1)] at h
          by_cases h2 : dep_module_path fs p = mp
          · exact Or.inl h2
          · rw [if_neg (by simpa using h2)] at h
            by_cases h3 : sd.isPrefixOf (dep_module_path fs p) = true
            · rw [if_neg (by simp [h3])] at h
              cases hpm : push_module fs (dep_module_path fs p) stack sd with
              | error e => rw [hpm] at h; exact Except.noConfusion h
              | ok s2 => rw [hpm] at h; dsimp only [Except.map] at h; exact Option.noConfusion (Except.ok.inj h)
            · rw [if_pos (by simpa using h3)] at h
              exact Except.noConfusion h
      · by_cases h1 : completed.contains (dep_module_path fs dp) = true
        · rw [if_pos h1] at h
          exact ih h dep hdep p hp
        · rw [if_neg (by simpa using h1)] at h
          by_cases h2 : dep_module_path fs dp = mp
          · rw [if_pos (by simpa using h2)] at h
            exact ih h dep hdep p hp
          · rw [if_neg (by simpa using h2)] at h
            by_cases h3 : sd.isPrefixOf (dep_module_path fs dp) = true
            · rw [if_neg (by simp [h3])] at h
              cases hpm : push_module fs (dep_module_path fs dp) stack sd with
              | error e => rw [hpm] at h; exact Except.noConfusion h
              | ok s2 => rw [hpm] at h; dsimp only [Except.map] at h; exact Option.noConfusion (Except.ok.inj h)
            · rw [if_pos (by simpa using h3)] at h
              exact Except.noConfusion h

/-- A module-dependency scan that pushed: the new stack is one new-keyed
module task on top. -/
theorem scanModuleDeps_some (fs : Fs) (sd mp : FsPath) (stack : List PlanTask)
    (completed : List FsPath) :
    ∀ (deps : List DepPath) (s' : List PlanTask),
    scanModuleDeps fs sd mp stack completed deps = .ok (some s') →
    ∃ m', s' = stack ++ [.module m'] ∧ open_module fs m'.path = .ok m' ∧
      ∀ t ∈ stack, t.path ≠ m'.path := by
  intro deps
  induction deps with
  | nil => intro s' h; exact Option.noConfusion (Except.ok.inj h)
  | cons d rest ih =>
    intro s' h
    unfold scanModuleDeps at h
    dsimp only [bind, Except.bind] at h
    cases hc : canonicalize_dep_path fs d mp sd with
    | error e => rw [hc] at h; exact Except.noConfusion h
    | ok dp =>
      rw [hc] at h
      dsimp only at h
      by_cases h1 : completed.contains (dep_module_path fs dp) = true
      · rw [if_pos h1] at h; exact ih s' h
      · rw [if_neg (by simpa using h1)] at h
        by_cases h2 : dep_module_path fs dp = mp
        · rw [if_pos (by simpa using h2)] at h; exact ih s' h
        · rw [if_neg (by simpa using h2)] at h
          by_cases h3 : sd.isPrefixOf (dep_module_path fs dp) = true
          · rw [if_neg (by simp [h3])] at h
            cases hpm : push_module fs (dep_module_path fs dp) stack sd with
            | error e => rw [hpm] at h; exact Except.noConfusion h
            | ok s2 =>
              rw [hpm] at h
              dsimp only [Except.map] at h
              obtain rfl : s2 = s' := Option.some.inj (Except.ok.inj h)
              obtain ⟨m', rfl, hm, hpath, hnew⟩ := push_module_ok fs _ stack sd s2 hpm
              exact ⟨m', rfl, by rw [hpath]; exact hm, fun t ht => by rw [hpath]; exact hnew t ht⟩
          · rw [if_pos (by simpa using h3)] at h
            exact Except.noConfusion h

/-- A hoist scan that found nothing: every canonicalizable script
dependency stays in the module. -/
theorem scanScriptHoist_none (fs : Fs) (sd mp : FsPath) (stack : List PlanTask) :
    ∀ (deps : List DepPath), scanScriptHoist fs sd mp stack deps = .ok none →
    ∀ dep ∈ deps, ∀ p, canonicalize_dep_path fs dep mp sd = .ok p →
      dep_module_path fs p = mp := by
  intro deps
  induction deps with
  | nil => intro _ dep hdep; simp at hdep
  | cons d rest ih =>
    intro h dep hdep p hp
    unfold scanScriptHoist at h
    dsimp only [bind, Except.bind] at h
    cases hc : canonicalize_dep_path fs d mp sd with
    | error e => rw [hc] at h; exact Except.noConfusion h
    | ok dp =>
      rw [hc] at h
      dsimp only at h
      by_cases h1 : sd.isPrefixOf (dep_module_path fs dp) = true
      · rw [if_neg (by simp [h1])] at h
        by_cases h2 : dep_module_path fs dp = mp
        · rw [if_neg (by simpa using h2)] at h
          rcases List.mem_cons.mp hdep with rfl | hdep
          · rw [hc] at hp; cases hp; exact h2
          · exact ih h dep hdep p hp
        · rw [if_pos (by simpa using h2)] at h
          cases hpm : push_module fs (dep_module_path fs dp) stack sd with
          | error e => rw [hpm] at h; exact Except.noConfusion h
          | ok s2 => rw [hpm] at h; dsimp only [Except.map] at h; exact Option.noConfusion (Except.ok.inj h)
      · rw [if_pos (by simpa using h1)] at h
        exact Except.noConfusion h

/-- A hoist scan that pushed: one new-keyed module task on top. -/
theorem scanScriptHoist_some (fs : Fs) (sd mp : FsPath) (stack : List PlanTask) :
    ∀ (deps : List DepPath) (s' : List PlanTask),
    scanScriptHoist fs sd mp stack deps = .ok (some s') →
    ∃ m', s' = stack ++ [.module m'] ∧ open_module fs m'.path = .ok m' ∧
      ∀ t ∈ stack, t.path ≠ m'.path := by
  intro deps
  induction deps with
  | nil => intro s' h; exact Option.noConfusion (Except.ok.inj h)
  | cons d rest ih =>
    intro s' h
    unfold scanScriptHoist at h
    dsimp only [bind, Except.bind] at h
    cases hc : canonicalize_dep_path fs d mp sd with
    | error e => rw [hc] at h; exact Except.noConfusion h
    | ok dp =>
      rw [hc] at h
      dsimp only at h
      by_cases h1 : sd.isPrefixOf (dep_module_path fs dp) = true
      · rw [if_neg (by simp [h1])] at h
        by_cases h2 : dep_module_path fs dp = mp
        · rw [if_neg (by simpa using h2)] at h
          exact ih s' h
        · rw [if_pos (by simpa using h2)] at h
          cases hpm : push_module fs (dep_module_path fs dp) stack sd with
          | error e => rw [hpm] at h; exact Except.noConfusion h
          | ok s2 =>
            rw [hpm] at h
            dsimp only [Except.map] at h
            obtain rfl : s2 = s' := Option.some.inj (Except.ok.inj h)
            obtain ⟨m', rfl, hm, hpath, hnew⟩ := push_module_ok fs _ stack sd s2 hpm
            exact ⟨m', rfl, by rw [hpath]; exact hm, fun t ht => by rw [hpath]; exact hnew t ht⟩
      · rw [if_pos (by simpa using h1)] at h
        exact Except.noConfusion h

/-- A child scan that found nothing to push: every `.sql` file child is
completed. -/
theorem scanChildren_none (fs : Fs) (sd : FsPath) (stack : List PlanTask)
    (completed : List FsPath) :
    ∀ (children : List FsPath) (defer d' : List FsPath),
    scanChildren fs sd stack completed defer children = .ok (none, d') →
    ∀ c ∈ children, isDirB fs c = false →
      (isFileB fs c && pathExtOf? c == some SQL_EXTENSION) = true → c ∈ completed := by
  intro children
  induction children with
  | nil => intro _ _ _ c hc; simp at hc
  | cons x rest ih =>
    intro defer d' h c hc hdir hfile
    unfold scanChildren at h
    by_cases h1 : completed.contains x = true
    · rw [if_pos h1] at h
      rcases List.mem_cons.mp hc with rfl | hc
      · simpa using h1
      · exact ih defer d' h c hc hdir hfile
    · rw [if_neg (by simpa using h1)] at h
      by_cases h2 : isDirB fs x = true
      · rw [if_pos h2] at h
        rcases List.mem_cons.mp hc with rfl | hc
        · rw [h2] at hdir; exact Bool.noConfusion hdir
        · exact ih _ d' h c hc hdir hfile
      · rw [if_neg (by simpa using h2)] at h
        by_cases h3 : (isFileB fs x && pathExtOf? x == some SQL_EXTENSION) = true
        · rw [if_pos h3] at h
          cases hps : push_script x stack sd with
          | error e => rw [hps] at h; exact Except.noConfusion h
          | ok s2 =>
            rw [hps] at h
            dsimp only [Except.map] at h
            exact Option.noConfusion (Prod.mk.inj (Except.ok.inj h)).1
        · rw [if_neg h3] at h
          rcases List.mem_cons.mp hc with rfl | hc
          · exact absurd hfile h3
          · exact ih defer d' h c hc hdir hfile

/-- A child scan that pushed: one new-keyed, not-yet-completed script
task on top. -/
theorem scanChildren_some (fs : Fs) (sd : FsPath) (stack : List PlanTask)
    (completed : List FsPath) :
    ∀ (children : List FsPath) (defer : List FsPath) (s' : List PlanTask) (d' : List FsPath),
    scanChildren fs sd stack completed defer children = .ok (some s', d') →
    ∃ q, s' = stack ++ [.script q] ∧ q ∉ completed ∧ ∀ t ∈ stack, t.path ≠ q := by
  intro children
  induction children with
  | nil => intro _ _ _ h; exact Option.noConfusion (Prod.mk.inj (Except.ok.inj h)).1
  | cons x rest ih =>
    intro defer s' d' h
    unfold scanChildren at h
    by_cases h1 : completed.contains x = true
    · rw [if_pos h1] at h
      exact ih defer s' d' h
    · rw [if_neg (by simpa using h1)] at h
      by_cases h2 : isDirB fs x = true
      · rw [if_pos h2] at h
        exact ih _ s' d' h
      · rw [if_neg (by simpa using h2)] at h
        by_cases h3 : (isFileB fs x && pathExtOf? x == some SQL_EXTENSION) = true
        · rw [if_pos h3] at h
          cases hps : push_script x stack sd with
          | error e => rw [hps] at h; exact Except.noConfusion h
          | ok s2 =>
            rw [hps] at h
            dsimp only [Except.map] at h
            obtain ⟨hs, rfl⟩ := Prod.mk.inj (Except.ok.inj h)
            obtain rfl : s2 = s' := Option.some.inj hs
            obtain ⟨rfl, hnew⟩ := push_script_ok x stack sd s2 hps
            exact ⟨x, rfl, by simpa using h1, hnew⟩
        · rw [if_neg h3] at h
          exact ih defer s' d' h

/-- A script-dependency scan that found nothing to push: every
canonicalized dependency is completed. -/
theorem scanScriptDeps_none (fs : Fs) (sd mp : FsPath) (stack : List PlanTask)
    (completed : List FsPath) :
    ∀ (deps : List DepPath), scanScriptDeps fs sd mp stack completed deps = .ok none →
    ∀ dep ∈ deps, ∀ p, canonicalize_dep_path fs dep mp sd = .ok p → p ∈ completed := by
  intro deps
  induction deps with
  | nil => intro _ dep hdep; simp at hdep
  | cons d rest ih =>
    intro h dep hdep p hp
    unfold scanScriptDeps at h
    dsimp only [bind, Except.bind] at h
    cases hc : canonicalize_dep_path fs d mp sd with
    | error e => rw [hc] at h; exact Except.noConfusion h
    | ok dp =>
      rw [hc] at h
      dsimp only at h
      by_cases h1 : completed.contains dp = true
      · rw [if_pos h1] at h
        rcases List.mem_cons.mp hdep with rfl | hdep
        · rw [hc] at hp; cases hp; simpa using h1
        · exact ih h dep hdep p hp
      · rw [if_neg (by simpa using h1)] at h
        by_cases h2 : depExtOf? d = some SQL_EXTENSION
        · rw [if_neg (by simp [h2])] at h
          cases hps : push_script dp stack sd with
          | error e => rw [hps] at h; exact Except.noConfusion h
          | ok s2 => rw [hps] at h; dsimp only [Except.map] at h; exact Option.noConfusion (Except.ok.inj h)
        · rw [if_pos (by simpa using h2)] at h
          exact Except.noConfusion h

/-- A script-dependency scan that pushed: one new-keyed, not-yet-completed
script task on top. -/
theorem scanScriptDeps_some (fs : Fs) (sd mp : FsPath) (stack : List PlanTask)
    (completed : List FsPath) :
    ∀ (deps : List DepPath) (s' : List PlanTask),
    scanScriptDeps fs sd mp stack completed deps = .ok (some s') →
    ∃ q, s' = stack ++ [.script q] ∧ q ∉ completed ∧ ∀ t ∈ stack, t.path ≠ q := by
  intro deps
  induction deps with
  | nil => intro s' h; exact Option.noConfusion (Except.ok.inj h)
  | cons d rest ih =>
    intro s' h
    unfold scanScriptDeps at h
    dsimp only [bind, Except.bind] at h
    cases hc : canonicalize_dep_path fs d mp sd with
    | error e => rw [hc] at h; exact Except.noConfusion h
    | ok dp =>
      rw [hc] at h
      dsimp only at h
      by_cases h1 : completed.contains dp = true
      · rw [if_pos h1] at h
        exact ih s' h
      · rw [if_neg (by simpa using h1)] at h
        by_cases h2 : depExtOf? d = some SQL_EXTENSION
        · rw [if_neg (by simp [h2])] at h
          cases hps : push_script dp stack sd with
          | error e => rw [hps] at h; exact Except.noConfusion h
          | ok s2 =>
            rw [hps] at h
            dsimp only [Except.map] at h
            obtain rfl : s2 = s' := Option.some.inj (Except.ok.inj h)
            obtain ⟨rfl, hnew⟩ := push_script_ok dp stack sd s2 hps
            exact ⟨dp, rfl, by simpa using h1, hnew⟩
        · rw [if_pos (by simpa using h2)] at h
          exact Except.noConfusion h

/-- A successful defer refill yields the empty stack or a single fresh
module task. -/
theorem refillDefer_ok (fs : Fs) (sd : FsPath) (completed : List FsPath) :
    ∀ (defer : List FsPath) (s : List PlanTask) (d' : List FsPath),
    refillDefer fs sd completed defer = .ok (s, d') →
    s = [] ∨ ∃ m', s = [.module m'] ∧ open_module fs m'.path = .ok m' := by
  intro defer
  induction defer with
  | nil =>
    intro s d' h
    obtain ⟨rfl, rfl⟩ := Prod.mk.inj (Except.ok.inj h)
    exact Or.inl rfl
  | cons x rest ih =>
    intro s d' h
    unfold refillDefer at h
    by_cases h1 : completed.contains x = true
    · rw [if_pos h1] at h
      exact ih s d' h
    · rw [if_neg (by simpa using h1)] at h
      cases hpm : push_module fs x [] sd with
      | error e => rw [hpm] at h; exact Except.noConfusion h
      | ok s2 =>
        rw [hpm] at h
        dsimp only [Except.map] at h
        obtain ⟨rfl, rfl⟩ := Prod.mk.inj (Except.ok.inj h)
        obtain ⟨m', hs2, hm, hpath, _⟩ := push_module_ok fs x [] sd s2 hpm
        exact Or.inr ⟨m', by simpa using hs2, by rw [hpath]; exact hm⟩

/-- A module task that reported done: the stack is unchanged and every
edge scan came back empty (the parent, if in-tree, is completed). -/
theorem process_module_task_done (fs : Fs) (m : ModuleInfo) (stack : List PlanTask)
    (defer : List FsPath) (sd : FsPath) (completed : List FsPath)
    (s' : List PlanTask) (d' : List FsPath)
    (h : process_module_task fs m stack defer sd completed = .ok (true, s', d')) :
    s' = stack ∧
    (m.path ≠ [] → sd.isPrefixOf m.path.dropLast = true → m.path.dropLast ∈ completed) ∧
    scanModuleDeps fs sd m.path stack completed m.deps = .ok none ∧
    scanScriptHoist fs sd m.path stack (m.scripts.flatMap (fun s => s.dependencies)) = .ok none ∧
    scanChildren fs sd stack completed defer (readDir fs m.path) = .ok (none, d') := by
  unfold process_module_task at h
  dsimp only [bind, Except.bind, pure, Except.pure] at h
  cases hmp : m.path with
  | nil =>
    rw [hmp] at h
    dsimp only at h
    cases hsm : scanModuleDeps fs sd ([] : FsPath) stack completed m.deps with
    | error e => rw [hsm] at h; exact Except.noConfusion h
    | ok o1 =>
      rw [hsm] at h
      dsimp only at h
      cases o1 with
      | some s2 => simp at h
      | none =>
        cases hsh : scanScriptHoist fs sd ([] : FsPath) stack
            (m.scripts.flatMap (fun s => s.dependencies)) with
        | error e => rw [hsh] at h; exact Except.noConfusion h
        | ok o2 =>
          rw [hsh] at h
          dsimp only at h
          cases o2 with
          | some s2 => simp at h
          | none =>
            cases hsc : scanChildren fs sd stack completed defer (readDir fs ([] : FsPath)) with
            | error e => rw [hsc] at h; exact Except.noConfusion h
            | ok pr =>
              obtain ⟨o3, d2⟩ := pr
              rw [hsc] at h
              dsimp only at h
              cases o3 with
              | some s2 => simp at h
              | none =>
                dsimp only at h
                obtain ⟨h1, h2⟩ := Prod.mk.inj (Except.ok.inj h)
                obtain ⟨h3, h4⟩ := Prod.mk.inj h2
                obtain rfl : stack = s' := h3
                obtain rfl : d2 = d' := h4
                exact ⟨rfl, (fun hne _ => absurd rfl hne), rfl, rfl, rfl⟩

  | cons a as =>
    rw [hmp] at h
    split at h
    · rename_i hcond
      exact absurd hcond (by simp)
    · rename_i head tail hcond
      split at h
      · cases hpm : push_module fs ((a :: as : FsPath).dropLast) stack sd with
        | error e => rw [hpm] at h; exact Except.noConfusion h
        | ok s2 =>
          rw [hpm] at h
          dsimp only [Except.map] at h
          simp at h
      · rename_i hcond2
        cases hsm : scanModuleDeps fs sd (a :: as : FsPath) stack completed m.deps with
        | error e => rw [hsm] at h; exact Except.noConfusion h
        | ok o1 =>
          rw [hsm] at h
          dsimp only at h
          cases o1 with
          | some s2 => simp at h
          | none =>
            cases hsh : scanScriptHoist fs sd (a :: as : FsPath) stack
                (m.scripts.flatMap (fun s => s.dependencies)) with
            | error e => rw [hsh] at h; exact Except.noConfusion h
            | ok o2 =>
              rw [hsh] at h
              dsimp only at h
              cases o2 with
              | some s2 => simp at h
              | none =>
                cases hsc : scanChildren fs sd stack completed defer (readDir fs (a :: as : FsPath)) with
                | error e => rw [hsc] at h; exact Except.noConfusion h
                | ok pr =>
                  obtain ⟨o3, d2⟩ := pr
                  rw [hsc] at h
                  dsimp only at h
                  cases o3 with
                  | some s2 => simp at h
                  | none =>
                    dsimp only at h
                    obtain ⟨h1, h2⟩ := Prod.mk.inj (Except.ok.inj h)
                    obtain ⟨h3, h4⟩ := Prod.mk.inj h2
                    obtain rfl : stack = s' := h3
                    obtain rfl : d2 = d' := h4
                    exact ⟨rfl, (by
                intro _ hpre
                by_contra hmem
                apply hcond2
                simp [hpre]
                simpa using hmem), rfl, rfl, rfl⟩


/-- A module task that pushed: the new stack is the old one with a single
new-keyed task on top — a well-formed module task or a not-yet-completed
script task. -/
theorem process_module_task_push (fs : Fs) (m : ModuleInfo) (stack : List PlanTask)
    (defer : List FsPath) (sd : FsPath) (completed : List FsPath)
    (s' : List PlanTask) (d' : List FsPath)
    (h : process_module_task fs m stack defer sd completed = .ok (false, s', d')) :
    (∃ m', s' = stack ++ [.module m'] ∧ open_module fs m'.path = .ok m' ∧
      ∀ t ∈ stack, t.path ≠ m'.path) ∨
    (∃ q, s' = stack ++ [.script q] ∧ q ∉ completed ∧ ∀ t ∈ stack, t.path ≠ q) := by
  unfold process_module_task at h
  dsimp only [bind, Except.bind, pure, Except.pure] at h
  cases hmp : m.path with
  | nil =>
    rw [hmp] at h
    dsimp only at h
    cases hsm : scanModuleDeps fs sd ([] : FsPath) stack completed m.deps with
    | error e => rw [hsm] at h; exact Except.noConfusion h
    | ok o1 =>
      rw [hsm] at h
      dsimp only at h
      cases o1 with
      | some s2 =>
        obtain ⟨h1, h2⟩ := Prod.mk.inj (Except.ok.inj h)
        obtain rfl : s2 = s' := (Prod.mk.inj h2).1
        exact Or.inl (scanModuleDeps_some fs sd _ stack completed m.deps _ hsm)
      | none =>
        cases hsh : scanScriptHoist fs sd ([] : FsPath) stack
            (m.scripts.flatMap (fun s => s.dependencies)) with
        | error e => rw [hsh] at h; exact Except.noConfusion h
        | ok o2 =>
          rw [hsh] at h
          dsimp only at h
          cases o2 with
          | some s2 =>
            obtain ⟨h1, h2⟩ := Prod.mk.inj (Except.ok.inj h)
            obtain rfl : s2 = s' := (Prod.mk.inj h2).1
            exact Or.inl (scanScriptHoist_some fs sd _ stack _ _ hsh)
          | none =>
            cases hsc : scanChildren fs sd stack completed defer (readDir fs ([] : FsPath)) with
            | error e => rw [hsc] at h; exact Except.noConfusion h
            | ok pr =>
              obtain ⟨o3, d2⟩ := pr
              rw [hsc] at h
              dsimp only at h
              cases o3 with
              | some s2 =>
                obtain ⟨h1, h2⟩ := Prod.mk.inj (Except.ok.inj h)
                obtain rfl : s2 = s' := (Prod.mk.inj h2).1
                exact Or.inr (scanChildren_some fs sd stack completed _ defer _ d2 hsc)
              | none => simp at h

  | cons a as =>
    rw [hmp] at h
    split at h
    · rename_i hcond
      exact absurd hcond (by simp)
    · rename_i head tail hcond
      split at h
      · cases hpm : push_module fs ((a :: as : FsPath).dropLast) stack sd with
        | error e => rw [hpm] at h; exact Except.noConfusion h
        | ok s2 =>
          rw [hpm] at h
          dsimp only [Except.map] at h
          obtain ⟨h1, h2⟩ := Prod.mk.inj (Except.ok.inj h)
          obtain rfl : s2 = s' := (Prod.mk.inj h2).1
          obtain ⟨m', rfl, hm, hpath, hnew⟩ := push_module_ok fs _ stack sd _ hpm
          exact Or.inl ⟨m', rfl, by rw [hpath]; exact hm,
            fun t ht => by rw [hpath]; exact hnew t ht⟩
      · rename_i hcond2
        cases hsm : scanModuleDeps fs sd (a :: as : FsPath) stack completed m.deps with
        | error e => rw [hsm] at h; exact Except.noConfusion h
        | ok o1 =>
          rw [hsm] at h
          dsimp only at h
          cases o1 with
          | some s2 =>
            obtain ⟨h1, h2⟩ := Prod.mk.inj (Except.ok.inj h)
            obtain rfl : s2 = s' := (Prod.mk.inj h2).1
            exact Or.inl (scanModuleDeps_some fs sd _ stack completed m.deps _ hsm)
          | none =>
            cases hsh : scanScriptHoist fs sd (a :: as : FsPath) stack
                (m.scripts.flatMap (fun s => s.dependencies)) with
            | error e => rw [hsh] at h; exact Except.noConfusion h
            | ok o2 =>
              rw [hsh] at h
              dsimp only at h
              cases o2 with
              | some s2 =>
                obtain ⟨h1, h2⟩ := Prod.mk.inj (Except.ok.inj h)
                obtain rfl : s2 = s' := (Prod.mk.inj h2).1
                exact Or.inl (scanScriptHoist_some fs sd _ stack _ _ hsh)
              | none =>
                cases hsc : scanChildren fs sd stack completed defer (readDir fs (a :: as : FsPath)) with
                | error e => rw [hsc] at h; exact Except.noConfusion h
                | ok pr =>
                  obtain ⟨o3, d2⟩ := pr
                  rw [hsc] at h
                  dsimp only at h
                  cases o3 with
                  | some s2 =>
                    obtain ⟨h1, h2⟩ := Prod.mk.inj (Except.ok.inj h)
                    obtain rfl : s2 = s' := (Prod.mk.inj h2).1
                    exact Or.inr (scanChildren_some fs sd stack completed _ defer _ d2 hsc)
                  | none => simp at h


/-- A script task that reported done: the stack is unchanged and every
canonicalized declared dependency of the script is completed. -/
theorem process_script_task_done (fs : Fs) (p : FsPath) (stack : List PlanTask)
    (sd : FsPath) (completed : List FsPath) (s' : List PlanTask)
    (h : process_script_task fs p stack sd completed = .ok (true, s')) :
    s' = stack ∧
    ∀ m deps, open_module fs p.dropLast = .ok m → get_script_deps p m = some deps →
      ∀ dep ∈ deps, ∀ q, canonicalize_dep_path fs dep p.dropLast sd = .ok q →
        q ∈ completed := by
  unfold process_script_task at h
  dsimp only [bind, Except.bind, pure, Except.pure, throw, throwThe, MonadExceptOf.throw] at h
  cases hom : open_module fs p.dropLast with
  | error e => rw [hom] at h; exact Except.noConfusion h
  | ok m0 =>
    rw [hom] at h
    dsimp only at h
    cases hgd : get_script_deps p m0 with
    | none =>
      rw [hgd] at h
      dsimp only at h
      obtain ⟨h1, h2⟩ := Prod.mk.inj (Except.ok.inj h)
      obtain rfl : stack = s' := h2
      refine ⟨rfl, ?_⟩
      intro m deps hm hdeps
      obtain rfl : m0 = m := Except.ok.inj hm
      rw [hgd] at hdeps
      exact Option.noConfusion hdeps
    | some deps0 =>
      rw [hgd] at h
      dsimp only at h
      cases hsd : scanScriptDeps fs sd p.dropLast stack completed deps0 with
      | error e => rw [hsd] at h; exact Except.noConfusion h
      | ok o =>
        rw [hsd] at h
        dsimp only at h
        cases o with
        | some s2 => simp at h
        | none =>
          obtain ⟨h1, h2⟩ := Prod.mk.inj (Except.ok.inj h)
          obtain rfl : stack = s' := h2
          refine ⟨rfl, ?_⟩
          intro m deps hm hdeps
          obtain rfl : m0 = m := Except.ok.inj hm
          rw [hgd] at hdeps
          obtain rfl : deps0 = deps := Option.some.inj hdeps
          exact scanScriptDeps_none fs sd p.dropLast stack completed deps0 hsd

/-- A script task that pushed: one new-keyed, not-yet-completed script
task on top. -/
theorem process_script_task_push (fs : Fs) (p : FsPath) (stack : List PlanTask)
    (sd : FsPath) (completed : List FsPath) (s' : List PlanTask)
    (h : process_script_task fs p stack sd completed = .ok (false, s')) :
    ∃ q, s' = stack ++ [.script q] ∧ q ∉ completed ∧ ∀ t ∈ stack, t.path ≠ q := by
  unfold process_script_task at h
  dsimp only [bind, Except.bind, pure, Except.pure, throw, throwThe, MonadExceptOf.throw] at h
  cases hom : open_module fs p.dropLast with
  | error e => rw [hom] at h; exact Except.noConfusion h
  | ok m0 =>
    rw [hom] at h
    dsimp only at h
    cases hgd : get_script_deps p m0 with
    | none =>
      rw [hgd] at h
      dsimp only at h
      simp at h
    | some deps0 =>
      rw [hgd] at h
      dsimp only at h
      cases hsd : scanScriptDeps fs sd p.dropLast stack completed deps0 with
      | error e => rw [hsd] at h; exact Except.noConfusion h
      | ok o =>
        rw [hsd] at h
        dsimp only at h
        cases o with
        | some s2 =>
          obtain ⟨h1, h2⟩ := Prod.mk.inj (Except.ok.inj h)
          obtain rfl : s2 = s' := h2
          exact scanScriptDeps_some fs sd p.dropLast stack completed deps0 _ hsd
        | none => simp at h

/-- A list with a last element decomposes around it. -/
theorem getLast?_decomp : ∀ (l : List PlanTask) (t : PlanTask),
    l.getLast? = some t → l = l.dropLast ++ [t] := by
  intro l
  induction l with
  | nil => intro t h; exact Option.noConfusion h
  | cons x xs ih =>
    intro t h
    cases xs with
    | nil =>
      obtain rfl : x = t := by simpa using h
      rfl
    | cons y ys =>
      rw [List.getLast?_cons_cons] at h
      have := ih t h
      rw [List.dropLast_cons₂, List.cons_append, ← this]

/-- Keys on the stack below the top differ from the top key. -/
theorem nodup_keys_top (stack d : List PlanTask) (t : PlanTask)
    (hdc : stack = d ++ [t]) (hnd : (stack.map PlanTask.path).Nodup) :
    ∀ u ∈ d, u.path ≠ t.path := by
  rw [hdc, List.map_append] at hnd
  intro u hu hup
  have hdisj := List.disjoint_of_nodup_append hnd
  exact hdisj (List.mem_map_of_mem PlanTask.path hu) (by simp [hup])

/-- Pushing a fresh key preserves key uniqueness. -/
theorem nodup_keys_push (stack : List PlanTask) (t : PlanTask)
    (hnd : (stack.map PlanTask.path).Nodup)
    (hnew : ∀ u ∈ stack, u.path ≠ t.path) :
    ((stack ++ [t]).map PlanTask.path).Nodup := by
  rw [List.map_append]
  rw [List.nodup_append]
  refine ⟨hnd, List.nodup_singleton _, ?_⟩
  intro k hk
  obtain ⟨u, hu, rfl⟩ := List.mem_map.mp hk
  simp [hnew u hu]

/-- The planner-loop invariant over the completed order, the emitted
scripts and the dependency stack. -/
structure PlanInv (fs : Fs) (sd : FsPath) (scripts completed : List FsPath)
    (stack : List PlanTask) : Prop where
  closed : ∀ p ∈ completed, p ∉ scripts →
    ∀ tgt, RequiresM fs sd p tgt → beforeIn completed tgt p
  sclosed : ∀ p ∈ scripts, ∀ tgt, RequiresS fs sd p tgt → beforeIn completed tgt p
  cnodup : completed.Nodup
  ssub : List.Sublist scripts completed
  knodup : (stack.map PlanTask.path).Nodup
  sfresh : ∀ p, PlanTask.script p ∈ stack → p ∉ completed
  mwf : ∀ m, PlanTask.module m ∈ stack → open_module fs m.path = .ok m

/-- Popping a done module preserves the invariant: every rule 1-4 edge of
the popped module has a completed target, so the new completed entry is
edge-closed. -/
theorem inv_pop_module (fs : Fs) (sd : FsPath) (scripts completed : List FsPath)
    (stack1 : List PlanTask) (defer1 defer2 : List FsPath) (m : ModuleInfo)
    (stack2 : List PlanTask)
    (hinv : PlanInv fs sd scripts completed stack1)
    (hlast : stack1.getLast? = some (.module m))
    (hproc : process_module_task fs m stack1 defer1 sd completed = .ok (true, stack2, defer2)) :
    PlanInv fs sd scripts (insertCompleted completed m.path) stack2.dropLast := by
  obtain ⟨rfl, hparent, hsm, hsh, hsc⟩ :=
    process_module_task_done fs m stack1 defer1 sd completed stack2 defer2 hproc
  have hdecomp : stack2 = stack2.dropLast ++ [PlanTask.module m] := getLast?_decomp _ _ hlast
  have hwfm : open_module fs m.path = .ok m := hinv.mwf m (by rw [hdecomp]; simp)
  have hkeys : ∀ u ∈ stack2.dropLast, u.path ≠ m.path := by
    have := nodup_keys_top stack2 stack2.dropLast (PlanTask.module m) hdecomp hinv.knodup
    simpa using this
  have hsubstack : ∀ t, t ∈ stack2.dropLast → t ∈ stack2 :=
    fun t ht => (List.dropLast_sublist stack2).subset ht
  have hknodup : ((stack2.dropLast.map PlanTask.path)).Nodup :=
    List.Nodup.sublist (List.Sublist.map PlanTask.path (List.dropLast_sublist stack2)) hinv.knodup
  by_cases hmem : m.path ∈ completed
  · have hic : insertCompleted completed m.path = completed := by
      unfold insertCompleted
      rw [if_pos (by simpa using hmem)]
    rw [hic]
    exact ⟨hinv.closed, hinv.sclosed, hinv.cnodup, hinv.ssub, hknodup,
      fun p hp => hinv.sfresh p (hsubstack _ hp),
      fun m' hm' => hinv.mwf m' (hsubstack _ hm')⟩
  · have hic : insertCompleted completed m.path = completed ++ [m.path] := by
      unfold insertCompleted
      rw [if_neg (by simpa using hmem)]
    rw [hic]
    refine ⟨?_, ?_, ?_, ?_, hknodup, ?_, fun m' hm' => hinv.mwf m' (hsubstack _ hm')⟩
    · intro p hp hpnots tgt hreq
      rcases List.mem_append.mp hp with hp | hp
      · exact beforeIn_append _ _ _ _ (hinv.closed p hp hpnots tgt hreq)
      · obtain rfl : p = m.path := by simpa using hp
        cases hreq with
        | parent hne hpre =>
          exact beforeIn_extend completed _ _ (hparent hne hpre)
        | moduleDep m2 dep q hom2 hdep hcanon hne =>
          obtain rfl : m = m2 := Except.ok.inj (hwfm.symm.trans hom2)
          rcases scanModuleDeps_none fs sd m.path _ completed m.deps hsm dep hdep q hcanon with
            heq | hmem2
          · exact absurd heq hne
          · exact beforeIn_extend completed _ _ hmem2
        | scriptHoist m2 dep q hom2 hdep hcanon hne =>
          obtain rfl : m = m2 := Except.ok.inj (hwfm.symm.trans hom2)
          exact absurd (scanScriptHoist_none fs sd m.path _ _ hsh dep hdep q hcanon) hne
        | child _ hc1 hc2 hc3 =>
          exact beforeIn_extend completed _ _
            (scanChildren_none fs sd _ completed _ defer1 defer2 hsc _ hc1 hc2 hc3)
    · intro p hp tgt hreq
      exact beforeIn_append _ _ _ _ (hinv.sclosed p hp tgt hreq)
    · simp [List.nodup_append, hinv.cnodup, hmem]
    · exact hinv.ssub.trans (List.sublist_append_left _ _)
    · intro p hp
      have hold := hinv.sfresh p (hsubstack _ hp)
      have hne : p ≠ m.path := by
        have := hkeys (PlanTask.script p) hp
        simpa using this
      simp [hold, hne]

/-- A push step from a module task preserves the invariant. -/
theorem inv_push_module (fs : Fs) (sd : FsPath) (scripts completed : List FsPath)
    (stack1 : List PlanTask) (defer1 defer2 : List FsPath) (m : ModuleInfo)
    (stack2 : List PlanTask)
    (hinv : PlanInv fs sd scripts completed stack1)
    (hproc : process_module_task fs m stack1 defer1 sd completed = .ok (false, stack2, defer2)) :
    PlanInv fs sd scripts completed stack2 := by
  rcases process_module_task_push fs m stack1 defer1 sd completed stack2 defer2 hproc with
    ⟨m', rfl, hm, hnew⟩ | ⟨q, rfl, hqc, hnew⟩
  · refine ⟨hinv.closed, hinv.sclosed, hinv.cnodup, hinv.ssub,
      nodup_keys_push stack1 _ hinv.knodup hnew, ?_, ?_⟩
    · intro p hp
      rcases List.mem_append.mp hp with hp | hp
      · exact hinv.sfresh p hp
      · simp at hp
    · intro m2 hm2
      rcases List.mem_append.mp hm2 with hm2 | hm2
      · exact hinv.mwf m2 hm2
      · obtain rfl : m2 = m' := by simpa using hm2
        exact hm
  · refine ⟨hinv.closed, hinv.sclosed, hinv.cnodup, hinv.ssub,
      nodup_keys_push stack1 _ hinv.knodup hnew, ?_, ?_⟩
    · intro p hp
      rcases List.mem_append.mp hp with hp | hp
      · exact hinv.sfresh p hp
      · obtain rfl : p = q := by simpa using hp
        exact hqc
    · intro m2 hm2
      rcases List.mem_append.mp hm2 with hm2 | hm2
      · exact hinv.mwf m2 hm2
      · simp at hm2

/-- A push step from a script task preserves the invariant. -/
theorem inv_push_script (fs : Fs) (sd : FsPath) (scripts completed : List FsPath)
    (stack1 : List PlanTask) (p : FsPath) (stack2 : List PlanTask)
    (hinv : PlanInv fs sd scripts completed stack1)
    (hproc : process_script_task fs p stack1 sd completed = .ok (false, stack2)) :
    PlanInv fs sd scripts completed stack2 := by
  obtain ⟨q, rfl, hqc, hnew⟩ :=
    process_script_task_push fs p stack1 sd completed stack2 hproc
  refine ⟨hinv.closed, hinv.sclosed, hinv.cnodup, hinv.ssub,
    nodup_keys_push stack1 _ hinv.knodup hnew, ?_, ?_⟩
  · intro p2 hp2
    rcases List.mem_append.mp hp2 with hp2 | hp2
    · exact hinv.sfresh p2 hp2
    · obtain rfl : p2 = q := by simpa using hp2
      exact hqc
  · intro m2 hm2
    rcases List.mem_append.mp hm2 with hm2 | hm2
    · exact hinv.mwf m2 hm2
    · simp at hm2

/-- Popping a done script preserves the invariant: every canonicalized
dependency of the script is already completed, so recording the script is
edge-closed, emitted in completion order. -/
theorem inv_pop_script (fs : Fs) (sd : FsPath) (scripts completed : List FsPath)
    (stack1 : List PlanTask) (p : FsPath) (stack2 : List PlanTask)
    (hinv : PlanInv fs sd scripts completed stack1)
    (hlast : stack1.getLast? = some (.script p))
    (hproc : process_script_task fs p stack1 sd completed = .ok (true, stack2)) :
    PlanInv fs sd (scripts ++ [p]) (insertCompleted completed p) stack2.dropLast := by
  obtain ⟨rfl, hdeps⟩ := process_script_task_done fs p stack1 sd completed stack2 hproc
  have hdecomp : stack2 = stack2.dropLast ++ [PlanTask.script p] := getLast?_decomp _ _ hlast
  have hmem : p ∉ completed := hinv.sfresh p (by rw [hdecomp]; simp)
  have hkeys : ∀ u ∈ stack2.dropLast, u.path ≠ p := by
    have := nodup_keys_top stack2 stack2.dropLast (PlanTask.script p) hdecomp hinv.knodup
    simpa using this
  have hsubstack : ∀ t, t ∈ stack2.dropLast → t ∈ stack2 :=
    fun t ht => (List.dropLast_sublist stack2).subset ht
  have hknodup : ((stack2.dropLast.map PlanTask.path)).Nodup :=
    List.Nodup.sublist (List.Sublist.map PlanTask.path (List.dropLast_sublist stack2)) hinv.knodup
  have hic : insertCompleted completed p = completed ++ [p] := by
    unfold insertCompleted
    rw [if_neg (by simpa using hmem)]
  rw [hic]
  have hnewclosed : ∀ tgt, RequiresS fs sd p tgt → beforeIn (completed ++ [p]) tgt p := by
    intro tgt hreq
    cases hreq with
    | dep m deps dep _ h1 h2 h3 h4 =>
      exact beforeIn_extend completed _ _ (hdeps m deps h1 h2 dep h3 tgt h4)
  refine ⟨?_, ?_, ?_, ?_, hknodup, ?_, fun m' hm' => hinv.mwf m' (hsubstack _ hm')⟩
  · intro p2 hp2 hpnots tgt hreq
    rcases List.mem_append.mp hp2 with hp2 | hp2
    · exact beforeIn_append _ _ _ _
        (hinv.closed p2 hp2 (fun hm => hpnots (List.mem_append.mpr (Or.inl hm))) tgt hreq)
    · obtain rfl : p2 = p := by simpa using hp2
      exact absurd (List.mem_append.mpr (Or.inr (by simp))) hpnots
  · intro p2 hp2 tgt hreq
    rcases List.mem_append.mp hp2 with hp2 | hp2
    · exact beforeIn_append _ _ _ _ (hinv.sclosed p2 hp2 tgt hreq)
    · obtain rfl : p2 = p := by simpa using hp2
      exact hnewclosed tgt hreq
  · simp [List.nodup_append, hinv.cnodup, hmem]
  · exact List.Sublist.append hinv.ssub (List.Sublist.refl [p])
  · intro p2 hp2
    have hold := hinv.sfresh p2 (hsubstack _ hp2)
    have hne : p2 ≠ p := by
      have := hkeys (PlanTask.script p2) hp2
      simpa using this
    simp [hold, hne]

/-- A defer refill preserves the invariant. -/
theorem inv_refill (fs : Fs) (sd : FsPath) (scripts completed : List FsPath)
    (stack : List PlanTask) (defer : List FsPath)
    (stack1 : List PlanTask) (d' : List FsPath)
    (hinv : PlanInv fs sd scripts completed stack)
    (hrf : refillDefer fs sd completed defer = .ok (stack1, d')) :
    PlanInv fs sd scripts completed stack1 := by
  rcases refillDefer_ok fs sd completed defer stack1 d' hrf with rfl | ⟨m', rfl, hm⟩
  · exact ⟨hinv.closed, hinv.sclosed, hinv.cnodup, hinv.ssub, by simp, by simp, by simp⟩
  · refine ⟨hinv.closed, hinv.sclosed, hinv.cnodup, hinv.ssub, by simp, by simp, ?_⟩
    intro m2 hm2
    obtain rfl : m2 = m' := by simpa using hm2
    exact hm

/-- The scheduling loop preserves the invariant up to its final state. -/
theorem build_loop_inv (fs : Fs) (sd : FsPath) :
    ∀ (fuel : Nat) (st stF : BuildState),
    PlanInv fs sd st.scripts st.completed st.dependStack →
    build_loop fs sd fuel st = .ok (some stF) →
    PlanInv fs sd stF.scripts stF.completed stF.dependStack := by
  intro fuel
  induction fuel with
  | zero =>
    intro st stF _ h
    unfold build_loop at h
    exact Option.noConfusion (Except.ok.inj h)
  | succ f ih =>
    intro st stF hinv h
    unfold build_loop at h
    by_cases hempty : (st.dependStack.isEmpty && st.deferStack.isEmpty) = true
    · rw [if_pos hempty] at h
      obtain rfl : st = stF := Option.some.inj (Except.ok.inj h)
      exact hinv
    · rw [if_neg hempty] at h
      dsimp only [bind, Except.bind, pure, Except.pure] at h
      by_cases hde : st.dependStack.isEmpty = true
      · rw [if_pos hde] at h
        cases hrf : refillDefer fs sd st.completed st.deferStack with
        | error e => rw [hrf] at h; exact Except.noConfusion h
        | ok pr =>
          obtain ⟨stack1, defer1⟩ := pr
          rw [hrf] at h
          dsimp only at h
          have hinv1 : PlanInv fs sd st.scripts st.completed stack1 :=
            inv_refill fs sd st.scripts st.completed st.dependStack st.deferStack
              stack1 defer1 hinv hrf
          cases hlast : (stack1).getLast? with
          | none =>
            rw [hlast] at h
            dsimp only at h
            obtain rfl := Option.some.inj (Except.ok.inj h)
            exact ⟨hinv1.closed, hinv1.sclosed, hinv1.cnodup, hinv1.ssub,
              by simp, by simp, by simp⟩
          | some t =>
            rw [hlast] at h
            cases t with
            | module m =>
              dsimp only at h
              cases hpm : process_module_task fs m (stack1) (defer1) sd st.completed with
              | error e => rw [hpm] at h; exact Except.noConfusion h
              | ok v =>
                obtain ⟨done, stack2, defer2⟩ := v
                rw [hpm] at h
                dsimp only at h
                cases done with
                | true =>
                  rw [if_pos rfl] at h
                  exact ih { scripts := st.scripts, dependStack := stack2.dropLast, deferStack := defer2, completed := insertCompleted st.completed m.path } stF
                    (inv_pop_module fs sd st.scripts st.completed (stack1) (defer1)
                      defer2 m stack2 hinv1 hlast hpm) h
                | false =>
                  rw [if_neg (by simp)] at h
                  exact ih { st with dependStack := stack2, deferStack := defer2 } stF
                    (inv_push_module fs sd st.scripts st.completed (stack1) (defer1)
                      defer2 m stack2 hinv1 hpm) h
            | script p =>
              dsimp only at h
              cases hps : process_script_task fs p (stack1) sd st.completed with
              | error e => rw [hps] at h; exact Except.noConfusion h
              | ok v =>
                obtain ⟨done, stack2⟩ := v
                rw [hps] at h
                dsimp only at h
                cases done with
                | true =>
                  rw [if_pos rfl] at h
                  exact ih { scripts := st.scripts ++ [p], dependStack := stack2.dropLast, deferStack := defer1, completed := insertCompleted st.completed p } stF
                    (inv_pop_script fs sd st.scripts st.completed (stack1)
                      p stack2 hinv1 hlast hps) h
                | false =>
                  rw [if_neg (by simp)] at h
                  exact ih { st with dependStack := stack2, deferStack := defer1 } stF
                    (inv_push_script fs sd st.scripts st.completed (stack1)
                      p stack2 hinv1 hps) h

      · rw [if_neg hde] at h
        cases hlast : (st.dependStack).getLast? with
        | none =>
          rw [hlast] at h
          dsimp only at h
          obtain rfl := Option.some.inj (Except.ok.inj h)
          exact ⟨hinv.closed, hinv.sclosed, hinv.cnodup, hinv.ssub,
            by simp, by simp, by simp⟩
        | some t =>
          rw [hlast] at h
          cases t with
          | module m =>
            dsimp only at h
            cases hpm : process_module_task fs m (st.dependStack) (st.deferStack) sd st.completed with
            | error e => rw [hpm] at h; exact Except.noConfusion h
            | ok v =>
              obtain ⟨done, stack2, defer2⟩ := v
              rw [hpm] at h
              dsimp only at h
              cases done with
              | true =>
                rw [if_pos rfl] at h
                exact ih { scripts := st.scripts, dependStack := stack2.dropLast, deferStack := defer2, completed := insertCompleted st.completed m.path } stF
                  (inv_pop_module fs sd st.scripts st.completed (st.dependStack) (st.deferStack)
                    defer2 m stack2 hinv hlast hpm) h
              | false =>
                rw [if_neg (by simp)] at h
                exact ih { st with dependStack := stack2, deferStack := defer2 } stF
                  (inv_push_module fs sd st.scripts st.completed (st.dependStack) (st.deferStack)
                    defer2 m stack2 hinv hpm) h
          | script p =>
            dsimp only at h
            cases hps : process_script_task fs p (st.dependStack) sd st.completed with
            | error e => rw [hps] at h; exact Except.noConfusion h
            | ok v =>
              obtain ⟨done, stack2⟩ := v
              rw [hps] at h
              dsimp only at h
              cases done with
              | true =>
                rw [if_pos rfl] at h
                exact ih { scripts := st.scripts ++ [p], dependStack := stack2.dropLast, deferStack := st.deferStack, completed := insertCompleted st.completed p } stF
                  (inv_pop_script fs sd st.scripts st.completed (st.dependStack)
                    p stack2 hinv hlast hps) h
              | false =>
                rw [if_neg (by simp)] at h
                exact ih { st with dependStack := stack2, deferStack := st.deferStack } stF
                  (inv_push_script fs sd st.scripts st.completed (st.dependStack)
                    p stack2 hinv hps) h


/-- C1: for every project on which `build_project` succeeds, the
completion order respects every declared dependency edge of rules 1-5:
every completed module's rule 1-4 targets and every emitted script's
rule 5 targets are completed strictly before it (completed paths outside
the emitted script list are exactly the module-completed tasks), the
emitted script list is the completion order restricted to scripts, the
completion order respects the transitive closure of all rule 1-5 edges,
and in particular a script is emitted only after every script it
transitively depends on. -/
theorem build_order_respects_dependencies (fuel : Nat) (fs : Fs) (info : ProjectInfo)
    (a : BuildArtifact) (hrun : build_project fuel fs info = .ok (some a)) :
    ∃ st, build_project_trace fuel fs info = .ok (some st) ∧
      a.scripts = st.scripts ∧
      st.completed.Nodup ∧
      List.Sublist st.scripts st.completed ∧
      (∀ p ∈ st.completed, p ∉ st.scripts →
        ∀ tgt, RequiresM fs info.source_dir p tgt → beforeIn st.completed tgt p) ∧
      (∀ p ∈ st.scripts, ∀ tgt, RequiresS fs info.source_dir p tgt → beforeIn st.completed tgt p) ∧
      (∀ p q, Relation.TransGen
          (fun x y => (x ∈ st.scripts ∧ RequiresS fs info.source_dir x y) ∨
            (x ∈ st.completed ∧ x ∉ st.scripts ∧ RequiresM fs info.source_dir x y)) p q →
        p ∈ st.completed → beforeIn st.completed q p) ∧
      (∀ p q, Relation.TransGen
          (fun x y => RequiresS fs info.source_dir x y ∧ x ∈ st.scripts ∧ y ∈ st.scripts) p q →
        beforeIn st.scripts q p) := by
  unfold build_project at hrun
  cases ht : build_project_trace fuel fs info with
  | error e => rw [ht] at hrun; exact Except.noConfusion hrun
  | ok o =>
    rw [ht] at hrun
    cases o with
    | none => simp [Except.map] at hrun
    | some st =>
      simp only [Except.map, Option.map] at hrun
      obtain rfl : BuildArtifact.new st.scripts info = a := Option.some.inj (Except.ok.inj hrun)
      have hfinal : PlanInv fs info.source_dir st.scripts st.completed st.dependStack := by
        unfold build_project_trace at ht
        dsimp only at ht
        split at ht
        · obtain rfl := Option.some.inj (Except.ok.inj ht)
          exact ⟨by simp, by simp, by simp, by simp, by simp, by simp, by simp⟩
        · cases hpm0 : push_module fs info.source_dir [] info.source_dir with
          | error e => rw [hpm0] at ht; exact Except.noConfusion ht
          | ok stack0 =>
            rw [hpm0] at ht
            obtain ⟨m0, rfl, hm0, hp0, _⟩ :=
              push_module_ok fs info.source_dir [] info.source_dir stack0 hpm0
            have hinv0 : PlanInv fs info.source_dir [] []
                ([] ++ [PlanTask.module m0] : List PlanTask) := by
              refine ⟨by simp, by simp, by simp, by simp, by simp, by simp, ?_⟩
              intro m2 hm2
              obtain rfl : m2 = m0 := by simpa using hm2
              rw [hp0]
              exact hm0
            exact build_loop_inv fs info.source_dir fuel
              { scripts := [], dependStack := [] ++ [PlanTask.module m0],
                deferStack := [], completed := [] } st hinv0 ht
      have hsnodup : st.scripts.Nodup := List.Nodup.sublist hfinal.ssub hfinal.cnodup
      have hstep : ∀ x y,
          ((x ∈ st.scripts ∧ RequiresS fs info.source_dir x y) ∨
            (x ∈ st.completed ∧ x ∉ st.scripts ∧ RequiresM fs info.source_dir x y)) →
          beforeIn st.completed y x := by
        intro x y hxy
        rcases hxy with ⟨hx, hreq⟩ | ⟨hx, hxn, hreq⟩
        · exact hfinal.sclosed x hx y hreq
        · exact hfinal.closed x hx hxn y hreq
      refine ⟨st, rfl, rfl, hfinal.cnodup, hfinal.ssub, hfinal.closed, hfinal.sclosed, ?_, ?_⟩
      · intro p q htg
        induction htg with
        | single hr =>
          intro _
          exact hstep _ _ hr
        | tail hab hbc ihab =>
          intro hp
          have hbefore := ihab hp
          have hedge := hstep _ _ hbc
          exact beforeIn_trans st.completed hfinal.cnodup _ _ _ hedge hbefore
      · intro p q htg
        induction htg with
        | single hr =>
          obtain ⟨hreq, hx, hy⟩ := hr
          exact beforeIn_sublist st.scripts st.completed hfinal.ssub hfinal.cnodup _ _
            (hfinal.sclosed _ hx _ hreq) hy hx
        | tail hab hbc ihab =>
          obtain ⟨hreq, hb, hc⟩ := hbc
          have hedge := beforeIn_sublist st.scripts st.completed hfinal.ssub hfinal.cnodup _ _
            (hfinal.sclosed _ hb _ hreq) hc hb
          exact beforeIn_trans st.scripts hsnodup _ _ _ hedge ihab

/-- A one-script project for the order witness. -/
def fsW1 : Fs :=
  { nodes := [.dir ["src"], .file ["src", "a.sql"] (strBytes "select 1;")],
    moduleManifests := [], artifactManifests := [], projectManifests := [] }

/-- Its project descriptor. -/
def infoW1 : ProjectInfo := { title := "demo", version := v100W, root := [] }

/-- Witness for C1 at a concrete one-script project. -/
theorem build_order_respects_dependencies_witness :
    ∃ st, build_project_trace 5 fsW1 infoW1 = .ok (some st) ∧
      (BuildArtifact.new [["src", "a.sql"]] infoW1).scripts = st.scripts ∧
      st.completed.Nodup ∧
      List.Sublist st.scripts st.completed ∧
      (∀ p ∈ st.completed, p ∉ st.scripts →
        ∀ tgt, RequiresM fsW1 infoW1.source_dir p tgt → beforeIn st.completed tgt p) ∧
      (∀ p ∈ st.scripts, ∀ tgt, RequiresS fsW1 infoW1.source_dir p tgt →
        beforeIn st.completed tgt p) ∧
      (∀ p q, Relation.TransGen
          (fun x y => (x ∈ st.scripts ∧ RequiresS fsW1 infoW1.source_dir x y) ∨
            (x ∈ st.completed ∧ x ∉ st.scripts ∧ RequiresM fsW1 infoW1.source_dir x y)) p q →
        p ∈ st.completed → beforeIn st.completed q p) ∧
      (∀ p q, Relation.TransGen
          (fun x y => RequiresS fsW1 infoW1.source_dir x y ∧ x ∈ st.scripts ∧ y ∈ st.scripts) p q →
        beforeIn st.scripts q p) :=
  build_order_respects_dependencies 5 fsW1 infoW1
    (BuildArtifact.new [["src", "a.sql"]] infoW1) (by decide)
